import Mathlib

/-!
# essensplan-spa: the menu text parser and the menu collection processor

A shallow embedding of `src/js/js.js` (the functions `processMenueItem`,
`sortMenueItemsByMenueGroupePriority`, the tables `allergene` and
`zusatzstoffe`, and the processing pipeline of `displayMenuesForToday`).

A JavaScript string is modelled as a `List Char`, one list element for each
character.  The program only ever distinguishes the characters `(`, `)`, `,`,
the space, `[`, `b`, `r`, `]`, the digits, the capital letters `A`-`Z` and the
white space that `trim` removes; every other character is passed through, so
that it makes no difference whether a character outside the basic plane
counts as one element or as two code units.

The regular expressions of the source are kept as data (`Regex`) and run by a
backtracking matcher (`Regex.matchFrom`) that lists the possible matches at a
position in the priority order of the ECMAScript semantics; `exec`, `test`,
`replace` and `match` with the `g` flag are built on top of it.

`processMenueItem` is given twice: as a function on the value of an entry,
and statement by statement on a heap of objects (`processMenueItemOnHeap`),
where the writes of the source can be told apart.  The loop of
`displayMenuesForToday` that builds the HTML is `displayHtml`.
-/

namespace Essensplan

/-- A JavaScript string value. -/
abbrev JSString := List Char

/-! ## String built-ins -/

/-- The characters removed by `String.prototype.trim`: WhiteSpace and
LineTerminator of ECMAScript. -/
def isTrimSpace (c : Char) : Bool :=
  let n := c.toNat
  n == 0x09 || n == 0x0A || n == 0x0B || n == 0x0C || n == 0x0D || n == 0x20 ||
  n == 0xA0 || n == 0x1680 || (decide (0x2000 ≤ n) && decide (n ≤ 0x200A)) ||
  n == 0x2028 || n == 0x2029 || n == 0x202F || n == 0x205F || n == 0x3000 ||
  n == 0xFEFF

/-- The method `String.prototype.trim`. -/
def trim (s : JSString) : JSString :=
  ((s.dropWhile isTrimSpace).reverse.dropWhile isTrimSpace).reverse

/-- Does `sep` occur at the start of `s`? -/
def startsWith : JSString → JSString → Bool
  | [], _ => true
  | _ :: _, [] => false
  | a :: p, b :: s => a == b && startsWith p s

/-- Worker of `split`: `skip` counts the characters of a separator that was
just found and still have to be passed over, `acc` is the segment collected
so far. -/
def splitAux (sep : JSString) : JSString → Nat → JSString → List JSString
  | [], _, acc => [acc]
  | _ :: t, skip + 1, acc => splitAux sep t skip acc
  | c :: t, 0, acc =>
    if startsWith sep (c :: t) then acc :: splitAux sep t (sep.length - 1) []
    else splitAux sep t 0 (acc ++ [c])

/-- The method `String.prototype.split` with a non-empty string separator and
no limit. -/
def split (sep : JSString) (s : JSString) : List JSString :=
  splitAux sep s 0 []

/-- The method `Array.prototype.join` on an array of strings. -/
def join (sep : JSString) (xs : List JSString) : JSString :=
  List.intercalate sep xs

/-! ## Regular expressions -/

/-- The fragment of the ECMAScript pattern language used by the source. -/
inductive Regex where
  /-- A literal character, such as `\(` or `,`. -/
  | chr (c : Char)
  /-- A character class `[...]` or `[^...]` given by its ranges. -/
  | cls (negated : Bool) (ranges : List (Char × Char))
  /-- Concatenation. -/
  | seq (a b : Regex)
  /-- Alternation `a|b`, `a` tried first. -/
  | alt (a b : Regex)
  /-- Greedy repetition `a*`. -/
  | star (a : Regex)
  /-- A capturing group `(a)`. -/
  | group (a : Regex)

/-- Greedy repetition `a+`. -/
def Regex.plus (a : Regex) : Regex := .seq a (.star a)

/-- Membership of a character in a class. -/
def classHas (negated : Bool) (ranges : List (Char × Char)) (c : Char) : Bool :=
  xor negated (ranges.any fun r => decide (r.1.toNat ≤ c.toNat) && decide (c.toNat ≤ r.2.toNat))

/-- One outcome of matching at a position: the text left after the match and
the texts of the capturing groups. -/
abbrev Outcome := JSString × List JSString

/-- The iterations of a greedy `*`: as many iterations as possible are tried
first, an iteration that consumes nothing is rejected.  The first argument
bounds the number of iterations; the length of the text is always enough.
Groups below a `*` are not recorded (the source has none). -/
def starLoop (step : JSString → List Outcome) : Nat → JSString → List Outcome
  | 0, s => [(s, [])]
  | n + 1, s =>
    ((step s).filter fun p => decide (p.1.length < s.length)).flatMap
      (fun p => starLoop step n p.1) ++ [(s, [])]

/-- All ways in which the pattern matches at the start of `s`, in the order in
which a backtracking matcher finds them. -/
def Regex.matchFrom : Regex → JSString → List Outcome
  | .chr c, s =>
    match s with
    | x :: t => if x = c then [(t, [])] else []
    | [] => []
  | .cls negated ranges, s =>
    match s with
    | x :: t => if classHas negated ranges x then [(t, [])] else []
    | [] => []
  | .seq a b, s =>
    (a.matchFrom s).flatMap fun p => (b.matchFrom p.1).map fun q => (q.1, p.2 ++ q.2)
  | .alt a b, s => a.matchFrom s ++ b.matchFrom s
  | .star a, s => starLoop a.matchFrom s.length s
  | .group a, s =>
    (a.matchFrom s).map fun p => (p.1, s.take (s.length - p.1.length) :: p.2)

/-- The match found at the start of `s`, if any. -/
def Regex.execAt (re : Regex) (s : JSString) : Option Outcome :=
  (re.matchFrom s).head?

/-- The method `RegExp.prototype.test` of a pattern without flags: is there a
match at some position? -/
def Regex.test (re : Regex) : JSString → Bool
  | [] => (re.execAt []).isSome
  | c :: t => (re.execAt (c :: t)).isSome || Regex.test re t

/-- A piece of a text scanned with a global pattern. -/
inductive Piece where
  /-- A character outside every match. -/
  | text (c : Char)
  /-- A match, with the texts of its groups. -/
  | hit (m : JSString) (caps : List JSString)

/-- The left-to-right scan of a pattern with the `g` flag: the leftmost match
is taken and the scan goes on behind it (one character further after an empty
match).  The first argument bounds the number of steps; one more than the
length of the text is always enough. -/
def scanAll (re : Regex) : Nat → JSString → List Piece
  | 0, _ => []
  | fuel + 1, s =>
    match re.execAt s with
    | some (rest, caps) =>
      if rest.length < s.length then
        .hit (s.take (s.length - rest.length)) caps :: scanAll re fuel rest
      else
        match s with
        | [] => [.hit [] caps]
        | c :: t => .hit [] caps :: .text c :: scanAll re fuel t
    | none =>
      match s with
      | [] => []
      | c :: t => .text c :: scanAll re fuel t

/-- The pieces of `s` under the global pattern `re`. -/
def Regex.pieces (re : Regex) (s : JSString) : List Piece :=
  scanAll re (s.length + 1) s

/-- A token of a replacement string: literal text or `$n`. -/
inductive ReplTok where
  | lit (s : JSString)
  | grp (n : Nat)

/-- The text a replacement string stands for at a match. -/
def expand (caps : List JSString) : List ReplTok → JSString
  | [] => []
  | .lit s :: r => s ++ expand caps r
  | .grp n :: r => (caps.get? (n - 1)).getD [] ++ expand caps r

/-- The text that a scan is replaced by: the characters outside the matches
stay, each match gives way to the replacement string. -/
def replaced (repl : List ReplTok) (ps : List Piece) : JSString :=
  ps.flatMap fun
    | .text c => [c]
    | .hit _ caps => expand caps repl

/-- The texts of the matches of a scan. -/
def hitTexts (ps : List Piece) : List JSString :=
  ps.filterMap fun
    | .text _ => none
    | .hit m _ => some m

/-- The method `String.prototype.replace` with a global pattern and a
replacement string. -/
def replaceAll (re : Regex) (repl : List ReplTok) (s : JSString) : JSString :=
  replaced repl (re.pieces s)

/-- The method `String.prototype.match` with a global pattern: the matched
texts, or `null` (here `none`) when there is no match. -/
def matchAll (re : Regex) (s : JSString) : Option (List JSString) :=
  let ms := hitTexts (re.pieces s)
  if ms.isEmpty then none else some ms

/-! ## The patterns of the source -/

/-- The pattern `/\([^)]+\)/`. -/
def legendRe : Regex :=
  .seq (.chr '(') (.seq (Regex.plus (.cls true [(')', ')')])) (.chr ')'))

/-- The alternative `[1-9]|1[0-5]`. -/
def additiveNumRe : Regex :=
  .alt (.cls false [('1', '9')]) (.seq (.chr '1') (.cls false [('0', '5')]))

/-- The alternative `,[1-9]|,1[0-5]`. -/
def additiveTailRe : Regex :=
  .alt (.seq (.chr ',') (.cls false [('1', '9')]))
    (.seq (.chr ',') (.seq (.chr '1') (.cls false [('0', '5')])))

/-- The pattern `/\((?:[1-9]|1[0-5])(?:,[1-9]|,1[0-5])*\)/g`. -/
def additiveRe : Regex :=
  .seq (.chr '(') (.seq additiveNumRe (.seq (.star additiveTailRe) (.chr ')')))

/-- The pattern `/\(([A-Z](?:,[A-Z])*)\)/g`. -/
def allergenRe : Regex :=
  .seq (.chr '(')
    (.seq (.group (.seq (.cls false [('A', 'Z')])
      (.star (.seq (.chr ',') (.cls false [('A', 'Z')]))))) (.chr ')'))

/-- The pattern `/,([^ ])/g`. -/
def commaRe : Regex :=
  .seq (.chr ',') (.group (.cls true [(' ', ' ')]))

/-- The pattern `/[()]/g`. -/
def parenRe : Regex :=
  .cls false [('(', '('), (')', ')')]

/-! ## The reference tables -/

/-- The table `allergene`, in the order of the source. -/
def allergene : List (JSString × JSString) :=
  [ ("A".toList, "Glutenhaltige Getreide".toList),
    ("C".toList, "Eier- und Eiererzeugnisse".toList),
    ("D".toList, "Fisch- und Fischerzeugnisse".toList),
    ("E".toList, "Erdnüsse und Erdnusserzeugnisse".toList),
    ("F".toList, "Soja und Sojaerzeugnisse".toList),
    ("G".toList, "Milch und Milcherzeugnisse".toList),
    ("H".toList, "Schalenfrüchte".toList),
    ("I".toList, "Sellerie und Sellerieerzeugnisse".toList),
    ("J".toList, "Senf und Senferzeugnisse".toList),
    ("K".toList, "Sesamsamen".toList),
    ("L".toList, "Schwefeldioxid und Sulfite".toList),
    ("M".toList, "Lupinen".toList),
    ("N".toList, "Weichtiere".toList),
    ("B".toList, "Krebstiere".toList) ]

/-- The table `zusatzstoffe`. -/
def zusatzstoffe : List (JSString × JSString) :=
  [ ("1".toList, "mit Konservierungsstoff".toList),
    ("2".toList, "mit Farbstoff".toList),
    ("3".toList, "mit Antioxydationsmittel".toList),
    ("4".toList, "mit Süßungsmittel Saccarin".toList),
    ("5".toList, "mit Süßungsmittel Cyclamat".toList),
    ("6".toList, "mit Süßungsmittel Aspartam".toList),
    ("7".toList, "mit Süßungsmittel Acesulfam".toList),
    ("8".toList, "mit Phosphat".toList),
    ("9".toList, "geschwefelt".toList),
    ("10".toList, "chininhaltig".toList),
    ("11".toList, "coffeinhaltig".toList),
    ("12".toList, "mit Geschmacksverstärker".toList),
    ("13".toList, "geschwärzt".toList),
    ("14".toList, "gewachst".toList),
    ("15".toList, "mit Schweinefleisch".toList) ]

/-- The value of a property read `table[key]`. -/
inductive JSValue where
  /-- A string, the value of an own property of a table. -/
  | str (s : JSString)
  /-- A member inherited from `Object.prototype` (a function or an object). -/
  | inherited (name : JSString)
  /-- The value `undefined` of a missing property. -/
  | undefined
  deriving DecidableEq

/-- The property names that every object literal inherits from
`Object.prototype`. -/
def objectPrototypeKeys : List JSString :=
  [ "constructor".toList, "hasOwnProperty".toList, "isPrototypeOf".toList,
    "propertyIsEnumerable".toList, "toLocaleString".toList, "toString".toList,
    "valueOf".toList, "__proto__".toList, "__defineGetter__".toList,
    "__defineSetter__".toList, "__lookupGetter__".toList, "__lookupSetter__".toList ]

/-- The own property `key` of a table, if there is one. -/
def ownProperty : List (JSString × JSString) → JSString → Option JSString
  | [], _ => none
  | (k, v) :: rest, key => if k = key then some v else ownProperty rest key

/-- The property read `table[key]` on an object literal: an own property
first, then the prototype, else `undefined`. -/
def getProperty (table : List (JSString × JSString)) (key : JSString) : JSValue :=
  match ownProperty table key with
  | some v => .str v
  | none => if key ∈ objectPrototypeKeys then .inherited key else .undefined

/-- The conversion `Boolean(v)`. -/
def JSValue.truthy : JSValue → Bool
  | .str s => !s.isEmpty
  | .inherited _ => true
  | .undefined => false

/-! ## Menu entries -/

/-- The annex `processed` that `processMenueItem` adds to an entry. -/
structure Processed where
  menueTextWithBr : JSString
  menueTextWithSpaces : JSString
  additives : List JSValue
  additivesIds : List JSString
  allergene : List JSValue
  allergeneIds : List JSString
  deriving DecidableEq

/-- A menu entry (`TagesMenue`): the fields the program reads, the remaining
fields of the feed kept as `others`, and the annex, absent on an entry of the
feed. -/
structure TagesMenue where
  bezeichnung : JSString
  gesperrt : Bool
  menueGruppe : Int
  menueText : JSString
  others : List (JSString × JSString)
  processed : Option Processed
  deriving DecidableEq

/-! ## The parser -/

/-- Line 232 of `processMenueItem`:
`s.replace(/\((?:[1-9]|1[0-5])(?:,[1-9]|,1[0-5])*\)/g, '')`. -/
def stripAdditives (s : JSString) : JSString :=
  replaceAll additiveRe [] s

/-- Line 235 of `processMenueItem`: `s.replace(/,([^ ])/g, ', $1')`. -/
def normaliseCommas (s : JSString) : JSString :=
  replaceAll commaRe [.lit ", ".toList, .grp 1] s

/-- Line 224 of `processMenueItem`: the text split at `[br]`, each segment
trimmed. -/
def splitLines (menueText : JSString) : List JSString :=
  (split "[br]".toList menueText).map trim

/-- Lines 227-229 of `processMenueItem`: the last line is removed when the
pattern `/\([^)]+\)/` matches in it. -/
def dropLegend (splitMenueText : List JSString) : List JSString :=
  if splitMenueText.length != 0 &&
      legendRe.test (splitMenueText.getD (splitMenueText.length - 1) []) then
    splitMenueText.dropLast
  else splitMenueText

/-- The lines of the display text: lines 224-235 of `processMenueItem`. -/
def displayLines (menueText : JSString) : List JSString :=
  ((dropLegend (splitLines menueText)).map stripAdditives).map normaliseCommas

/-- The codes of the groups found by a global pattern: lines 242-248 and
251-257 of `processMenueItem`. -/
def extractIds (re : Regex) (menueText : JSString) : List JSString :=
  match matchAll re menueText with
  | some ms =>
    (ms.flatMap fun s => split ",".toList (replaceAll parenRe [] s)).filter
      fun id => !id.isEmpty
  | none => []

/-- The annex computed by `processMenueItem` from the text of an entry. -/
def processText (menueText : JSString) : Processed :=
  let splitMenueText := displayLines menueText
  let additives := extractIds additiveRe menueText
  let allergeneIds := extractIds allergenRe menueText
  { menueTextWithBr := join "<br/>".toList splitMenueText
    menueTextWithSpaces := join " ".toList splitMenueText
    additives := (additives.map (getProperty zusatzstoffe)).filter JSValue.truthy
    additivesIds := additives
    allergene := (allergeneIds.map (getProperty allergene)).filter JSValue.truthy
    allergeneIds := allergeneIds }

/-- The function `processMenueItem`: a copy of the entry with the annex
`processed` set. -/
def processMenueItem (menueItem : TagesMenue) : TagesMenue :=
  { menueItem with processed := some (processText menueItem.menueText) }

/-! ## The collection processor -/

/-- The function `sortMenueItemsByMenueGroupePriority`. -/
def sortMenueItemsByMenueGroupePriority (a b : TagesMenue) : Int :=
  b.menueGruppe - a.menueGruppe

/-- Insertion of `x` in front of a sorted list: `x` moves behind the elements
that the comparator puts before it, and stays in front of the first element
it compares equal to or before. -/
def sortInsert {α : Type} (cmp : α → α → Int) (x : α) : List α → List α
  | [] => [x]
  | y :: ys => if cmp x y ≤ 0 then x :: y :: ys else y :: sortInsert cmp x ys

/-- The method `Array.prototype.sort` with a comparator, which ECMAScript
requires to be stable; modelled as an insertion sort. -/
def sortBy {α : Type} (cmp : α → α → Int) : List α → List α
  | [] => []
  | x :: xs => sortInsert cmp x (sortBy cmp xs)

/-- The pipeline `Object.values(menues).map(processMenueItem).sort(...)` of
`displayMenuesForToday`, on the list `Object.values(menues)`. -/
def processAndSort (menues : List TagesMenue) : List TagesMenue :=
  sortBy sortMenueItemsByMenueGroupePriority (menues.map processMenueItem)

/-! ## Specification vocabulary -/

/-- The texts a pattern matches as a whole. -/
def Regex.Lang : Regex → JSString → Prop
  | .chr c, m => m = [c]
  | .cls negated ranges, m => ∃ x, classHas negated ranges x = true ∧ m = [x]
  | .seq a b, m => ∃ m1 m2, a.Lang m1 ∧ b.Lang m2 ∧ m = m1 ++ m2
  | .alt a b, m => a.Lang m ∨ b.Lang m
  | .star a, m => ∃ ms : List JSString, (∀ x ∈ ms, a.Lang x ∧ x ≠ []) ∧ m = ms.flatten
  | .group a, m => a.Lang m

/-- No text of the language is a proper beginning of another one. -/
def Regex.Determined (re : Regex) : Prop :=
  ∀ m1 m2 t1 t2 : JSString, re.Lang m1 → re.Lang m2 → m1 ++ t1 = m2 ++ t2 → m1 = m2

/-- A parenthetical group: `(`, one or more characters other than `)`, `)`. -/
def IsParenGroup (m : JSString) : Prop :=
  ∃ body : JSString, body ≠ [] ∧ ')' ∉ body ∧ m = '(' :: body ++ [')']

/-- The text `m` occurs in `s`. -/
def Occurs (m s : JSString) : Prop :=
  ∃ a b : JSString, s = a ++ m ++ b

/-- The text contains a parenthetical group. -/
def HasParenGroup (s : JSString) : Prop :=
  ∃ m, IsParenGroup m ∧ Occurs m s

/-- An additive code: the decimal numeral of an integer in 1..15. -/
def IsAdditiveCode (c : JSString) : Prop :=
  ∃ n : Nat, 1 ≤ n ∧ n ≤ 15 ∧ c = (Nat.repr n).toList

/-- An allergen code: a single capital letter `A`-`Z`. -/
def IsAllergenCode (c : JSString) : Prop :=
  ∃ x : Char, 'A'.toNat ≤ x.toNat ∧ x.toNat ≤ 'Z'.toNat ∧ c = [x]

/-- The group `(c1,c2,...,ck)` written for the codes `c1`, ..., `ck`. -/
def groupOf (codes : List JSString) : JSString :=
  '(' :: List.intercalate [','] codes ++ [')']

/-- An additive group: a parenthesised, comma-separated, non-empty list of
additive codes. -/
def IsAdditiveGroup (g : JSString) : Prop :=
  ∃ codes : List JSString, codes ≠ [] ∧ (∀ c ∈ codes, IsAdditiveCode c) ∧ g = groupOf codes

/-- An allergen group: a parenthesised, comma-separated, non-empty list of
allergen codes. -/
def IsAllergenGroup (g : JSString) : Prop :=
  ∃ codes : List JSString, codes ≠ [] ∧ (∀ c ∈ codes, IsAllergenCode c) ∧ g = groupOf codes

/-- A code text without parentheses and commas, and not empty. -/
def PlainCode (c : JSString) : Prop :=
  c ≠ [] ∧ ∀ x ∈ c, x ≠ '(' ∧ x ≠ ')' ∧ x ≠ ','

/-- The text has a comma that is directly followed by a character other than
the space. -/
def HasTightComma (s : JSString) : Prop :=
  ∃ c : Char, c ≠ ' ' ∧ Occurs [',', c] s

/-- A decision procedure for `Occurs`. -/
def occursB (m : JSString) : JSString → Bool
  | [] => startsWith m []
  | c :: t => startsWith m (c :: t) || occursB m t

/-- An entry of the feed with the given text, the other fields empty. -/
def entryOf (menueText : JSString) : TagesMenue :=
  { bezeichnung := [], gesperrt := false, menueGruppe := 0, menueText := menueText,
    others := [], processed := none }

/-- The text `t0 (g1) t1 (g2) t2 ... (gk) tk`: each element of `gs` is the
list of codes of a group together with the text that follows the group. -/
def groupedText (t0 : JSString) (gs : List (List JSString × JSString)) : JSString :=
  t0 ++ (gs.map fun g => groupOf g.1 ++ g.2).flatten

/-- The text contains no parenthesis. -/
def NoParens (w : JSString) : Prop :=
  '(' ∉ w ∧ ')' ∉ w

/-- A group without parentheses inside: `(`, one or more characters other
than `(` and `)`, `)`. -/
def IsFlatGroup (m : JSString) : Prop :=
  ∃ body : JSString, body ≠ [] ∧ NoParens body ∧ m = '(' :: body ++ [')']

/-- Is the character `x`, followed by the text `t`, a comma that is directly
followed by a character other than the space? -/
def tightAt (x : Char) (t : JSString) : Bool :=
  x == ',' && (match t with
    | c :: _ => c != ' '
    | [] => false)

/-- The text with one space inserted after each comma that is directly
followed by a character other than the space; every other character is
kept. -/
def spaceAfterTightCommas : JSString → JSString
  | [] => []
  | x :: t =>
    if tightAt x t then x :: ' ' :: spaceAfterTightCommas t
    else x :: spaceAfterTightCommas t

/-- The comma spacing in the words of the specification: one space inserted
after each comma that is not already followed by white space, every other
character unchanged. -/
def claimedCommaSpacing : JSString → JSString
  | [] => []
  | x :: t =>
    if x == ',' && !(match t with
        | c :: _ => isTrimSpace c
        | [] => false) then x :: ' ' :: claimedCommaSpacing t
    else x :: claimedCommaSpacing t

/-- The parentheses of the text are not nested: between two opening
parentheses there is always a closing one. -/
def Unnested (s : JSString) : Prop :=
  ∀ a m b : JSString, s = a ++ '(' :: m ++ '(' :: b → ')' ∈ m

/-- A decision procedure for `Unnested`; the flag tells whether an opening
parenthesis has been read that is not closed yet. -/
def unnestedB : JSString → Bool → Bool
  | [], _ => true
  | c :: t, inside =>
    if c = '(' then !inside && unnestedB t true
    else if c = ')' then unnestedB t false
    else unnestedB t inside

/-! ## Entries as objects on a heap

`processMenueItem` above is the function from the value of the entry to the
value of the result.  The following model keeps the objects of the program
on a heap, so that the writes of lines 220-263 are visible: a reference is an
index into the heap, `{ ...menueItem }` allocates an object, and every
assignment is an update of the heap. -/

/-- An annex object; a property is absent until it is assigned. -/
structure AnnexObj where
  menueTextWithBr : Option JSString
  menueTextWithSpaces : Option JSString
  additives : Option (List JSValue)
  additivesIds : Option (List JSString)
  allergene : Option (List JSValue)
  allergeneIds : Option (List JSString)
  deriving DecidableEq

/-- An entry object; the property `processed`, when present, is a reference
to an annex object. -/
structure EntryObj where
  bezeichnung : JSString
  gesperrt : Bool
  menueGruppe : Int
  menueText : JSString
  others : List (JSString × JSString)
  processed : Option Nat
  deriving DecidableEq

/-- The heap: the entry objects and the annex objects. -/
structure Heap where
  entries : List EntryObj
  annexes : List AnnexObj
  deriving DecidableEq

/-- The list with `f` applied to the element at an index. -/
def updateAt {α : Type} (f : α → α) : List α → Nat → List α
  | [], _ => []
  | x :: xs, 0 => f x :: xs
  | x :: xs, n + 1 => x :: updateAt f xs n

/-- The object literal `{}`. -/
def emptyAnnex : AnnexObj :=
  { menueTextWithBr := none, menueTextWithSpaces := none, additives := none,
    additivesIds := none, allergene := none, allergeneIds := none }

/-- The read `item.menueText`. -/
def readText (h : Heap) (item : Nat) : Option JSString :=
  (h.entries.get? item).map fun o => o.menueText

/-- The assignment `item.processed = annex`. -/
def setProcessed (h : Heap) (item annex : Nat) : Heap :=
  { h with entries := updateAt (fun o => { o with processed := some annex }) h.entries item }

/-- An assignment `item.processed.property = value`, given as the update `f`
of the annex object; it fails when `item.processed` is absent. -/
def writeAnnex (h : Heap) (item : Nat) (f : AnnexObj → AnnexObj) : Option Heap :=
  match (h.entries.get? item).bind fun o => o.processed with
  | some a => some { h with annexes := updateAt f h.annexes a }
  | none => none

/-- The function `processMenueItem` on the heap, statement by statement; the
result is the new heap and the reference that is returned. -/
def processMenueItemOnHeap (h : Heap) (menueItem : Nat) : Option (Heap × Nat) := do
  -- const newItem = { ...menueItem };
  let src ← h.entries.get? menueItem
  let newItem := h.entries.length
  let h : Heap := { h with entries := h.entries ++ [src] }
  -- newItem.processed = {};
  let annex := h.annexes.length
  let h := setProcessed { h with annexes := h.annexes ++ [emptyAnnex] } newItem annex
  -- let splitMenueText = menueItem.menueText.split('[br]') ... (lines 224-235)
  let text1 ← readText h menueItem
  let splitMenueText := displayLines text1
  -- newItem.processed.menueTextWithBr = splitMenueText.join('<br/>');
  let h ← writeAnnex h newItem fun a =>
    { a with menueTextWithBr := some (join "<br/>".toList splitMenueText) }
  -- newItem.processed.menueTextWithSpaces = splitMenueText.join(' ');
  let h ← writeAnnex h newItem fun a =>
    { a with menueTextWithSpaces := some (join " ".toList splitMenueText) }
  -- const additiveMatches = menueItem.menueText.match(...) (lines 242-248)
  let text2 ← readText h menueItem
  let additives := extractIds additiveRe text2
  -- const allergenMatches = menueItem.menueText.match(...) (lines 251-257)
  let text3 ← readText h menueItem
  let allergeneIds := extractIds allergenRe text3
  -- newItem.processed.additives = additives.map(id => zusatzstoffe[id]).filter(Boolean);
  let h ← writeAnnex h newItem fun a =>
    { a with additives := some ((additives.map (getProperty zusatzstoffe)).filter
        JSValue.truthy) }
  -- newItem.processed.additivesIds = additives;
  let h ← writeAnnex h newItem fun a => { a with additivesIds := some additives }
  -- newItem.processed.allergene = allergeneIds.map(code => allergene[code]).filter(Boolean);
  let h ← writeAnnex h newItem fun a =>
    { a with allergene := some ((allergeneIds.map (getProperty allergene)).filter
        JSValue.truthy) }
  -- newItem.processed.allergeneIds = allergeneIds;
  let h ← writeAnnex h newItem fun a => { a with allergeneIds := some allergeneIds }
  -- return newItem;
  return (h, newItem)

/-- The annex object with all properties of an annex assigned. -/
def annexOf (p : Processed) : AnnexObj :=
  { menueTextWithBr := some p.menueTextWithBr
    menueTextWithSpaces := some p.menueTextWithSpaces
    additives := some p.additives, additivesIds := some p.additivesIds
    allergene := some p.allergene, allergeneIds := some p.allergeneIds }

/-- The annex that an annex object stands for, once all its properties are
assigned. -/
def AnnexObj.value (a : AnnexObj) : Option Processed := do
  let withBr ← a.menueTextWithBr
  let withSpaces ← a.menueTextWithSpaces
  let additives ← a.additives
  let additivesIds ← a.additivesIds
  let allergene ← a.allergene
  let allergeneIds ← a.allergeneIds
  return { menueTextWithBr := withBr, menueTextWithSpaces := withSpaces,
           additives := additives, additivesIds := additivesIds,
           allergene := allergene, allergeneIds := allergeneIds }

/-- The value of the entry behind a reference. -/
def Heap.read (h : Heap) (item : Nat) : Option TagesMenue :=
  (h.entries.get? item).map fun o =>
    { bezeichnung := o.bezeichnung, gesperrt := o.gesperrt, menueGruppe := o.menueGruppe,
      menueText := o.menueText, others := o.others,
      processed := (o.processed.bind fun a => h.annexes.get? a).bind AnnexObj.value }

/-- A heap with one entry of the feed, for the examples. -/
def exampleHeap : Heap :=
  { entries := [{ bezeichnung := "Tagessuppe".toList, gesperrt := false, menueGruppe := 2,
                  menueText := "Suppe (1)[br]Brot".toList,
                  others := [("menueNr".toList, "7".toList)], processed := none }],
    annexes := [] }

/-- An entry with the text `Suppe (1)`, for the examples. -/
def exampleEntryA : TagesMenue :=
  { bezeichnung := "Tagessuppe".toList, gesperrt := false, menueGruppe := 1,
    menueText := "Suppe (1)".toList, others := [], processed := none }

/-- Another entry with the text `Suppe (1)`; every other field differs from
`exampleEntryA`. -/
def exampleEntryB : TagesMenue :=
  { bezeichnung := "Milchreis".toList, gesperrt := true, menueGruppe := 5,
    menueText := "Suppe (1)".toList, others := [("menueNr".toList, "3".toList)],
    processed := some (processText "Brot".toList) }

/-- The text that a piece of a scan stands for. -/
def pieceText : Piece → JSString
  | .text c => [c]
  | .hit m _ => m

/-! ## The renderer -/

/-- The method `String.prototype.includes`. -/
def includes (s needle : JSString) : Bool :=
  occursB needle s

/-- The condition of lines 185-187 of `displayMenuesForToday`, under which an
entry is skipped.  The method `String.prototype.toLowerCase` of the runtime
is a parameter. -/
def isSkipped (toLowerCase : JSString → JSString) (menue : TagesMenue) : Bool :=
  menue.gesperrt ||
    includes (toLowerCase menue.bezeichnung) "milch".toList ||
    includes (toLowerCase menue.bezeichnung) "allergie".toList

/-- The double quote character. -/
def quoteChar : Char := Char.ofNat 34

/-- The template literal of lines 192-195 of `displayMenuesForToday`. -/
def menueBlock (bezeichnung menueTextWithBr : JSString) : JSString :=
  "<div class=".toList ++ [quoteChar] ++ "menue-item".toList ++ [quoteChar] ++
    ">\n                <h2>".toList ++ bezeichnung ++
    "</h2>\n                <p>".toList ++ menueTextWithBr ++
    "</p>\n            </div>".toList

/-- The loop of lines 183-196 of `displayMenuesForToday`, with the value of
`html` so far; it fails (a `TypeError` in the source) at an entry that is not
skipped and has no annex. -/
def renderLoop (toLowerCase : JSString → JSString) : List TagesMenue → JSString → Option JSString
  | [], html => some html
  | menue :: rest, html =>
    if isSkipped toLowerCase menue then renderLoop toLowerCase rest html
    else
      match menue.processed with
      | some p =>
        renderLoop toLowerCase rest (html ++ menueBlock menue.bezeichnung p.menueTextWithBr)
      | none => none

/-- The text shown when no menu is left. -/
def noMenuesHtml : JSString := "<div>Keine Menüs verfügbar.</div>".toList

/-- The text shown after an error. -/
def errorHtml : JSString := "<div>Fehler beim Laden der Menüs.</div>".toList

/-- Lines 172-208 of `displayMenuesForToday` behind the computation of
`processedMenues`: the value assigned to `container.innerHTML`. -/
def displayHtml (toLowerCase : JSString → JSString) (processedMenues : List TagesMenue) :
    JSString :=
  match renderLoop toLowerCase processedMenues [] with
  | some html => if html.isEmpty || (trim html).isEmpty then noMenuesHtml else html
  | none => errorHtml

/-- The block of an entry with annex. -/
def blockOf (menue : TagesMenue) : JSString :=
  match menue.processed with
  | some p => menueBlock menue.bezeichnung p.menueTextWithBr
  | none => []

/-- The lower-casing of the letters `A`-`Z`, for the examples. -/
def asciiLower (s : JSString) : JSString :=
  s.map Char.toLower

/-- A menu of five entries, for the examples. -/
def exampleMenues : List TagesMenue :=
  [ { entryOf "Suppe (1)[br]Brot".toList with
        bezeichnung := "Menü 1".toList, menueGruppe := 1 },
    { entryOf "Milchreis mit Zimt".toList with
        bezeichnung := "MILCHfrei".toList, menueGruppe := 3 },
    { entryOf "Reis,Salat".toList with bezeichnung := "Menü 2".toList, menueGruppe := 2 },
    { entryOf "Nudeln".toList with bezeichnung := "Für ALLERGIE und Co".toList, menueGruppe := 2 },
    { entryOf "Fisch".toList with
        bezeichnung := "Menü 3".toList, menueGruppe := 4, gesperrt := true } ]

/-- The group `(c1, c2, ..., ck)` with a space after each comma. -/
def spacedGroupOf (codes : List JSString) : JSString :=
  '(' :: List.intercalate [',', ' '] codes ++ [')']

/-! # Properties -/

theorem starLoop_sound (step : JSString → List Outcome) (L : JSString → Prop)
    (hstep : ∀ s t c, (t, c) ∈ step s → ∃ m, L m ∧ s = m ++ t) :
    ∀ (n : Nat) (s t : JSString) (c : List JSString), (t, c) ∈ starLoop step n s →
      ∃ ms : List JSString, (∀ x ∈ ms, L x ∧ x ≠ []) ∧ s = ms.flatten ++ t := by
  intro n
  induction n with
  | zero =>
    intro s t c h
    simp only [starLoop, List.mem_singleton, Prod.mk.injEq] at h
    exact ⟨[], by simp, by simp [h.1]⟩
  | succ n ih =>
    intro s t c h
    simp only [starLoop, List.mem_append, List.mem_flatMap, List.mem_filter,
      decide_eq_true_eq, List.mem_singleton, Prod.mk.injEq] at h
    rcases h with ⟨p, ⟨hp, hlt⟩, hin⟩ | h
    · obtain ⟨m, hm, hs⟩ := hstep s p.1 p.2 hp
      obtain ⟨ms, hms, hp1⟩ := ih p.1 t c hin
      refine ⟨m :: ms, ?_, ?_⟩
      · intro x hx
        rcases List.mem_cons.1 hx with rfl | hx
        · refine ⟨hm, ?_⟩
          rintro rfl
          rw [hs] at hlt
          simp at hlt
        · exact hms x hx
      · rw [hs, hp1]; simp
    · exact ⟨[], by simp, by simp [h.1]⟩

theorem starLoop_complete (step : JSString → List Outcome) (L : JSString → Prop)
    (hstep : ∀ m t, L m → ∃ c, (t, c) ∈ step (m ++ t)) :
    ∀ (ms : List JSString) (n : Nat) (t : JSString), (∀ x ∈ ms, L x ∧ x ≠ []) →
      (ms.flatten ++ t).length ≤ n + t.length →
      (t, []) ∈ starLoop step n (ms.flatten ++ t) := by
  intro ms
  induction ms with
  | nil =>
    intro n t _ _
    cases n <;> simp [starLoop]
  | cons m ms ih =>
    intro n t hms hlen
    have hm := hms m (List.mem_cons_self _ _)
    have hmpos : 0 < m.length := List.length_pos.2 hm.2
    cases n with
    | zero =>
      simp at hlen
      omega
    | succ n =>
      simp only [starLoop, List.mem_append, List.mem_flatMap, List.mem_filter,
        decide_eq_true_eq]
      left
      obtain ⟨c, hc⟩ := hstep m (ms.flatten ++ t) hm.1
      refine ⟨(ms.flatten ++ t, c), ⟨?_, ?_⟩, ?_⟩
      · simpa using hc
      · simp; omega
      · apply ih n t (fun x hx => hms x (List.mem_cons_of_mem _ hx))
        simp at hlen ⊢
        omega

theorem matchFrom_sound : ∀ (re : Regex) (s t : JSString) (c : List JSString),
    (t, c) ∈ re.matchFrom s → ∃ m, re.Lang m ∧ s = m ++ t := by
  intro re
  induction re with
  | chr x =>
    intro s t c h
    cases s with
    | nil => simp [Regex.matchFrom] at h
    | cons y s =>
      simp only [Regex.matchFrom] at h
      split at h
      · simp only [List.mem_singleton, Prod.mk.injEq] at h
        exact ⟨[x], rfl, by simp [*]⟩
      · simp at h
  | cls negated ranges =>
    intro s t c h
    cases s with
    | nil => simp [Regex.matchFrom] at h
    | cons y s =>
      simp only [Regex.matchFrom] at h
      split at h
      · simp only [List.mem_singleton, Prod.mk.injEq] at h
        exact ⟨[y], ⟨y, by assumption, rfl⟩, by simp [h.1]⟩
      · simp at h
  | seq a b iha ihb =>
    intro s t c h
    simp only [Regex.matchFrom, List.mem_flatMap, List.mem_map, Prod.mk.injEq] at h
    obtain ⟨p, hp, q, hq, rfl, -⟩ := h
    obtain ⟨m1, h1, rfl⟩ := iha s p.1 p.2 hp
    obtain ⟨m2, h2, hs2⟩ := ihb p.1 q.1 q.2 hq
    exact ⟨m1 ++ m2, ⟨m1, m2, h1, h2, rfl⟩, by rw [hs2]; simp⟩
  | alt a b iha ihb =>
    intro s t c h
    simp only [Regex.matchFrom, List.mem_append] at h
    rcases h with h | h
    · obtain ⟨m, hm, hs⟩ := iha s t c h
      exact ⟨m, Or.inl hm, hs⟩
    · obtain ⟨m, hm, hs⟩ := ihb s t c h
      exact ⟨m, Or.inr hm, hs⟩
  | star a iha =>
    intro s t c h
    simp only [Regex.matchFrom] at h
    obtain ⟨ms, hms, hs⟩ := starLoop_sound a.matchFrom a.Lang iha _ s t c h
    exact ⟨ms.flatten, ⟨ms, hms, rfl⟩, hs⟩
  | group a iha =>
    intro s t c h
    simp only [Regex.matchFrom, List.mem_map, Prod.mk.injEq] at h
    obtain ⟨p, hp, rfl, -⟩ := h
    exact iha s p.1 p.2 hp

theorem matchFrom_complete : ∀ (re : Regex) (m t : JSString),
    re.Lang m → ∃ c, (t, c) ∈ re.matchFrom (m ++ t) := by
  intro re
  induction re with
  | chr x =>
    intro m t h
    simp only [Regex.Lang] at h
    subst h
    exact ⟨[], by simp [Regex.matchFrom]⟩
  | cls negated ranges =>
    intro m t h
    obtain ⟨x, hx, rfl⟩ := h
    exact ⟨[], by simp [Regex.matchFrom, hx]⟩
  | seq a b iha ihb =>
    intro m t h
    obtain ⟨m1, m2, h1, h2, rfl⟩ := h
    obtain ⟨c1, hc1⟩ := iha m1 (m2 ++ t) h1
    obtain ⟨c2, hc2⟩ := ihb m2 t h2
    refine ⟨c1 ++ c2, ?_⟩
    simp only [Regex.matchFrom, List.mem_flatMap, List.mem_map, Prod.mk.injEq]
    exact ⟨(m2 ++ t, c1), by simpa using hc1, (t, c2), hc2, rfl, rfl⟩
  | alt a b iha ihb =>
    intro m t h
    rcases h with h | h
    · obtain ⟨c, hc⟩ := iha m t h
      exact ⟨c, by simp [Regex.matchFrom, hc]⟩
    · obtain ⟨c, hc⟩ := ihb m t h
      exact ⟨c, by simp [Regex.matchFrom, hc]⟩
  | star a iha =>
    intro m t h
    obtain ⟨ms, hms, rfl⟩ := h
    refine ⟨[], ?_⟩
    simp only [Regex.matchFrom]
    exact starLoop_complete a.matchFrom a.Lang iha ms _ t hms (by simp)
  | group a iha =>
    intro m t h
    obtain ⟨c, hc⟩ := iha m t h
    refine ⟨(m ++ t).take ((m ++ t).length - t.length) :: c, ?_⟩
    simp only [Regex.matchFrom, List.mem_map, Prod.mk.injEq]
    exact ⟨(t, c), hc, rfl, rfl⟩

theorem execAt_sound {re : Regex} {s t : JSString} {c : List JSString}
    (h : re.execAt s = some (t, c)) : ∃ m, re.Lang m ∧ s = m ++ t :=
  matchFrom_sound re s t c (List.mem_of_mem_head? h)

theorem execAt_isSome_of_lang (re : Regex) {m : JSString} (t : JSString) (h : re.Lang m) :
    ∃ t1 c, re.execAt (m ++ t) = some (t1, c) := by
  obtain ⟨c, hc⟩ := matchFrom_complete re m t h
  unfold Regex.execAt
  cases hl : re.matchFrom (m ++ t) with
  | nil => rw [hl] at hc; simp at hc
  | cons p l => exact ⟨p.1, p.2, rfl⟩

theorem execAt_eq_none {re : Regex} {s : JSString}
    (h : ∀ m t, re.Lang m → s ≠ m ++ t) : re.execAt s = none := by
  cases he : re.execAt s with
  | none => rfl
  | some p =>
    obtain ⟨m, hm, hs⟩ := execAt_sound (t := p.1) (c := p.2) he
    exact absurd hs (h m p.1 hm)

theorem test_iff (re : Regex) (s : JSString) :
    re.test s = true ↔ ∃ a m b, re.Lang m ∧ s = a ++ m ++ b := by
  induction s with
  | nil =>
    simp only [Regex.test, Option.isSome_iff_exists]
    constructor
    · rintro ⟨p, hp⟩
      obtain ⟨m, hm, hs⟩ := execAt_sound (t := p.1) (c := p.2) hp
      exact ⟨[], m, p.1, hm, by simpa using hs⟩
    · rintro ⟨a, m, b, hm, hs⟩
      have ha : a = [] := by
        cases a with
        | nil => rfl
        | cons x a => simp at hs
      subst ha
      obtain ⟨t1, c, h⟩ := execAt_isSome_of_lang re b hm
      simp only [List.nil_append] at hs
      rw [← hs] at h
      exact ⟨_, h⟩
  | cons x s ih =>
    simp only [Regex.test, Bool.or_eq_true, Option.isSome_iff_exists, ih]
    constructor
    · rintro (⟨p, hp⟩ | ⟨a, m, b, hm, hs⟩)
      · obtain ⟨m, hm, hs⟩ := execAt_sound (t := p.1) (c := p.2) hp
        exact ⟨[], m, p.1, hm, by simpa using hs⟩
      · exact ⟨x :: a, m, b, hm, by simp [hs]⟩
    · rintro ⟨a, m, b, hm, hs⟩
      cases a with
      | nil =>
        left
        obtain ⟨t1, c, h⟩ := execAt_isSome_of_lang re b hm
        simp only [List.nil_append] at hs
        rw [← hs] at h
        exact ⟨_, h⟩
      | cons y a =>
        right
        simp only [List.cons_append, List.cons.injEq] at hs
        exact ⟨a, m, b, hm, hs.2⟩

theorem scanAll_fuel (re : Regex) : ∀ (f1 f2 : Nat) (s : JSString),
    s.length < f1 → s.length < f2 → scanAll re f1 s = scanAll re f2 s := by
  intro f1
  induction f1 with
  | zero => intro f2 s h; omega
  | succ f1 ih =>
    intro f2 s h1 h2
    cases f2 with
    | zero => omega
    | succ f2 =>
      simp only [scanAll]
      cases he : re.execAt s with
      | none =>
        cases s with
        | nil => rfl
        | cons c t =>
          simp only [List.length_cons] at h1 h2
          simp only [List.cons.injEq, true_and]
          exact ih f2 t (by omega) (by omega)
      | some p =>
        obtain ⟨rest, caps⟩ := p
        simp only
        split
        · rename_i hlt
          simp only [List.cons.injEq, true_and]
          exact ih f2 rest (by omega) (by omega)
        · cases s with
          | nil => rfl
          | cons c t =>
            simp only [List.length_cons] at h1 h2
            simp only [List.cons.injEq, true_and]
            exact ih f2 t (by omega) (by omega)

theorem pieces_nil_of_none {re : Regex} (h : re.execAt [] = none) : re.pieces [] = [] := by
  simp [Regex.pieces, scanAll, h]

theorem pieces_cons_of_none {re : Regex} {c : Char} {t : JSString}
    (h : re.execAt (c :: t) = none) : re.pieces (c :: t) = .text c :: re.pieces t := by
  simp only [Regex.pieces, scanAll, h, List.length_cons, List.cons.injEq, true_and]

theorem pieces_of_hit {re : Regex} {s rest : JSString} {caps : List JSString}
    (h : re.execAt s = some (rest, caps)) (hlt : rest.length < s.length) :
    re.pieces s = .hit (s.take (s.length - rest.length)) caps :: re.pieces rest := by
  simp only [Regex.pieces, scanAll, h, hlt, if_true, List.cons.injEq, true_and]
  exact scanAll_fuel re (s.length) (rest.length + 1) rest (by omega) (by omega)

theorem execAt_of_lang {re : Regex} (hdet : re.Determined) {m : JSString} (t : JSString)
    (hm : re.Lang m) : ∃ caps, re.execAt (m ++ t) = some (t, caps) := by
  obtain ⟨t1, c, h⟩ := execAt_isSome_of_lang re t hm
  obtain ⟨m1, hm1, hs⟩ := execAt_sound h
  have := hdet m m1 t t1 hm hm1 hs
  subst this
  have := List.append_cancel_left hs
  subst this
  exact ⟨c, h⟩

theorem pieces_of_lang {re : Regex} (hdet : re.Determined) {m : JSString} (t : JSString)
    (hm : re.Lang m) (hne : m ≠ []) :
    ∃ caps, re.pieces (m ++ t) = .hit m caps :: re.pieces t := by
  obtain ⟨caps, h⟩ := execAt_of_lang hdet t hm
  refine ⟨caps, ?_⟩
  have hpos : 0 < m.length := List.length_pos.2 hne
  rw [pieces_of_hit h (by simp; omega)]
  simp

theorem isAdditiveCode_plain {c : JSString} (h : IsAdditiveCode c) : PlainCode c := by
  obtain ⟨n, h1, h2, rfl⟩ := h
  interval_cases n <;> exact ⟨by decide, by decide⟩

theorem isAllergenCode_plain {c : JSString} (h : IsAllergenCode c) : PlainCode c := by
  obtain ⟨x, h1, h2, rfl⟩ := h
  refine ⟨by simp, ?_⟩
  intro y hy
  simp only [List.mem_singleton] at hy
  subst hy
  refine ⟨?_, ?_, ?_⟩ <;> rintro rfl <;> revert h1 h2 <;> decide

theorem intercalate_cons (sep c : JSString) (cs : List JSString) :
    List.intercalate sep (c :: cs) = c ++ (cs.map fun d => sep ++ d).flatten := by
  induction cs generalizing c with
  | nil => simp [List.intercalate]
  | cons d cs ih =>
    have := ih d
    simp only [List.intercalate, List.intersperse, List.flatten, List.map] at this ⊢
    rw [this]
    simp

theorem lang_additiveNumRe (m : JSString) : additiveNumRe.Lang m ↔ IsAdditiveCode m := by
  constructor
  · intro h
    simp only [additiveNumRe, Regex.Lang] at h
    rcases h with ⟨x, hx, rfl⟩ | ⟨m1, m2, rfl, ⟨x, hx, rfl⟩, rfl⟩
    · simp only [classHas, List.any_cons, List.any_nil, Bool.or_false, Bool.false_bne,
        Bool.and_eq_true, decide_eq_true_eq] at hx
      have hc : x = Char.ofNat x.toNat := (Char.ofNat_toNat x).symm
      obtain ⟨h1, h2⟩ := hx
      have h1 : 49 ≤ x.toNat := h1
      have h2 : x.toNat ≤ 57 := h2
      refine ⟨x.toNat - 48, by omega, by omega, ?_⟩
      generalize x.toNat = n at *
      interval_cases n <;> subst hc <;> decide
    · simp only [classHas, List.any_cons, List.any_nil, Bool.or_false, Bool.false_bne,
        Bool.and_eq_true, decide_eq_true_eq] at hx
      have hc : x = Char.ofNat x.toNat := (Char.ofNat_toNat x).symm
      obtain ⟨h1, h2⟩ := hx
      have h1 : 48 ≤ x.toNat := h1
      have h2 : x.toNat ≤ 53 := h2
      refine ⟨x.toNat - 48 + 10, by omega, by omega, ?_⟩
      generalize x.toNat = n at *
      interval_cases n <;> subst hc <;> decide
  · rintro ⟨n, h1, h2, rfl⟩
    simp only [additiveNumRe, Regex.Lang]
    interval_cases n
    · exact Or.inl ⟨'1', by decide, by decide⟩
    · exact Or.inl ⟨'2', by decide, by decide⟩
    · exact Or.inl ⟨'3', by decide, by decide⟩
    · exact Or.inl ⟨'4', by decide, by decide⟩
    · exact Or.inl ⟨'5', by decide, by decide⟩
    · exact Or.inl ⟨'6', by decide, by decide⟩
    · exact Or.inl ⟨'7', by decide, by decide⟩
    · exact Or.inl ⟨'8', by decide, by decide⟩
    · exact Or.inl ⟨'9', by decide, by decide⟩
    · exact Or.inr ⟨['1'], ['0'], rfl, ⟨'0', by decide, rfl⟩, by decide⟩
    · exact Or.inr ⟨['1'], ['1'], rfl, ⟨'1', by decide, rfl⟩, by decide⟩
    · exact Or.inr ⟨['1'], ['2'], rfl, ⟨'2', by decide, rfl⟩, by decide⟩
    · exact Or.inr ⟨['1'], ['3'], rfl, ⟨'3', by decide, rfl⟩, by decide⟩
    · exact Or.inr ⟨['1'], ['4'], rfl, ⟨'4', by decide, rfl⟩, by decide⟩
    · exact Or.inr ⟨['1'], ['5'], rfl, ⟨'5', by decide, rfl⟩, by decide⟩

theorem lang_additiveTailRe (m : JSString) :
    additiveTailRe.Lang m ↔ ∃ c, IsAdditiveCode c ∧ m = [','] ++ c := by
  have key : additiveTailRe.Lang m ↔ ∃ c, additiveNumRe.Lang c ∧ m = [','] ++ c := by
    simp only [additiveTailRe, additiveNumRe, Regex.Lang]
    constructor
    · rintro (⟨m1, m2, rfl, h2, rfl⟩ | ⟨m1, m2, rfl, h2, rfl⟩)
      · exact ⟨m2, Or.inl h2, rfl⟩
      · exact ⟨m2, Or.inr h2, rfl⟩
    · rintro ⟨c, h | h, rfl⟩
      · exact Or.inl ⟨[','], c, rfl, h, rfl⟩
      · exact Or.inr ⟨[','], c, rfl, h, rfl⟩
  rw [key]
  simp only [lang_additiveNumRe]

/-- The iterations of a starred tail `,c` are the tails of a list of codes. -/
theorem star_tails (L : JSString → Prop) (P : JSString → Prop)
    (hL : ∀ m, L m ↔ ∃ c, P c ∧ m = [','] ++ c) (m : JSString) :
    (∃ ms : List JSString, (∀ x ∈ ms, L x ∧ x ≠ []) ∧ m = ms.flatten) ↔
      ∃ cs : List JSString, (∀ c ∈ cs, P c) ∧ m = (cs.map fun d => [','] ++ d).flatten := by
  constructor
  · rintro ⟨ms, hms, rfl⟩
    induction ms with
    | nil => exact ⟨[], by simp, by simp⟩
    | cons x ms ih =>
      obtain ⟨cs, hcs, hfl⟩ := ih (fun y hy => hms y (List.mem_cons_of_mem _ hy))
      obtain ⟨c, hc, rfl⟩ := (hL x).1 (hms x (List.mem_cons_self _ _)).1
      refine ⟨c :: cs, ?_, ?_⟩
      · intro d hd
        rcases List.mem_cons.1 hd with rfl | hd
        · exact hc
        · exact hcs d hd
      · simp only [List.flatten_cons, List.map_cons, hfl]
  · rintro ⟨cs, hcs, rfl⟩
    refine ⟨cs.map fun d => [','] ++ d, ?_, rfl⟩
    intro x hx
    obtain ⟨c, hc, rfl⟩ := List.mem_map.1 hx
    exact ⟨(hL _).2 ⟨c, hcs c hc, rfl⟩, by simp⟩

theorem lang_additiveRe (m : JSString) : additiveRe.Lang m ↔ IsAdditiveGroup m := by
  have hstar := star_tails additiveTailRe.Lang IsAdditiveCode lang_additiveTailRe
  simp only [additiveRe, Regex.Lang] at hstar ⊢
  constructor
  · rintro ⟨m1, m2, rfl, ⟨c, m3, hc, ⟨m4, m5, h4, rfl, rfl⟩, rfl⟩, rfl⟩
    obtain ⟨cs, hcs, rfl⟩ := (hstar m4).1 h4
    refine ⟨c :: cs, by simp, ?_, ?_⟩
    · intro d hd
      rcases List.mem_cons.1 hd with rfl | hd
      · exact (lang_additiveNumRe _).1 hc
      · exact hcs d hd
    · simp [groupOf, intercalate_cons]
  · rintro ⟨codes, hne, hcodes, rfl⟩
    cases codes with
    | nil => exact absurd rfl hne
    | cons c cs =>
      refine ⟨['('], _, rfl, ⟨c, _, (lang_additiveNumRe _).2 (hcodes c (List.mem_cons_self _ _)),
        ⟨_, [')'], (hstar _).2 ⟨cs, fun d hd => hcodes d (List.mem_cons_of_mem _ hd), rfl⟩,
          rfl, rfl⟩, rfl⟩, ?_⟩
      simp [groupOf, intercalate_cons]

theorem lang_allergenRe (m : JSString) : allergenRe.Lang m ↔ IsAllergenGroup m := by
  have hcls : ∀ c : JSString, (∃ x, classHas false [('A', 'Z')] x = true ∧ c = [x]) ↔
      IsAllergenCode c := by
    intro c
    simp only [classHas, List.any_cons, List.any_nil, Bool.or_false, Bool.false_bne,
      Bool.and_eq_true, decide_eq_true_eq, IsAllergenCode, and_assoc]
  have htail : ∀ m : JSString,
      (Regex.seq (.chr ',') (.cls false [('A', 'Z')])).Lang m ↔
        ∃ c, IsAllergenCode c ∧ m = [','] ++ c := by
    intro m
    simp only [Regex.Lang, hcls]
    constructor
    · rintro ⟨m1, m2, rfl, h2, rfl⟩
      exact ⟨m2, h2, rfl⟩
    · rintro ⟨c, h, rfl⟩
      exact ⟨[','], c, rfl, h, rfl⟩
  have hstar := star_tails _ IsAllergenCode htail
  simp only [allergenRe, Regex.Lang, hcls] at hstar ⊢
  constructor
  · rintro ⟨m1, m2, rfl, ⟨m3, m6, ⟨c, m4, hc, h4, rfl⟩, rfl, rfl⟩, rfl⟩
    obtain ⟨cs, hcs, rfl⟩ := (hstar m4).1 h4
    refine ⟨c :: cs, by simp, ?_, ?_⟩
    · intro d hd
      rcases List.mem_cons.1 hd with rfl | hd
      · exact hc
      · exact hcs d hd
    · simp [groupOf, intercalate_cons]
  · rintro ⟨codes, hne, hcodes, rfl⟩
    cases codes with
    | nil => exact absurd rfl hne
    | cons c cs =>
      refine ⟨['('], _, rfl, ⟨_, [')'], ⟨c, _, hcodes c (List.mem_cons_self _ _),
        (hstar _).2 ⟨cs, fun d hd => hcodes d (List.mem_cons_of_mem _ hd), rfl⟩, rfl⟩,
          rfl, rfl⟩, ?_⟩
      simp [groupOf, intercalate_cons]

theorem lang_legendRe (m : JSString) : legendRe.Lang m ↔ IsParenGroup m := by
  have hcls : ∀ x : Char, classHas true [(')', ')')] x = true ↔ x ≠ ')' := by
    intro x
    simp only [classHas, List.any_cons, List.any_nil, Bool.or_false, Bool.true_bne,
      Bool.not_eq_true', Bool.and_eq_false_iff, decide_eq_false_iff_not]
    constructor
    · rintro h rfl
      revert h
      decide
    · intro h
      by_contra hc
      push_neg at hc
      apply h
      have : x.toNat = ')'.toNat := le_antisymm hc.2 hc.1
      rw [← Char.ofNat_toNat x, this]
      rfl
  simp only [legendRe, Regex.plus, Regex.Lang, hcls]
  constructor
  · rintro ⟨m1, m2, rfl, ⟨m3, m4, ⟨m5, m6, ⟨x, hx, rfl⟩, ⟨ms, hms, rfl⟩, rfl⟩, rfl, rfl⟩, rfl⟩
    refine ⟨x :: ms.flatten, by simp, ?_, by simp⟩
    simp only [List.mem_cons, List.mem_flatten, not_or, not_exists, not_and]
    refine ⟨fun h => hx h.symm, ?_⟩
    intro l hl hmem
    obtain ⟨⟨y, hy, rfl⟩, -⟩ := hms l hl
    simp only [List.mem_singleton] at hmem
    exact hy hmem.symm
  · rintro ⟨body, hne, hno, rfl⟩
    cases body with
    | nil => exact absurd rfl hne
    | cons x rest =>
      simp only [List.mem_cons, not_or] at hno
      refine ⟨['('], _, rfl, ⟨x :: rest, [')'], ⟨[x], rest, ⟨x, fun h => hno.1 h.symm, rfl⟩,
        ⟨rest.map fun c => [c], ?_, ?_⟩, rfl⟩, rfl, rfl⟩, by simp⟩
      · intro l hl
        obtain ⟨c, hc, rfl⟩ := List.mem_map.1 hl
        refine ⟨⟨c, ?_, rfl⟩, by simp⟩
        rintro rfl
        exact hno.2 hc
      · clear hno hne
        induction rest with
        | nil => rfl
        | cons c rest ih => simp [← ih]

/-- A group written for plain codes is a parenthetical group. -/
theorem groupOf_isParenGroup {codes : List JSString} (hne : codes ≠ [])
    (hplain : ∀ c ∈ codes, PlainCode c) : IsParenGroup (groupOf codes) := by
  cases codes with
  | nil => exact absurd rfl hne
  | cons c cs =>
    refine ⟨List.intercalate [','] (c :: cs), ?_, ?_, rfl⟩
    · rw [intercalate_cons]
      have := (hplain c (List.mem_cons_self _ _)).1
      simp [this]
    · rw [intercalate_cons]
      simp only [List.mem_append, List.mem_flatten, List.mem_map, not_or, not_exists, not_and]
      refine ⟨fun h => ((hplain c (List.mem_cons_self _ _)).2 _ h).2.1 rfl, ?_⟩
      rintro l ⟨d, hd, rfl⟩ hmem
      simp only [List.singleton_append, List.mem_cons] at hmem
      rcases hmem with h | h
      · revert h; decide
      · exact ((hplain d (List.mem_cons_of_mem _ hd)).2 _ h).2.1 rfl

theorem isAdditiveGroup_isParenGroup {g : JSString} (h : IsAdditiveGroup g) :
    IsParenGroup g := by
  obtain ⟨codes, hne, hcodes, rfl⟩ := h
  exact groupOf_isParenGroup hne fun c hc => isAdditiveCode_plain (hcodes c hc)

theorem isAllergenGroup_isParenGroup {g : JSString} (h : IsAllergenGroup g) :
    IsParenGroup g := by
  obtain ⟨codes, hne, hcodes, rfl⟩ := h
  exact groupOf_isParenGroup hne fun c hc => isAllergenCode_plain (hcodes c hc)

/-- The text in front of the first occurrence of a character is determined. -/
theorem append_cons_unique {x : Char} : ∀ {b1 b2 t1 t2 : JSString}, x ∉ b1 → x ∉ b2 →
    b1 ++ x :: t1 = b2 ++ x :: t2 → b1 = b2 ∧ t1 = t2 := by
  intro b1
  induction b1 with
  | nil =>
    intro b2 t1 t2 _ h2 h
    cases b2 with
    | nil => simpa using h
    | cons y b2 =>
      simp only [List.nil_append, List.cons_append, List.cons.injEq] at h
      simp only [List.mem_cons, not_or] at h2
      exact absurd h.1 h2.1
  | cons y b1 ih =>
    intro b2 t1 t2 h1 h2 h
    simp only [List.mem_cons, not_or] at h1
    cases b2 with
    | nil =>
      simp only [List.nil_append, List.cons_append, List.cons.injEq] at h
      exact absurd h.1.symm h1.1
    | cons z b2 =>
      simp only [List.mem_cons, not_or] at h2
      simp only [List.cons_append, List.cons.injEq] at h
      obtain ⟨hb, ht⟩ := ih h1.2 h2.2 h.2
      exact ⟨by rw [h.1, hb], ht⟩

/-- Two parenthetical groups that start at the same place are the same. -/
theorem isParenGroup_unique {m1 m2 t1 t2 : JSString} (h1 : IsParenGroup m1)
    (h2 : IsParenGroup m2) (h : m1 ++ t1 = m2 ++ t2) : m1 = m2 := by
  obtain ⟨b1, -, hb1, rfl⟩ := h1
  obtain ⟨b2, -, hb2, rfl⟩ := h2
  simp only [List.cons_append, List.append_assoc, List.singleton_append, List.cons.injEq,
    true_and] at h
  rw [(append_cons_unique hb1 hb2 h).1]

theorem legendRe_determined : legendRe.Determined := fun _ _ _ _ h1 h2 h =>
  isParenGroup_unique ((lang_legendRe _).1 h1) ((lang_legendRe _).1 h2) h

theorem additiveRe_determined : additiveRe.Determined := fun _ _ _ _ h1 h2 h =>
  isParenGroup_unique (isAdditiveGroup_isParenGroup ((lang_additiveRe _).1 h1))
    (isAdditiveGroup_isParenGroup ((lang_additiveRe _).1 h2)) h

theorem allergenRe_determined : allergenRe.Determined := fun _ _ _ _ h1 h2 h =>
  isParenGroup_unique (isAllergenGroup_isParenGroup ((lang_allergenRe _).1 h1))
    (isAllergenGroup_isParenGroup ((lang_allergenRe _).1 h2)) h

/-- The pattern `/\([^)]+\)/` finds a match exactly in the texts that contain
a parenthetical group. -/
theorem legendRe_test_iff (s : JSString) : legendRe.test s = true ↔ HasParenGroup s := by
  rw [test_iff]
  constructor
  · rintro ⟨a, m, b, hm, hs⟩
    exact ⟨m, (lang_legendRe m).1 hm, a, b, hs⟩
  · rintro ⟨m, hm, a, b, hs⟩
    exact ⟨a, m, b, (lang_legendRe m).2 hm, hs⟩

/-! ## The string built-ins -/

theorem startsWith_iff (p s : JSString) : startsWith p s = true ↔ ∃ t, s = p ++ t := by
  induction p generalizing s with
  | nil => simp [startsWith]
  | cons a p ih =>
    cases s with
    | nil => simp [startsWith]
    | cons b s =>
      simp only [startsWith, Bool.and_eq_true, beq_iff_eq, ih, List.cons_append,
        List.cons.injEq]
      constructor
      · rintro ⟨rfl, t, rfl⟩
        exact ⟨t, rfl, rfl⟩
      · rintro ⟨t, rfl, rfl⟩
        exact ⟨rfl, t, rfl⟩

theorem occurs_cons {m s : JSString} (c : Char) (h : Occurs m s) : Occurs m (c :: s) := by
  obtain ⟨a, b, rfl⟩ := h
  exact ⟨c :: a, b, by simp⟩

theorem occurs_trans {m s t : JSString} (h1 : Occurs m s) (h2 : Occurs s t) : Occurs m t := by
  obtain ⟨a, b, rfl⟩ := h1
  obtain ⟨c, d, rfl⟩ := h2
  exact ⟨c ++ a, b ++ d, by simp⟩

theorem splitAux_ne_nil (sep : JSString) : ∀ (s : JSString) (skip : Nat) (acc : JSString),
    splitAux sep s skip acc ≠ [] := by
  intro s
  induction s with
  | nil => intro skip acc; simp [splitAux]
  | cons c t ih =>
    intro skip acc
    cases skip with
    | zero =>
      simp only [splitAux]
      split
      · simp
      · exact ih _ _
    | succ k => simpa [splitAux] using ih k acc

theorem split_ne_nil (sep s : JSString) : split sep s ≠ [] :=
  splitAux_ne_nil sep s 0 []

theorem splitAux_of_not_occurs (sep : JSString) : ∀ (s acc : JSString), ¬ Occurs sep s →
    splitAux sep s 0 acc = [acc ++ s] := by
  intro s
  induction s with
  | nil => intro acc _; simp [splitAux]
  | cons c t ih =>
    intro acc h
    have hs : startsWith sep (c :: t) = false := by
      cases hsw : startsWith sep (c :: t) with
      | false => rfl
      | true =>
        obtain ⟨r, hr⟩ := (startsWith_iff _ _).1 hsw
        exact absurd ⟨[], r, by simpa using hr⟩ h
    simp only [splitAux, hs, Bool.false_eq_true, if_false]
    rw [ih (acc ++ [c]) (fun ho => h (occurs_cons c ho))]
    simp

/-- A text without the separator is not split. -/
theorem split_of_not_occurs {sep s : JSString} (h : ¬ Occurs sep s) : split sep s = [s] := by
  simpa [split] using splitAux_of_not_occurs sep s [] h

theorem splitAux_segment (sep : JSString) : ∀ (s : JSString) (skip : Nat) (acc seg : JSString),
    seg ∈ splitAux sep s skip acc → (skip = 0 ∨ acc = []) →
      (∃ u b, s = u ++ b ∧ seg = acc ++ u ∧ skip = 0) ∨ Occurs seg s := by
  intro s
  induction s with
  | nil =>
    intro skip acc seg h hc
    simp only [splitAux, List.mem_singleton] at h
    subst h
    rcases hc with rfl | rfl
    · exact Or.inl ⟨[], [], rfl, by simp, rfl⟩
    · exact Or.inr ⟨[], [], rfl⟩
  | cons c t ih =>
    intro skip acc seg h hc
    cases skip with
    | succ k =>
      have hacc : acc = [] := by
        rcases hc with h0 | h0
        · omega
        · exact h0
      subst hacc
      simp only [splitAux] at h
      rcases ih k [] seg h (Or.inr rfl) with ⟨u, b, rfl, rfl, -⟩ | ho
      · exact Or.inr ⟨[c], b, by simp⟩
      · exact Or.inr (occurs_cons c ho)
    | zero =>
      simp only [splitAux] at h
      split at h
      · rcases List.mem_cons.1 h with rfl | h
        · exact Or.inl ⟨[], c :: t, rfl, by simp, rfl⟩
        · rcases ih _ [] seg h (Or.inr rfl) with ⟨u, b, rfl, rfl, -⟩ | ho
          · exact Or.inr ⟨[c], b, by simp⟩
          · exact Or.inr (occurs_cons c ho)
      · rcases ih 0 (acc ++ [c]) seg h (Or.inl rfl) with ⟨u, b, rfl, rfl, -⟩ | ho
        · exact Or.inl ⟨c :: u, b, by simp, by simp, rfl⟩
        · exact Or.inr (occurs_cons c ho)

/-- Every segment of a split text occurs in the text. -/
theorem split_segment_occurs {sep s seg : JSString} (h : seg ∈ split sep s) : Occurs seg s := by
  rcases splitAux_segment sep s 0 [] seg h (Or.inl rfl) with ⟨u, b, rfl, rfl, -⟩ | ho
  · exact ⟨[], b, by simp⟩
  · exact ho

theorem splitAux_comma_plain : ∀ (w rest acc : JSString), ',' ∉ w →
    splitAux [','] (w ++ rest) 0 acc = splitAux [','] rest 0 (acc ++ w) := by
  intro w
  induction w with
  | nil => intro rest acc _; simp
  | cons x w ih =>
    intro rest acc h
    simp only [List.mem_cons, not_or] at h
    have hx : (',' == x) = false := by simpa using h.1
    have := ih rest (acc ++ [x]) h.2
    simp only [List.cons_append, splitAux, startsWith, hx, Bool.false_and,
      Bool.false_eq_true, if_false]
    simpa using this

theorem splitAux_comma_codes : ∀ (cs : List JSString) (c acc : JSString), ',' ∉ c →
    (∀ d ∈ cs, ',' ∉ d) →
    splitAux [','] (c ++ (cs.map fun d => [','] ++ d).flatten) 0 acc = (acc ++ c) :: cs := by
  intro cs
  induction cs with
  | nil =>
    intro c acc hc _
    rw [splitAux_comma_plain c _ acc hc]
    simp [splitAux]
  | cons d cs ih =>
    intro c acc hc hcs
    rw [splitAux_comma_plain c _ acc hc]
    simp only [List.map_cons, List.flatten_cons, List.singleton_append, List.cons_append,
      splitAux, startsWith, beq_self_eq_true, Bool.and_self, if_true, List.length_singleton,
      Nat.sub_self, List.cons.injEq, true_and]
    have := ih d [] (hcs d (List.mem_cons_self _ _))
      (fun e he => hcs e (List.mem_cons_of_mem _ he))
    simpa using this

/-- Splitting a comma-separated list of codes at the commas gives the codes. -/
theorem split_comma_intercalate {codes : List JSString} (hne : codes ≠ [])
    (hplain : ∀ c ∈ codes, PlainCode c) :
    split [','] (List.intercalate [','] codes) = codes := by
  cases codes with
  | nil => exact absurd rfl hne
  | cons c cs =>
    rw [intercalate_cons, split]
    have := splitAux_comma_codes cs c []
      (fun h => ((hplain c (List.mem_cons_self _ _)).2 _ h).2.2 rfl)
      (fun d hd h => ((hplain d (List.mem_cons_of_mem _ hd)).2 _ h).2.2 rfl)
    simpa using this

theorem dropWhile_append_cons {p : Char → Bool} {x : Char} (hx : p x = false) :
    ∀ (a r : JSString), (a ++ x :: r).dropWhile p = a.dropWhile p ++ x :: r := by
  intro a
  induction a with
  | nil => intro r; simp [List.dropWhile, hx]
  | cons y a ih =>
    intro r
    simp only [List.cons_append, List.dropWhile]
    split
    · exact ih r
    · rfl

/-- The trimmed text occurs in the text. -/
theorem trim_occurs (s : JSString) : Occurs (trim s) s := by
  refine ⟨s.takeWhile isTrimSpace,
    (((s.dropWhile isTrimSpace).reverse.takeWhile isTrimSpace)).reverse, ?_⟩
  have h1 := List.takeWhile_append_dropWhile isTrimSpace s
  have h2 := List.takeWhile_append_dropWhile isTrimSpace (s.dropWhile isTrimSpace).reverse
  have h3 := congrArg List.reverse h2
  simp only [List.reverse_append, List.reverse_reverse] at h3
  unfold trim
  rw [List.append_assoc, h3, h1]

/-- A text between two characters that `trim` keeps survives trimming. -/
theorem trim_keeps {x y : Char} (hx : isTrimSpace x = false) (hy : isTrimSpace y = false)
    (a body b s : JSString) (hs : s = a ++ x :: body ++ y :: b) :
    ∃ a1 b1, trim s = a1 ++ x :: body ++ y :: b1 := by
  subst hs
  refine ⟨a.dropWhile isTrimSpace, (b.reverse.dropWhile isTrimSpace).reverse, ?_⟩
  unfold trim
  rw [show a ++ x :: body ++ y :: b = a ++ x :: (body ++ y :: b) by simp,
    dropWhile_append_cons hx]
  have : (List.dropWhile isTrimSpace a ++ x :: (body ++ y :: b)).reverse =
      b.reverse ++ y :: (body.reverse ++ x :: (List.dropWhile isTrimSpace a).reverse) := by
    simp
  rw [this, dropWhile_append_cons hy]
  simp

theorem trim_hasParenGroup {s : JSString} (h : HasParenGroup s) : HasParenGroup (trim s) := by
  obtain ⟨m, ⟨body, hne, hno, rfl⟩, a, b, rfl⟩ := h
  obtain ⟨a1, b1, ht⟩ := trim_keeps (x := '(') (y := ')') (by decide) (by decide)
    a body b (a ++ ('(' :: body ++ [')']) ++ b) (by simp)
  exact ⟨_, ⟨body, hne, hno, rfl⟩, a1, b1, by rw [ht]; simp⟩

theorem hasParenGroup_of_occurs {s t : JSString} (h : HasParenGroup s) (ho : Occurs s t) :
    HasParenGroup t := by
  obtain ⟨m, hm, hms⟩ := h
  exact ⟨m, hm, occurs_trans hms ho⟩

/-! ## Scanning with a global pattern -/

theorem replaceAll_eq (re : Regex) (repl : List ReplTok) (s : JSString) :
    replaceAll re repl s = replaced repl (re.pieces s) := rfl

theorem matchAll_eq (re : Regex) (s : JSString) :
    matchAll re s =
      if (hitTexts (re.pieces s)).isEmpty then none else some (hitTexts (re.pieces s)) := rfl

theorem extractIds_eq (re : Regex) (s : JSString) :
    extractIds re s =
      ((hitTexts (re.pieces s)).flatMap fun m => split ",".toList (replaceAll parenRe [] m)).filter
        fun id => !id.isEmpty := by
  unfold extractIds
  rw [matchAll_eq]
  cases h : hitTexts (re.pieces s) with
  | nil => simp
  | cons m ms => simp

theorem hitTexts_map_text (s : JSString) : hitTexts (s.map Piece.text) = [] := by
  induction s with
  | nil => rfl
  | cons c s ih => simp [hitTexts]

theorem replaced_map_text (repl : List ReplTok) (s : JSString) :
    replaced repl (s.map Piece.text) = s := by
  induction s with
  | nil => rfl
  | cons c s ih =>
    simp only [replaced, List.map_cons, List.flatMap_cons, List.singleton_append,
      List.cons.injEq, true_and] at ih ⊢
    exact ih

theorem hitTexts_append (p q : List Piece) : hitTexts (p ++ q) = hitTexts p ++ hitTexts q := by
  simp [hitTexts]

theorem replaced_append (repl : List ReplTok) (p q : List Piece) :
    replaced repl (p ++ q) = replaced repl p ++ replaced repl q := by
  simp [replaced]

/-- Where the pattern matches nowhere, the scan finds only plain characters. -/
theorem pieces_of_no_match (re : Regex) : ∀ s : JSString,
    (∀ a m b, re.Lang m → s ≠ a ++ m ++ b) → re.pieces s = s.map Piece.text := by
  intro s
  induction s with
  | nil =>
    intro h
    exact pieces_nil_of_none (execAt_eq_none fun m t hm hs => h [] m t hm (by simpa using hs))
  | cons c s ih =>
    intro h
    rw [pieces_cons_of_none
      (execAt_eq_none fun m t hm hs => h [] m t hm (by simpa using hs))]
    rw [ih fun a m b hm hs => h (c :: a) m b hm (by simp [hs])]
    rfl

/-- In front of a character at which no match starts, the scan goes on. -/
theorem pieces_plain_append (re : Regex) (hstart : ∀ m, re.Lang m → ∃ r, m = '(' :: r) :
    ∀ (w r : JSString), '(' ∉ w → r ≠ [] ∨ re.execAt [] = none →
      re.pieces (w ++ r) = w.map Piece.text ++ re.pieces r := by
  intro w
  induction w with
  | nil => intro r _ _; rfl
  | cons x w ih =>
    intro r hw hr
    simp only [List.mem_cons, not_or] at hw
    have hnone : re.execAt (x :: (w ++ r)) = none := by
      apply execAt_eq_none
      intro m t hm hs
      obtain ⟨r1, rfl⟩ := hstart m hm
      simp only [List.cons_append, List.cons.injEq] at hs
      exact hw.1 hs.1.symm
    rw [List.cons_append, pieces_cons_of_none hnone, ih r hw.2 hr]
    rfl

theorem execAt_nil_of_start (re : Regex) (hstart : ∀ m, re.Lang m → ∃ r, m = '(' :: r) :
    re.execAt [] = none := by
  apply execAt_eq_none
  intro m t hm hs
  obtain ⟨r1, rfl⟩ := hstart m hm
  simp at hs

/-- Every match found by a scan belongs to the language of the pattern. -/
theorem scanAll_hit_lang (re : Regex) (hne : ∀ m, re.Lang m → m ≠ []) :
    ∀ (fuel : Nat) (s m : JSString) (caps : List JSString),
      Piece.hit m caps ∈ scanAll re fuel s → re.Lang m := by
  intro fuel
  induction fuel with
  | zero => intro s m caps h; simp [scanAll] at h
  | succ fuel ih =>
    intro s m caps h
    simp only [scanAll] at h
    cases he : re.execAt s with
    | none =>
      rw [he] at h
      cases s with
      | nil => simp at h
      | cons c t =>
        simp only [List.mem_cons, reduceCtorEq, false_or] at h
        exact ih t m caps h
    | some p =>
      obtain ⟨rest, cs⟩ := p
      rw [he] at h
      obtain ⟨m1, hm1, hs⟩ := execAt_sound he
      simp only at h
      split at h
      · rcases List.mem_cons.1 h with heq | h
        · simp only [Piece.hit.injEq] at heq
          rw [heq.1, hs]
          simpa using hm1
        · exact ih rest m caps h
      · rename_i hlt
        exfalso
        apply hne m1 hm1
        rw [hs] at hlt
        simp only [List.length_append, not_lt] at hlt
        exact List.eq_nil_of_length_eq_zero (by omega)

theorem hitTexts_lang (re : Regex) (hne : ∀ m, re.Lang m → m ≠ []) (s m : JSString)
    (h : m ∈ hitTexts (re.pieces s)) : re.Lang m := by
  simp only [hitTexts, List.mem_filterMap] at h
  obtain ⟨p, hp, hpm⟩ := h
  cases p with
  | text c => simp at hpm
  | hit m1 caps =>
    simp only [Option.some.injEq] at hpm
    subst hpm
    exact scanAll_hit_lang re hne _ s m1 caps hp

/-! ## The small patterns -/

theorem classHas_single (x c : Char) : classHas false [(x, x)] c = true ↔ c = x := by
  simp only [classHas, List.any_cons, List.any_nil, Bool.or_false, Bool.false_bne,
    Bool.and_eq_true, decide_eq_true_eq]
  constructor
  · intro h
    have : c.toNat = x.toNat := le_antisymm h.2 h.1
    rw [← Char.ofNat_toNat c, this, Char.ofNat_toNat]
  · rintro rfl
    exact ⟨le_refl _, le_refl _⟩

theorem classHas_not_single (x c : Char) : classHas true [(x, x)] c = true ↔ c ≠ x := by
  have h := classHas_single x c
  simp only [classHas, Bool.false_bne, Bool.true_bne, Bool.not_eq_true'] at h ⊢
  rw [← not_iff_not, not_not, ← h]
  simp

theorem classHas_paren (c : Char) :
    classHas false [('(', '('), (')', ')')] c = true ↔ c = '(' ∨ c = ')' := by
  have h1 := classHas_single '(' c
  have h2 := classHas_single ')' c
  simp only [classHas, List.any_cons, List.any_nil, Bool.or_false, Bool.false_bne,
    Bool.or_eq_true] at h1 h2 ⊢
  rw [h1, h2]

theorem pieces_parenRe : ∀ s : JSString,
    replaceAll parenRe [] s = s.filter fun c => !(c == '(' || c == ')') := by
  intro s
  induction s with
  | nil => rfl
  | cons c s ih =>
    rw [replaceAll_eq] at ih ⊢
    by_cases hc : c = '(' ∨ c = ')'
    · have he : parenRe.execAt (c :: s) = some (s, []) := by
        simp [Regex.execAt, parenRe, Regex.matchFrom, (classHas_paren c).2 hc]
      rw [pieces_of_hit he (by simp)]
      have hf : (!(c == '(' || c == ')')) = false := by
        rcases hc with rfl | rfl <;> rfl
      simp only [List.filter_cons, hf, Bool.false_eq_true, if_false]
      rw [← ih]
      rfl
    · have hcls : classHas false [('(', '('), (')', ')')] c = false := by
        cases h : classHas false [('(', '('), (')', ')')] c with
        | false => rfl
        | true => exact absurd ((classHas_paren c).1 h) hc
      have he : parenRe.execAt (c :: s) = none := by
        simp [Regex.execAt, parenRe, Regex.matchFrom, hcls]
      rw [pieces_cons_of_none he]
      push_neg at hc
      have hf : (!(c == '(' || c == ')')) = true := by simp [hc.1, hc.2]
      simp only [List.filter_cons, hf, if_true]
      rw [← ih]
      rfl

theorem filter_paren_plain : ∀ w : JSString, (∀ x ∈ w, x ≠ '(' ∧ x ≠ ')') →
    (w.filter fun c => !(c == '(' || c == ')')) = w := by
  intro w h
  rw [List.filter_eq_self]
  intro x hx
  obtain ⟨h1, h2⟩ := h x hx
  simp [h1, h2]

/-- The codes of a group are recovered by lines 246 and 255 of the source:
parentheses removed, split at the commas, empty strings dropped. -/
theorem ids_of_group {codes : List JSString} (hne : codes ≠ [])
    (hplain : ∀ c ∈ codes, PlainCode c) :
    ((split ",".toList (replaceAll parenRe [] (groupOf codes))).filter fun id => !id.isEmpty) =
      codes := by
  have hbody : ∀ x ∈ List.intercalate [','] codes, x ≠ '(' ∧ x ≠ ')' := by
    cases codes with
    | nil => exact absurd rfl hne
    | cons c cs =>
      rw [intercalate_cons]
      intro x hx
      simp only [List.mem_append, List.mem_flatten, List.mem_map] at hx
      rcases hx with hx | ⟨l, ⟨d, hd, rfl⟩, hx⟩
      · exact ⟨((hplain c (List.mem_cons_self _ _)).2 x hx).1,
          ((hplain c (List.mem_cons_self _ _)).2 x hx).2.1⟩
      · simp only [List.singleton_append, List.mem_cons] at hx
        rcases hx with rfl | hx
        · exact ⟨by decide, by decide⟩
        · exact ⟨((hplain d (List.mem_cons_of_mem _ hd)).2 x hx).1,
            ((hplain d (List.mem_cons_of_mem _ hd)).2 x hx).2.1⟩
  have hrep : replaceAll parenRe [] (groupOf codes) = List.intercalate [','] codes := by
    rw [pieces_parenRe, groupOf]
    simp only [List.filter_cons, List.filter_append, List.filter_nil]
    rw [filter_paren_plain _ hbody]
    simp
  rw [hrep]
  have hsplit := split_comma_intercalate hne hplain
  have hc : ",".toList = [','] := rfl
  rw [hc, hsplit, List.filter_eq_self]
  intro c hc
  have := (hplain c hc).1
  cases c with
  | nil => exact absurd rfl this
  | cons x c => rfl

/-! ### The comma pattern -/

theorem execAt_commaRe_tight {c : Char} (t : JSString) (hc : c ≠ ' ') :
    commaRe.execAt (',' :: c :: t) = some (t, [[c]]) := by
  simp [Regex.execAt, commaRe, Regex.matchFrom, (classHas_not_single ' ' c).2 hc]

theorem lang_commaRe (m : JSString) : commaRe.Lang m ↔ ∃ c, c ≠ ' ' ∧ m = [',', c] := by
  simp only [commaRe, Regex.Lang, classHas_not_single]
  constructor
  · rintro ⟨m1, m2, rfl, ⟨c, hc, rfl⟩, rfl⟩
    exact ⟨c, hc, rfl⟩
  · rintro ⟨c, hc, rfl⟩
    exact ⟨[','], [c], rfl, ⟨c, hc, rfl⟩, rfl⟩

/-! ## Steps of the parser on texts without matches -/

theorem occurs_iff (m s : JSString) : Occurs m s ↔ occursB m s = true := by
  induction s with
  | nil =>
    simp only [occursB, startsWith_iff]
    constructor
    · rintro ⟨a, b, h⟩
      have ha : a = [] := by
        cases a with
        | nil => rfl
        | cons x a => simp at h
      subst ha
      exact ⟨b, by simpa using h⟩
    · rintro ⟨t, h⟩
      exact ⟨[], t, by simpa using h⟩
  | cons c s ih =>
    simp only [occursB, Bool.or_eq_true, startsWith_iff, ← ih]
    constructor
    · rintro ⟨a, b, h⟩
      cases a with
      | nil => exact Or.inl ⟨b, by simpa using h⟩
      | cons x a =>
        simp only [List.cons_append, List.cons.injEq] at h
        exact Or.inr ⟨a, b, by simpa using h.2⟩
    · rintro (⟨t, h⟩ | h)
      · exact ⟨[], t, by simpa using h⟩
      · exact occurs_cons c h

theorem commaRe_test_iff (s : JSString) : commaRe.test s = true ↔ HasTightComma s := by
  rw [test_iff]
  constructor
  · rintro ⟨a, m, b, hm, hs⟩
    obtain ⟨c, hc, rfl⟩ := (lang_commaRe m).1 hm
    exact ⟨c, hc, a, b, hs⟩
  · rintro ⟨c, hc, a, b, hs⟩
    exact ⟨a, _, b, (lang_commaRe _).2 ⟨c, hc, rfl⟩, hs⟩

theorem hasTightComma_of_occurs {s t : JSString} (h : HasTightComma s) (ho : Occurs s t) :
    HasTightComma t := by
  obtain ⟨c, hc, hcs⟩ := h
  exact ⟨c, hc, occurs_trans hcs ho⟩

/-- A line in which every comma is followed by a space, or ends the line, is
left as it is by the comma step. -/
theorem normaliseCommas_of_no_tight {s : JSString} (h : ¬ HasTightComma s) :
    normaliseCommas s = s := by
  unfold normaliseCommas
  rw [replaceAll_eq, pieces_of_no_match, replaced_map_text]
  intro a m b hm hs
  obtain ⟨c, hc, rfl⟩ := (lang_commaRe m).1 hm
  exact h ⟨c, hc, a, b, hs⟩

/-- A pattern whose matches are parenthetical groups finds nothing in a text
without parenthetical group. -/
theorem pieces_of_no_group {re : Regex} (hre : ∀ m, re.Lang m → IsParenGroup m)
    {s : JSString} (h : ¬ HasParenGroup s) : re.pieces s = s.map Piece.text := by
  apply pieces_of_no_match
  intro a m b hm hs
  exact h ⟨m, hre m hm, a, b, hs⟩

theorem additiveRe_paren (m : JSString) (h : additiveRe.Lang m) : IsParenGroup m :=
  isAdditiveGroup_isParenGroup ((lang_additiveRe m).1 h)

theorem allergenRe_paren (m : JSString) (h : allergenRe.Lang m) : IsParenGroup m :=
  isAllergenGroup_isParenGroup ((lang_allergenRe m).1 h)

theorem stripAdditives_of_no_group {s : JSString} (h : ¬ HasParenGroup s) :
    stripAdditives s = s := by
  unfold stripAdditives
  rw [replaceAll_eq, pieces_of_no_group additiveRe_paren h, replaced_map_text]

theorem extractIds_of_no_group {re : Regex} (hre : ∀ m, re.Lang m → IsParenGroup m)
    {s : JSString} (h : ¬ HasParenGroup s) : extractIds re s = [] := by
  rw [extractIds_eq, pieces_of_no_group hre h, hitTexts_map_text]
  rfl

theorem splitLines_of_no_br {s : JSString} (h : ¬ Occurs "[br]".toList s) :
    splitLines s = [trim s] := by
  unfold splitLines
  rw [split_of_not_occurs h]
  rfl

theorem dropLegend_single (x : JSString) :
    dropLegend [x] = if legendRe.test x then [] else [x] := by
  simp [dropLegend]

theorem join_single (sep x : JSString) : join sep [x] = x := by
  simp [join, List.intercalate]

theorem processed_eq (e : TagesMenue) :
    (processMenueItem e).processed = some (processText e.menueText) := rfl

/-! ## C1: texts without line break and without parenthetical group -/

/-- C1 (counterexample): the text `a,b` has no `[br]` and no parenthetical
group, yet its display text is `a, b`, which is not `trim(menueText)`. -/
theorem plain_text_comma_counterexample :
    ¬ Occurs "[br]".toList "a,b".toList ∧ ¬ HasParenGroup "a,b".toList ∧
    (∃ p, (processMenueItem (entryOf "a,b".toList)).processed = some p ∧
      p.menueTextWithBr = "a, b".toList ∧ p.menueTextWithBr ≠ trim "a,b".toList) :=
  ⟨fun h => absurd ((occurs_iff _ _).1 h) (by decide),
    fun h => absurd ((legendRe_test_iff _).2 h) (by decide),
    _, rfl, by decide, by decide⟩

/-- C1 (amended): for every entry whose `menueText` contains no `[br]`, no
parenthetical group and no comma directly followed by a character other than
a space, `processMenueItem` yields `menueTextWithBr = menueTextWithSpaces =
trim(menueText)`, `additivesIds = []` and `allergeneIds = []`. -/
theorem plain_text_display (e : TagesMenue)
    (hbr : ¬ Occurs "[br]".toList e.menueText)
    (hgroup : ¬ HasParenGroup e.menueText)
    (hcomma : ¬ HasTightComma e.menueText) :
    ∃ p, (processMenueItem e).processed = some p ∧
      p.menueTextWithBr = trim e.menueText ∧
      p.menueTextWithSpaces = trim e.menueText ∧
      p.additivesIds = [] ∧ p.allergeneIds = [] := by
  have hg : ¬ HasParenGroup (trim e.menueText) := fun h =>
    hgroup (hasParenGroup_of_occurs h (trim_occurs _))
  have hc : ¬ HasTightComma (trim e.menueText) := fun h =>
    hcomma (hasTightComma_of_occurs h (trim_occurs _))
  have htest : legendRe.test (trim e.menueText) = false := by
    cases h : legendRe.test (trim e.menueText) with
    | false => rfl
    | true => exact absurd ((legendRe_test_iff _).1 h) hg
  have hlines : displayLines e.menueText = [trim e.menueText] := by
    unfold displayLines
    rw [splitLines_of_no_br hbr, dropLegend_single, htest]
    simp [stripAdditives_of_no_group hg, normaliseCommas_of_no_tight hc]
  refine ⟨_, processed_eq e, ?_, ?_, ?_, ?_⟩
  · show join _ (displayLines e.menueText) = _
    rw [hlines, join_single]
  · show join _ (displayLines e.menueText) = _
    rw [hlines, join_single]
  · exact extractIds_of_no_group additiveRe_paren hgroup
  · exact extractIds_of_no_group allergenRe_paren hgroup

/-- C1 (witness): the text `  Salat, Brot und Butter ` meets the three
conditions and is displayed trimmed. -/
theorem plain_text_display_witness :
    ¬ Occurs "[br]".toList (entryOf "  Salat, Brot und Butter ".toList).menueText ∧
    ¬ HasParenGroup (entryOf "  Salat, Brot und Butter ".toList).menueText ∧
    ¬ HasTightComma (entryOf "  Salat, Brot und Butter ".toList).menueText ∧
    ∃ p, (processMenueItem (entryOf "  Salat, Brot und Butter ".toList)).processed = some p ∧
      p.menueTextWithBr = trim (entryOf "  Salat, Brot und Butter ".toList).menueText ∧
      p.menueTextWithSpaces = trim (entryOf "  Salat, Brot und Butter ".toList).menueText ∧
      p.additivesIds = [] ∧ p.allergeneIds = [] :=
  ⟨fun h => absurd ((occurs_iff _ _).1 h) (by decide),
    fun h => absurd ((legendRe_test_iff _).2 h) (by decide),
    fun h => absurd ((commaRe_test_iff _).2 h) (by decide),
    plain_text_display _ (fun h => absurd ((occurs_iff _ _).1 h) (by decide))
      (fun h => absurd ((legendRe_test_iff _).2 h) (by decide))
      (fun h => absurd ((commaRe_test_iff _).2 h) (by decide))⟩

/-! ## C2: the Chicken Curry example, display text -/

/-- C2 (counterexample): for `Chicken Curry (1,2) mit Reis[br]dazu Salat (A,G)`
the display text is not `Chicken Curry mit Reis`. -/
theorem chicken_curry_single_space_counterexample :
    ∃ p, (processMenueItem
        (entryOf "Chicken Curry (1,2) mit Reis[br]dazu Salat (A,G)".toList)).processed = some p ∧
      p.menueTextWithBr ≠ "Chicken Curry mit Reis".toList :=
  ⟨_, rfl, by decide⟩

/-- C2 (amended): for `menueText = "Chicken Curry (1,2) mit Reis[br]dazu Salat
(A,G)"` the text is split into the two lines `Chicken Curry (1,2) mit Reis`
and `dazu Salat (A,G)`, the last line is dropped entirely, and
`menueTextWithBr` is `Chicken Curry  mit Reis`: the additive marker is
stripped from the surviving line and the two spaces around it both stay. -/
theorem chicken_curry_display (e : TagesMenue) :
    splitLines "Chicken Curry (1,2) mit Reis[br]dazu Salat (A,G)".toList =
      ["Chicken Curry (1,2) mit Reis".toList, "dazu Salat (A,G)".toList] ∧
    displayLines "Chicken Curry (1,2) mit Reis[br]dazu Salat (A,G)".toList =
      ["Chicken Curry  mit Reis".toList] ∧
    ∃ p, (processMenueItem { e with
        menueText := "Chicken Curry (1,2) mit Reis[br]dazu Salat (A,G)".toList }).processed =
          some p ∧
      p.menueTextWithBr = "Chicken Curry  mit Reis".toList := by
  refine ⟨by decide, by decide, _, rfl, ?_⟩
  show (processText "Chicken Curry (1,2) mit Reis[br]dazu Salat (A,G)".toList).menueTextWithBr = _
  decide

/-! ## Texts made of groups and parenthesis-free text -/

/-- The matches of a group pattern in a text `t0 (g1) t1 ... (gk) tk` are the
groups, from left to right. -/
theorem hitTexts_groupedText {re : Regex} (hre : ∀ m, re.Lang m → IsParenGroup m)
    (P : JSString → Prop) (hP : ∀ codes : List JSString, codes ≠ [] → (∀ c ∈ codes, P c) →
      re.Lang (groupOf codes)) :
    ∀ (gs : List (List JSString × JSString)) (t0 : JSString), NoParens t0 →
      (∀ g ∈ gs, g.1 ≠ [] ∧ (∀ c ∈ g.1, P c) ∧ NoParens g.2) →
      hitTexts (re.pieces (groupedText t0 gs)) = gs.map fun g => groupOf g.1 := by
  have hstart : ∀ m, re.Lang m → ∃ r, m = '(' :: r := by
    intro m hm
    obtain ⟨body, -, -, rfl⟩ := hre m hm
    exact ⟨_, rfl⟩
  have hdet : re.Determined := fun _ _ _ _ h1 h2 h =>
    isParenGroup_unique (hre _ h1) (hre _ h2) h
  intro gs
  induction gs with
  | nil =>
    intro t0 ht0 _
    rw [groupedText, pieces_plain_append re hstart t0 _ ht0.1
      (Or.inr (execAt_nil_of_start re hstart))]
    simp only [List.map_nil, List.flatten_nil, hitTexts_append, hitTexts_map_text,
      List.nil_append]
    rw [pieces_nil_of_none (execAt_nil_of_start re hstart)]
    rfl
  | cons g gs ih =>
    intro t0 ht0 hgs
    obtain ⟨hne, hcodes, hg2⟩ := hgs g (List.mem_cons_self _ _)
    have hshape : groupedText t0 (g :: gs) = t0 ++ (groupOf g.1 ++ groupedText g.2 gs) := by
      simp [groupedText]
    have hlang := hP g.1 hne hcodes
    obtain ⟨caps, hp⟩ := pieces_of_lang hdet (groupedText g.2 gs) hlang (by simp [groupOf])
    rw [hshape, pieces_plain_append re hstart t0 _ ht0.1 (Or.inl (by simp [groupOf])), hp]
    simp only [hitTexts_append, hitTexts_map_text, List.nil_append, List.map_cons]
    have := ih g.2 hg2 (fun g1 hg1 => hgs g1 (List.mem_cons_of_mem _ hg1))
    simp only [hitTexts, List.filterMap_cons] at this ⊢
    rw [this]

/-- The codes read from a list of groups are the codes of the groups, in
order. -/
theorem ids_of_groups : ∀ (ms : List (List JSString)),
    (∀ codes ∈ ms, codes ≠ [] ∧ ∀ c ∈ codes, PlainCode c) →
    (((ms.map groupOf).flatMap fun m => split ",".toList (replaceAll parenRe [] m)).filter
      fun id => !id.isEmpty) = ms.flatten := by
  intro ms
  induction ms with
  | nil => intro _; rfl
  | cons codes ms ih =>
    intro h
    obtain ⟨hne, hplain⟩ := h codes (List.mem_cons_self _ _)
    simp only [List.map_cons, List.flatMap_cons, List.filter_append, List.flatten_cons]
    rw [ids_of_group hne hplain, ih fun c hc => h c (List.mem_cons_of_mem _ hc)]

/-- The codes extracted from a text `t0 (g1) t1 ... (gk) tk` are the codes of
`g1`, ..., `gk`, in this order. -/
theorem extractIds_groupedText {re : Regex} (hre : ∀ m, re.Lang m → IsParenGroup m)
    (P : JSString → Prop) (hplain : ∀ c, P c → PlainCode c)
    (hP : ∀ codes : List JSString, codes ≠ [] → (∀ c ∈ codes, P c) → re.Lang (groupOf codes))
    (gs : List (List JSString × JSString)) (t0 : JSString) (ht0 : NoParens t0)
    (hgs : ∀ g ∈ gs, g.1 ≠ [] ∧ (∀ c ∈ g.1, P c) ∧ NoParens g.2) :
    extractIds re (groupedText t0 gs) = (gs.map fun g => g.1).flatten := by
  rw [extractIds_eq, hitTexts_groupedText hre P hP gs t0 ht0 hgs]
  have := ids_of_groups (gs.map fun g => g.1) (by
    intro codes hc
    obtain ⟨g, hg, rfl⟩ := List.mem_map.1 hc
    exact ⟨(hgs g hg).1, fun c hc => hplain c ((hgs g hg).2.1 c hc)⟩)
  simpa [List.map_map] using this

/-! ## C3 and C4: the extracted codes -/

/-- C3: for every text `t0 (g1) t1 ... (gk) tk` in which the `ti` contain no
parentheses and each `gi` is a non-empty comma-separated list of additive
codes (integers 1..15 without leading zeros), `additivesIds` is the
concatenation of the codes of `g1`, ..., `gk`, in the order of the original
text and with duplicates, whatever line a group stands on; and the text
`Chicken Curry (1,2) mit Reis[br]dazu Salat (A,G)` gives `["1","2"]`. -/
theorem additivesIds_of_groups (e : TagesMenue) (t0 : JSString)
    (gs : List (List JSString × JSString)) (ht0 : NoParens t0)
    (hgs : ∀ g ∈ gs, g.1 ≠ [] ∧ (∀ c ∈ g.1, IsAdditiveCode c) ∧ NoParens g.2)
    (htext : e.menueText = groupedText t0 gs) :
    (∃ p, (processMenueItem e).processed = some p ∧
      p.additivesIds = (gs.map fun g => g.1).flatten) ∧
    (processText "Chicken Curry (1,2) mit Reis[br]dazu Salat (A,G)".toList).additivesIds =
      ["1".toList, "2".toList] := by
  refine ⟨⟨_, processed_eq e, ?_⟩, by decide⟩
  show extractIds additiveRe e.menueText = _
  rw [htext]
  exact extractIds_groupedText additiveRe_paren IsAdditiveCode
    (fun c hc => isAdditiveCode_plain hc)
    (fun codes hne hc => (lang_additiveRe _).2 ⟨codes, hne, hc, rfl⟩) gs t0 ht0 hgs

/-- C3 (witness): the text `Curry (1,2) mit Reis[br]Salat (15,1)` has the two
groups `(1,2)` and `(15,1)`, the second one on the line that is dropped; the
codes are 1, 2, 15, 1. -/
theorem additivesIds_of_groups_witness :
    NoParens "Curry ".toList ∧
    (∀ g ∈ [(["1".toList, "2".toList], " mit Reis[br]Salat ".toList),
        (["15".toList, "1".toList], "".toList)],
      g.1 ≠ [] ∧ (∀ c ∈ g.1, IsAdditiveCode c) ∧ NoParens g.2) ∧
    (entryOf "Curry (1,2) mit Reis[br]Salat (15,1)".toList).menueText =
      groupedText "Curry ".toList [(["1".toList, "2".toList], " mit Reis[br]Salat ".toList),
        (["15".toList, "1".toList], "".toList)] ∧
    ∃ p, (processMenueItem (entryOf "Curry (1,2) mit Reis[br]Salat (15,1)".toList)).processed =
        some p ∧
      p.additivesIds = ["1".toList, "2".toList, "15".toList, "1".toList] := by
  have h0 : NoParens "Curry ".toList := ⟨by decide, by decide⟩
  have hgs : ∀ g ∈ [(["1".toList, "2".toList], " mit Reis[br]Salat ".toList),
        (["15".toList, "1".toList], "".toList)],
      g.1 ≠ [] ∧ (∀ c ∈ g.1, IsAdditiveCode c) ∧ NoParens g.2 := by
    intro g hg
    simp only [List.mem_cons, List.mem_singleton, List.not_mem_nil, or_false] at hg
    rcases hg with rfl | rfl
    · refine ⟨by decide, ?_, ⟨by decide, by decide⟩⟩
      intro c hc
      simp only [List.mem_cons, List.mem_singleton, List.not_mem_nil, or_false] at hc
      rcases hc with rfl | rfl
      · exact ⟨1, by decide, by decide, by decide⟩
      · exact ⟨2, by decide, by decide, by decide⟩
    · refine ⟨by decide, ?_, ⟨by decide, by decide⟩⟩
      intro c hc
      simp only [List.mem_cons, List.mem_singleton, List.not_mem_nil, or_false] at hc
      rcases hc with rfl | rfl
      · exact ⟨15, by decide, by decide, by decide⟩
      · exact ⟨1, by decide, by decide, by decide⟩
  exact ⟨h0, hgs, by decide,
    (additivesIds_of_groups (entryOf "Curry (1,2) mit Reis[br]Salat (15,1)".toList)
      "Curry ".toList _ h0 hgs (by decide)).1⟩

/-- C4: for every text `t0 (g1) t1 ... (gk) tk` in which the `ti` contain no
parentheses and each `gi` is a non-empty comma-separated list of single
capital letters `A`-`Z`, `allergeneIds` is the concatenation of the letters
of `g1`, ..., `gk`, in the order of the original text and with duplicates; a
letter outside the allergen table is listed all the same (`x (A,Z)` gives
`["A","Z"]`), and `Chicken Curry (1,2) mit Reis[br]dazu Salat (A,G)` gives
`["A","G"]`. -/
theorem allergeneIds_of_groups (e : TagesMenue) (t0 : JSString)
    (gs : List (List JSString × JSString)) (ht0 : NoParens t0)
    (hgs : ∀ g ∈ gs, g.1 ≠ [] ∧ (∀ c ∈ g.1, IsAllergenCode c) ∧ NoParens g.2)
    (htext : e.menueText = groupedText t0 gs) :
    (∃ p, (processMenueItem e).processed = some p ∧
      p.allergeneIds = (gs.map fun g => g.1).flatten) ∧
    (processText "x (A,Z)".toList).allergeneIds = ["A".toList, "Z".toList] ∧
    ownProperty allergene "Z".toList = none ∧
    (processText "Chicken Curry (1,2) mit Reis[br]dazu Salat (A,G)".toList).allergeneIds =
      ["A".toList, "G".toList] := by
  refine ⟨⟨_, processed_eq e, ?_⟩, by decide, by decide, by decide⟩
  show extractIds allergenRe e.menueText = _
  rw [htext]
  exact extractIds_groupedText allergenRe_paren IsAllergenCode
    (fun c hc => isAllergenCode_plain hc)
    (fun codes hne hc => (lang_allergenRe _).2 ⟨codes, hne, hc, rfl⟩) gs t0 ht0 hgs

/-- C4 (witness): the text `Salat (A,G)[br]Brot (Z,A)` has the two groups
`(A,G)` and `(Z,A)`; the codes are A, G, Z, A. -/
theorem allergeneIds_of_groups_witness :
    NoParens "Salat ".toList ∧
    (∀ g ∈ [(["A".toList, "G".toList], "[br]Brot ".toList),
        (["Z".toList, "A".toList], "".toList)],
      g.1 ≠ [] ∧ (∀ c ∈ g.1, IsAllergenCode c) ∧ NoParens g.2) ∧
    (entryOf "Salat (A,G)[br]Brot (Z,A)".toList).menueText =
      groupedText "Salat ".toList [(["A".toList, "G".toList], "[br]Brot ".toList),
        (["Z".toList, "A".toList], "".toList)] ∧
    ∃ p, (processMenueItem (entryOf "Salat (A,G)[br]Brot (Z,A)".toList)).processed = some p ∧
      p.allergeneIds = ["A".toList, "G".toList, "Z".toList, "A".toList] := by
  have h0 : NoParens "Salat ".toList := ⟨by decide, by decide⟩
  have hgs : ∀ g ∈ [(["A".toList, "G".toList], "[br]Brot ".toList),
        (["Z".toList, "A".toList], "".toList)],
      g.1 ≠ [] ∧ (∀ c ∈ g.1, IsAllergenCode c) ∧ NoParens g.2 := by
    intro g hg
    simp only [List.mem_cons, List.mem_singleton, List.not_mem_nil, or_false] at hg
    rcases hg with rfl | rfl
    · refine ⟨by decide, ?_, ⟨by decide, by decide⟩⟩
      intro c hc
      simp only [List.mem_cons, List.mem_singleton, List.not_mem_nil, or_false] at hc
      rcases hc with rfl | rfl
      · exact ⟨'A', by decide, by decide, rfl⟩
      · exact ⟨'G', by decide, by decide, rfl⟩
    · refine ⟨by decide, ?_, ⟨by decide, by decide⟩⟩
      intro c hc
      simp only [List.mem_cons, List.mem_singleton, List.not_mem_nil, or_false] at hc
      rcases hc with rfl | rfl
      · exact ⟨'Z', by decide, by decide, rfl⟩
      · exact ⟨'A', by decide, by decide, rfl⟩
  exact ⟨h0, hgs, by decide,
    (allergeneIds_of_groups (entryOf "Salat (A,G)[br]Brot (Z,A)".toList)
      "Salat ".toList _ h0 hgs (by decide)).1⟩

/-! ## C5: resolution of the codes -/

/-- Every code extracted with a group pattern is a code of a group that the
pattern matched. -/
theorem extractIds_codes {re : Regex} (P : JSString → Prop)
    (hre : ∀ m, re.Lang m → ∃ codes : List JSString,
      codes ≠ [] ∧ (∀ c ∈ codes, P c) ∧ m = groupOf codes)
    (hplain : ∀ c, P c → PlainCode c) (s id : JSString) (h : id ∈ extractIds re s) : P id := by
  rw [extractIds_eq] at h
  have hne : ∀ m, re.Lang m → m ≠ [] := by
    intro m hm
    obtain ⟨codes, -, -, rfl⟩ := hre m hm
    simp [groupOf]
  obtain ⟨hmem, hid⟩ := List.mem_filter.1 h
  obtain ⟨m, hm, hin⟩ := List.mem_flatMap.1 hmem
  obtain ⟨codes, hcne, hcodes, rfl⟩ := hre m (hitTexts_lang re hne s m hm)
  have := ids_of_group hcne (fun c hc => hplain c (hcodes c hc))
  have hin2 : id ∈ (split ",".toList (replaceAll parenRe [] (groupOf codes))).filter
      fun id => !id.isEmpty := List.mem_filter.2 ⟨hin, hid⟩
  rw [this] at hin2
  exact hcodes id hin2

theorem additivesIds_codes (s id : JSString) (h : id ∈ extractIds additiveRe s) :
    IsAdditiveCode id :=
  extractIds_codes IsAdditiveCode (fun m hm => (lang_additiveRe m).1 hm)
    (fun _ hc => isAdditiveCode_plain hc) s id h

theorem allergeneIds_codes (s id : JSString) (h : id ∈ extractIds allergenRe s) :
    IsAllergenCode id :=
  extractIds_codes IsAllergenCode (fun m hm => (lang_allergenRe m).1 hm)
    (fun _ hc => isAllergenCode_plain hc) s id h

theorem ownProperty_mem : ∀ (table : List (JSString × JSString)) (k v : JSString),
    ownProperty table k = some v → (k, v) ∈ table := by
  intro table
  induction table with
  | nil => intro k v h; simp [ownProperty] at h
  | cons kv table ih =>
    intro k v h
    obtain ⟨k1, v1⟩ := kv
    simp only [ownProperty] at h
    split at h
    · rename_i hk
      simp only [Option.some.injEq] at h
      simp [hk, h]
    · exact List.mem_cons_of_mem _ (ih k v h)

/-- Resolution through a table keeps the own properties and drops the other
codes, as long as no code names a member of `Object.prototype` and no
description is empty. -/
theorem resolve_eq (table : List (JSString × JSString)) (hval : ∀ kv ∈ table, kv.2 ≠ []) :
    ∀ ids : List JSString, (∀ id ∈ ids, id ∉ objectPrototypeKeys) →
      (ids.map (getProperty table)).filter JSValue.truthy =
        (ids.filterMap (ownProperty table)).map JSValue.str := by
  intro ids
  induction ids with
  | nil => intro _; rfl
  | cons id ids ih =>
    intro h
    have hid := h id (List.mem_cons_self _ _)
    have ih := ih fun i hi => h i (List.mem_cons_of_mem _ hi)
    simp only [List.map_cons, List.filter_cons, List.filterMap_cons]
    cases ho : ownProperty table id with
    | none =>
      simp only [getProperty, ho, hid, if_false, JSValue.truthy, Bool.false_eq_true]
      exact ih
    | some v =>
      have hv : v ≠ [] := hval _ (ownProperty_mem table id v ho)
      have ht : JSValue.truthy (JSValue.str v) = true := by
        cases v with
        | nil => exact absurd rfl hv
        | cons x v => rfl
      simp only [getProperty, ho, ht, if_true, List.map_cons, ih]

theorem additiveCode_not_inherited {id : JSString} (h : IsAdditiveCode id) :
    id ∉ objectPrototypeKeys := by
  obtain ⟨n, h1, h2, rfl⟩ := h
  interval_cases n <;> decide

theorem allergenCode_not_inherited {id : JSString} (h : IsAllergenCode id) :
    id ∉ objectPrototypeKeys := by
  obtain ⟨x, -, -, rfl⟩ := h
  intro hmem
  have hlen : ∀ k ∈ objectPrototypeKeys, k.length ≠ 1 := by decide
  exact hlen _ hmem rfl

/-- C5: for every entry, `processed.additives` is `processed.additivesIds`
with every code that is no key of `zusatzstoffe` deleted and every other code
replaced by its description, in order; likewise `processed.allergene` from
`processed.allergeneIds` through `allergene`.  For `x (A,Z)` the codes are
`["A","Z"]` and the descriptions `["Glutenhaltige Getreide"]`; for the
Chicken Curry text the descriptions are `["mit Konservierungsstoff","mit
Farbstoff"]` and `["Glutenhaltige Getreide","Milch und Milcherzeugnisse"]`. -/
theorem descriptions_resolved (e : TagesMenue) :
    (∃ p, (processMenueItem e).processed = some p ∧
      p.additives = (p.additivesIds.filterMap (ownProperty zusatzstoffe)).map JSValue.str ∧
      p.allergene = (p.allergeneIds.filterMap (ownProperty allergene)).map JSValue.str) ∧
    (processText "x (A,Z)".toList).allergeneIds = ["A".toList, "Z".toList] ∧
    (processText "x (A,Z)".toList).allergene = [.str "Glutenhaltige Getreide".toList] ∧
    (processText "Chicken Curry (1,2) mit Reis[br]dazu Salat (A,G)".toList).additives =
      [.str "mit Konservierungsstoff".toList, .str "mit Farbstoff".toList] ∧
    (processText "Chicken Curry (1,2) mit Reis[br]dazu Salat (A,G)".toList).allergene =
      [.str "Glutenhaltige Getreide".toList, .str "Milch und Milcherzeugnisse".toList] := by
  refine ⟨⟨_, processed_eq e, ?_, ?_⟩, by decide, by decide, by decide, by decide⟩
  · exact resolve_eq zusatzstoffe (by decide) _
      fun id hid => additiveCode_not_inherited (additivesIds_codes _ id hid)
  · exact resolve_eq allergene (by decide) _
      fun id hid => allergenCode_not_inherited (allergeneIds_codes _ id hid)

/-! ## Every group of the text is found -/

theorem isFlatGroup_isParenGroup {m : JSString} (h : IsFlatGroup m) : IsParenGroup m := by
  obtain ⟨body, hne, hno, rfl⟩ := h
  exact ⟨body, hne, hno.2, rfl⟩

theorem intercalate_noParens {codes : List JSString} (hplain : ∀ c ∈ codes, PlainCode c) :
    NoParens (List.intercalate [','] codes) := by
  cases codes with
  | nil => exact ⟨by simp [List.intercalate], by simp [List.intercalate]⟩
  | cons c cs =>
    have key : ∀ x ∈ List.intercalate [','] (c :: cs), x ≠ '(' ∧ x ≠ ')' := by
      rw [intercalate_cons]
      intro x hx
      simp only [List.mem_append, List.mem_flatten, List.mem_map] at hx
      rcases hx with hx | ⟨l, ⟨d, hd, rfl⟩, hx⟩
      · exact ⟨((hplain c (List.mem_cons_self _ _)).2 x hx).1,
          ((hplain c (List.mem_cons_self _ _)).2 x hx).2.1⟩
      · simp only [List.singleton_append, List.mem_cons] at hx
        rcases hx with rfl | hx
        · exact ⟨by decide, by decide⟩
        · exact ⟨((hplain d (List.mem_cons_of_mem _ hd)).2 x hx).1,
            ((hplain d (List.mem_cons_of_mem _ hd)).2 x hx).2.1⟩
    exact ⟨fun h => (key _ h).1 rfl, fun h => (key _ h).2 rfl⟩

theorem groupOf_isFlatGroup {codes : List JSString} (hne : codes ≠ [])
    (hplain : ∀ c ∈ codes, PlainCode c) : IsFlatGroup (groupOf codes) := by
  obtain ⟨body, hb, -, hg⟩ := groupOf_isParenGroup hne hplain
  refine ⟨List.intercalate [','] codes, ?_, intercalate_noParens hplain, rfl⟩
  simp only [groupOf, List.cons_append, List.cons.injEq, true_and] at hg
  have := List.append_inj_left' hg rfl
  rw [this]
  exact hb

theorem isAdditiveGroup_isFlatGroup {g : JSString} (h : IsAdditiveGroup g) : IsFlatGroup g := by
  obtain ⟨codes, hne, hcodes, rfl⟩ := h
  exact groupOf_isFlatGroup hne fun c hc => isAdditiveCode_plain (hcodes c hc)

theorem isAllergenGroup_isFlatGroup {g : JSString} (h : IsAllergenGroup g) : IsFlatGroup g := by
  obtain ⟨codes, hne, hcodes, rfl⟩ := h
  exact groupOf_isFlatGroup hne fun c hc => isAllergenCode_plain (hcodes c hc)

/-- A match of a group pattern that starts in front of a group ends in front
of it. -/
theorem flat_match_before {m g a b rest : JSString} (hm : IsFlatGroup m)
    (hg : IsFlatGroup g) (ha : a ≠ []) (h : a ++ (g ++ b) = m ++ rest) : Occurs g rest := by
  rcases List.append_eq_append_iff.1 h with ⟨a2, hm2, hgb⟩ | ⟨c2, ha2, hrest⟩
  · cases a2 with
    | nil =>
      simp only [List.nil_append] at hgb
      exact ⟨[], b, by simp [hgb]⟩
    | cons y a2 =>
      exfalso
      obtain ⟨gb, -, -, rfl⟩ := hg
      obtain ⟨mb, -, hmb, rfl⟩ := hm
      simp only [List.cons_append, List.cons.injEq] at hgb
      obtain ⟨rfl, -⟩ := hgb
      cases a with
      | nil => exact ha rfl
      | cons x a =>
        simp only [List.cons_append, List.cons.injEq] at hm2
        have hmem : '(' ∈ mb ++ [')'] := by
          rw [hm2.2]
          simp
        simp only [List.mem_append, List.mem_singleton] at hmem
        rcases hmem with hmem | hmem
        · exact hmb.1 hmem
        · revert hmem
          decide
  · exact ⟨c2, b, by simp [hrest]⟩

/-- Every occurrence of a group of the language in the text is found by the
scan. -/
theorem hitTexts_complete {re : Regex} (hre : ∀ m, re.Lang m → IsFlatGroup m) :
    ∀ (n : Nat) (s g : JSString), s.length ≤ n → re.Lang g → Occurs g s →
      g ∈ hitTexts (re.pieces s) := by
  have hdet : re.Determined := fun _ _ _ _ h1 h2 h =>
    isParenGroup_unique (isFlatGroup_isParenGroup (hre _ h1))
      (isFlatGroup_isParenGroup (hre _ h2)) h
  have hne : ∀ m, re.Lang m → m ≠ [] := by
    intro m hm
    obtain ⟨body, -, -, rfl⟩ := hre m hm
    simp
  intro n
  induction n with
  | zero =>
    intro s g hs hg ho
    obtain ⟨a, b, rfl⟩ := ho
    have := hne g hg
    have hpos := List.length_pos.2 this
    simp only [List.length_append] at hs
    omega
  | succ n ih =>
    intro s g hs hg ho
    obtain ⟨a, b, rfl⟩ := ho
    cases a with
    | nil =>
      obtain ⟨caps, hp⟩ := pieces_of_lang hdet b hg (hne g hg)
      simp only [List.nil_append, hp, hitTexts, List.filterMap_cons, List.mem_cons, true_or]
    | cons x a =>
      cases he : re.execAt (x :: a ++ g ++ b) with
      | none =>
        have he2 : re.execAt (x :: (a ++ g ++ b)) = none := by simpa using he
        have hp := pieces_cons_of_none he2
        simp only [List.cons_append] at hp ⊢
        rw [hp]
        have := ih (a ++ g ++ b) g (by simp at hs ⊢; omega) hg ⟨a, b, rfl⟩
        simpa [hitTexts] using this
      | some p =>
        obtain ⟨rest, caps⟩ := p
        obtain ⟨m, hm, hs2⟩ := execAt_sound he
        have hmpos := List.length_pos.2 (hne m hm)
        have hlt : rest.length < (x :: a ++ g ++ b).length := by
          rw [hs2]
          simp only [List.length_append]
          omega
        rw [pieces_of_hit he hlt]
        have hocc : Occurs g rest :=
          flat_match_before (a := x :: a) (b := b) (hre m hm) (hre g hg) (by simp)
            (by rw [← hs2]; simp)
        have := ih rest g (by omega) hg hocc
        simp only [hitTexts, List.filterMap_cons, List.mem_cons]
        exact Or.inr this

/-- The codes of every group of the language that occurs in the text are
extracted. -/
theorem extractIds_complete {re : Regex} (P : JSString → Prop)
    (hplain : ∀ c, P c → PlainCode c)
    (hre : ∀ m, re.Lang m ↔ ∃ codes : List JSString,
      codes ≠ [] ∧ (∀ c ∈ codes, P c) ∧ m = groupOf codes)
    (s : JSString) (codes : List JSString) (hne : codes ≠ []) (hcodes : ∀ c ∈ codes, P c)
    (ho : Occurs (groupOf codes) s) : ∀ c ∈ codes, c ∈ extractIds re s := by
  have hflat : ∀ m, re.Lang m → IsFlatGroup m := by
    intro m hm
    obtain ⟨cs, h1, h2, rfl⟩ := (hre m).1 hm
    exact groupOf_isFlatGroup h1 fun c hc => hplain c (h2 c hc)
  have hhit := hitTexts_complete hflat s.length s (groupOf codes) (le_refl _)
    ((hre _).2 ⟨codes, hne, hcodes, rfl⟩) ho
  intro c hc
  rw [extractIds_eq]
  have hids := ids_of_group hne (fun c hc => hplain c (hcodes c hc))
  rw [← hids] at hc
  obtain ⟨h1, h2⟩ := List.mem_filter.1 hc
  exact List.mem_filter.2 ⟨List.mem_flatMap.2 ⟨_, hhit, h1⟩, h2⟩

/-! ## C6 and C7: the legend line -/

theorem splitLines_ne_nil (s : JSString) : splitLines s ≠ [] := by
  simp [splitLines, split_ne_nil]

theorem getD_last : ∀ (l : List JSString) (x : JSString), l.getLast? = some x →
    l.getD (l.length - 1) [] = x := by
  intro l x h
  rw [List.getLast?_eq_getElem?] at h
  simp [List.getD, h]

/-- The last line is removed exactly when it contains a parenthetical group. -/
theorem dropLegend_eq (l : List JSString) (last : JSString) (h : l.getLast? = some last) :
    (HasParenGroup last → dropLegend l = l.dropLast) ∧
    (¬ HasParenGroup last → dropLegend l = l) := by
  have hne : l ≠ [] := by
    rintro rfl
    simp at h
  have hlen : (l.length != 0) = true := by
    simp [hne]
  unfold dropLegend
  rw [getD_last l last h, hlen, Bool.true_and]
  constructor
  · intro hg
    rw [(legendRe_test_iff last).2 hg]
    rfl
  · intro hg
    have : legendRe.test last = false := by
      cases ht : legendRe.test last with
      | false => rfl
      | true => exact absurd ((legendRe_test_iff last).1 ht) hg
    rw [this]
    rfl

/-- C6: let `L` be the segments of `menueText` between the `[br]` markers,
each trimmed.  `L` is not empty; `processMenueItem` removes the last element
of `L` if and only if it contains a substring `(` + one or more characters
other than `)` + `)`; all other segments are kept in order, so that the
display text is built from `|L| - 1` lines in the first case and from `|L|`
lines otherwise (each line with its additive markers stripped and its commas
spaced). -/
theorem legend_line_dropped_iff (e : TagesMenue) :
    ∃ last p, (splitLines e.menueText).getLast? = some last ∧
      (processMenueItem e).processed = some p ∧
      p.menueTextWithBr = join "<br/>".toList (displayLines e.menueText) ∧
      p.menueTextWithSpaces = join " ".toList (displayLines e.menueText) ∧
      (HasParenGroup last →
        displayLines e.menueText =
          (((splitLines e.menueText).dropLast).map stripAdditives).map normaliseCommas ∧
        (displayLines e.menueText).length + 1 = (splitLines e.menueText).length) ∧
      (¬ HasParenGroup last →
        displayLines e.menueText =
          ((splitLines e.menueText).map stripAdditives).map normaliseCommas ∧
        (displayLines e.menueText).length = (splitLines e.menueText).length) := by
  have hne := splitLines_ne_nil e.menueText
  obtain ⟨last, hlast⟩ : ∃ last, (splitLines e.menueText).getLast? = some last := by
    cases h : (splitLines e.menueText).getLast? with
    | none => exact absurd (List.getLast?_eq_none_iff.1 h) hne
    | some x => exact ⟨x, rfl⟩
  obtain ⟨h1, h2⟩ := dropLegend_eq _ last hlast
  refine ⟨last, _, hlast, processed_eq e, rfl, rfl, ?_, ?_⟩
  · intro hg
    have hd : displayLines e.menueText =
        (((splitLines e.menueText).dropLast).map stripAdditives).map normaliseCommas := by
      unfold displayLines
      rw [h1 hg]
    refine ⟨hd, ?_⟩
    rw [hd]
    have := List.length_pos.2 hne
    simp only [List.length_map, List.length_dropLast]
    omega
  · intro hg
    have hd : displayLines e.menueText =
        ((splitLines e.menueText).map stripAdditives).map normaliseCommas := by
      unfold displayLines
      rw [h2 hg]
    exact ⟨hd, by rw [hd]; simp⟩

/-- C7: for every entry whose `menueText` contains no `[br]` and contains a
parenthetical group, both display texts are empty, while the codes are still
extracted from the original text: the codes of every additive group and of
every allergen group that occurs in `menueText` are in `additivesIds` and in
`allergeneIds`; for `Suppe (1)` the display text is empty and `additivesIds`
is `["1"]`. -/
theorem single_legend_line (e : TagesMenue) (hbr : ¬ Occurs "[br]".toList e.menueText)
    (hgroup : HasParenGroup e.menueText) :
    (∃ p, (processMenueItem e).processed = some p ∧
      p.menueTextWithBr = [] ∧ p.menueTextWithSpaces = [] ∧
      (∀ codes : List JSString, codes ≠ [] → (∀ c ∈ codes, IsAdditiveCode c) →
        Occurs (groupOf codes) e.menueText → ∀ c ∈ codes, c ∈ p.additivesIds) ∧
      (∀ codes : List JSString, codes ≠ [] → (∀ c ∈ codes, IsAllergenCode c) →
        Occurs (groupOf codes) e.menueText → ∀ c ∈ codes, c ∈ p.allergeneIds)) ∧
    (processText "Suppe (1)".toList).menueTextWithBr = [] ∧
    (processText "Suppe (1)".toList).menueTextWithSpaces = [] ∧
    (processText "Suppe (1)".toList).additivesIds = ["1".toList] := by
  have hlines : displayLines e.menueText = [] := by
    unfold displayLines
    rw [splitLines_of_no_br hbr, dropLegend_single,
      (legendRe_test_iff _).2 (trim_hasParenGroup hgroup)]
    rfl
  refine ⟨⟨_, processed_eq e, ?_, ?_, ?_, ?_⟩, by decide, by decide, by decide⟩
  · show join _ (displayLines e.menueText) = _
    rw [hlines]
    rfl
  · show join _ (displayLines e.menueText) = _
    rw [hlines]
    rfl
  · intro codes hne hcodes ho
    exact extractIds_complete IsAdditiveCode (fun _ hc => isAdditiveCode_plain hc)
      lang_additiveRe e.menueText codes hne hcodes ho
  · intro codes hne hcodes ho
    exact extractIds_complete IsAllergenCode (fun _ hc => isAllergenCode_plain hc)
      lang_allergenRe e.menueText codes hne hcodes ho

/-- C7 (witness): the text `Suppe (1)` has no `[br]` and contains the
group `(1)`. -/
theorem single_legend_line_witness :
    ¬ Occurs "[br]".toList (entryOf "Suppe (1)".toList).menueText ∧
    HasParenGroup (entryOf "Suppe (1)".toList).menueText ∧
    ∃ p, (processMenueItem (entryOf "Suppe (1)".toList)).processed = some p ∧
      p.menueTextWithBr = [] ∧ p.menueTextWithSpaces = [] ∧
      (∀ codes : List JSString, codes ≠ [] → (∀ c ∈ codes, IsAdditiveCode c) →
        Occurs (groupOf codes) (entryOf "Suppe (1)".toList).menueText →
          ∀ c ∈ codes, c ∈ p.additivesIds) ∧
      (∀ codes : List JSString, codes ≠ [] → (∀ c ∈ codes, IsAllergenCode c) →
        Occurs (groupOf codes) (entryOf "Suppe (1)".toList).menueText →
          ∀ c ∈ codes, c ∈ p.allergeneIds) :=
  ⟨fun h => absurd ((occurs_iff _ _).1 h) (by decide),
    (legendRe_test_iff _).1 (by decide),
    (single_legend_line (entryOf "Suppe (1)".toList)
      (fun h => absurd ((occurs_iff _ _).1 h) (by decide))
      ((legendRe_test_iff _).1 (by decide))).1⟩

/-! ## C8: the sort -/

theorem sortInsert_perm {α : Type} (cmp : α → α → Int) (x : α) :
    ∀ l : List α, List.Perm (sortInsert cmp x l) (x :: l) := by
  intro l
  induction l with
  | nil => exact List.Perm.refl _
  | cons y ys ih =>
    simp only [sortInsert]
    split
    · exact List.Perm.refl _
    · exact (List.Perm.cons y ih).trans (List.Perm.swap x y ys)

theorem sortBy_perm {α : Type} (cmp : α → α → Int) :
    ∀ l : List α, List.Perm (sortBy cmp l) l := by
  intro l
  induction l with
  | nil => exact List.Perm.refl _
  | cons x xs ih =>
    exact (sortInsert_perm cmp x _).trans (List.Perm.cons x ih)

/-- Insertion keeps a list in descending order of `menueGruppe`. -/
theorem sortInsert_sorted (x : TagesMenue) : ∀ l : List TagesMenue,
    List.Pairwise (fun a b => b.menueGruppe ≤ a.menueGruppe) l →
    List.Pairwise (fun a b => b.menueGruppe ≤ a.menueGruppe)
      (sortInsert sortMenueItemsByMenueGroupePriority x l) := by
  intro l
  induction l with
  | nil => intro _; simp [sortInsert]
  | cons y ys ih =>
    intro h
    obtain ⟨hy, hys⟩ := List.pairwise_cons.1 h
    simp only [sortInsert, sortMenueItemsByMenueGroupePriority]
    split
    · rename_i hle
      refine List.pairwise_cons.2 ⟨?_, h⟩
      intro z hz
      rcases List.mem_cons.1 hz with rfl | hz
      · omega
      · have := hy z hz
        omega
    · rename_i hgt
      refine List.pairwise_cons.2 ⟨?_, ih hys⟩
      intro z hz
      have hz2 := (sortInsert_perm sortMenueItemsByMenueGroupePriority x ys).subset hz
      rcases List.mem_cons.1 hz2 with rfl | hz2
      · omega
      · exact hy z hz2

theorem sortBy_sorted : ∀ l : List TagesMenue,
    List.Pairwise (fun a b => b.menueGruppe ≤ a.menueGruppe)
      (sortBy sortMenueItemsByMenueGroupePriority l) := by
  intro l
  induction l with
  | nil => exact List.Pairwise.nil
  | cons x xs ih => exact sortInsert_sorted x _ ih

/-- Insertion does not change the order among the entries of a group. -/
theorem sortInsert_filter (g : Int) (x : TagesMenue) : ∀ l : List TagesMenue,
    (sortInsert sortMenueItemsByMenueGroupePriority x l).filter
        (fun m => decide (m.menueGruppe = g)) =
      (x :: l).filter (fun m => decide (m.menueGruppe = g)) := by
  intro l
  induction l with
  | nil => rfl
  | cons y ys ih =>
    simp only [sortInsert, sortMenueItemsByMenueGroupePriority]
    split
    · rfl
    · rename_i hgt
      simp only [List.filter_cons] at ih ⊢
      rw [ih]
      by_cases hx : x.menueGruppe = g
      · have hy : y.menueGruppe ≠ g := by omega
        simp [hx, hy]
      · simp [hx]

theorem sortBy_filter (g : Int) : ∀ l : List TagesMenue,
    (sortBy sortMenueItemsByMenueGroupePriority l).filter (fun m => decide (m.menueGruppe = g)) =
      l.filter (fun m => decide (m.menueGruppe = g)) := by
  intro l
  induction l with
  | nil => rfl
  | cons x xs ih =>
    simp only [sortBy]
    rw [sortInsert_filter, List.filter_cons, List.filter_cons, ih]

/-- C8: for every list of entries (the values of `menues`, with integer
`menueGruppe`), the processed and sorted list is a permutation of the
processed entries, is non-increasing in `menueGruppe`, and keeps the entries
of each group in their input order; for the groups `[3, 1, 3, 2]` the output
is the first, third, fourth and second entry, with groups `[3, 3, 2, 1]`. -/
theorem processAndSort_sorted_stable (menues : List TagesMenue) (a b c d : TagesMenue) :
    List.Perm (processAndSort menues) (menues.map processMenueItem) ∧
    List.Pairwise (fun x y => y.menueGruppe ≤ x.menueGruppe) (processAndSort menues) ∧
    (∀ g : Int, (processAndSort menues).filter (fun m => decide (m.menueGruppe = g)) =
      (menues.map processMenueItem).filter (fun m => decide (m.menueGruppe = g))) ∧
    processAndSort [{ a with menueGruppe := 3 }, { b with menueGruppe := 1 },
        { c with menueGruppe := 3 }, { d with menueGruppe := 2 }] =
      [processMenueItem { a with menueGruppe := 3 }, processMenueItem { c with menueGruppe := 3 },
        processMenueItem { d with menueGruppe := 2 },
        processMenueItem { b with menueGruppe := 1 }] ∧
    (processAndSort [{ a with menueGruppe := 3 }, { b with menueGruppe := 1 },
        { c with menueGruppe := 3 }, { d with menueGruppe := 2 }]).map
      (fun m => m.menueGruppe) = [3, 3, 2, 1] := by
  refine ⟨sortBy_perm _ _, sortBy_sorted _, fun g => sortBy_filter g _, ?_, ?_⟩
  · simp [processAndSort, sortBy, sortInsert, sortMenueItemsByMenueGroupePriority,
      processMenueItem]
  · simp [processAndSort, sortBy, sortInsert, sortMenueItemsByMenueGroupePriority,
      processMenueItem]

/-! ## C9: the comma step -/

theorem normaliseCommas_nil : normaliseCommas [] = [] := by decide

theorem normaliseCommas_tight {c : Char} (t : JSString) (hc : c ≠ ' ') :
    normaliseCommas (',' :: c :: t) = ',' :: ' ' :: c :: normaliseCommas t := by
  unfold normaliseCommas
  rw [replaceAll_eq, replaceAll_eq, pieces_of_hit (execAt_commaRe_tight t hc) (by simp; omega)]
  rfl

theorem tightAt_iff (x : Char) (t : JSString) :
    tightAt x t = true ↔ ∃ c t1, c ≠ ' ' ∧ x :: t = ',' :: c :: t1 := by
  cases t with
  | nil => simp [tightAt]
  | cons c t =>
    simp only [tightAt, Bool.and_eq_true, beq_iff_eq, bne_iff_ne, ne_eq, List.cons.injEq]
    constructor
    · rintro ⟨rfl, hc⟩
      exact ⟨c, t, hc, rfl, rfl, rfl⟩
    · rintro ⟨c1, t1, hc, rfl, rfl, rfl⟩
      exact ⟨rfl, hc⟩

theorem normaliseCommas_loose {x : Char} {t : JSString} (h : tightAt x t = false) :
    normaliseCommas (x :: t) = x :: normaliseCommas t := by
  have he : commaRe.execAt (x :: t) = none := by
    apply execAt_eq_none
    intro m r hm hs
    obtain ⟨c, hc, rfl⟩ := (lang_commaRe m).1 hm
    have : tightAt x t = true := (tightAt_iff x t).2 ⟨c, r, hc, by simpa using hs⟩
    rw [h] at this
    exact absurd this (by decide)
  unfold normaliseCommas
  rw [replaceAll_eq, replaceAll_eq, pieces_cons_of_none he]
  rfl

/-- Without two commas in a row, the comma step inserts one space after each
comma that is followed by a character other than the space. -/
theorem normaliseCommas_eq : ∀ (n : Nat) (line : JSString), line.length ≤ n →
    ¬ Occurs [',', ','] line → normaliseCommas line = spaceAfterTightCommas line := by
  intro n
  induction n with
  | zero =>
    intro line hlen _
    have : line = [] := List.eq_nil_of_length_eq_zero (by omega)
    subst this
    exact normaliseCommas_nil
  | succ n ih =>
    intro line hlen hno
    cases line with
    | nil => exact normaliseCommas_nil
    | cons x t =>
      have hnot : ¬ Occurs [',', ','] t := fun h => hno (occurs_cons x h)
      cases ht : tightAt x t with
      | false =>
        rw [normaliseCommas_loose ht, ih t (by simp at hlen; omega) hnot]
        simp [spaceAfterTightCommas, ht]
      | true =>
        obtain ⟨c, t1, hc, hs⟩ := (tightAt_iff x t).1 ht
        simp only [List.cons.injEq] at hs
        obtain ⟨rfl, rfl⟩ := hs
        have hc2 : c ≠ ',' := by
          rintro rfl
          exact hno ⟨[], t1, rfl⟩
        have hloose : tightAt c t1 = false := by
          simp [tightAt, hc2]
        have hnot1 : ¬ Occurs [',', ','] t1 := fun h => hnot (occurs_cons c h)
        rw [normaliseCommas_tight t1 hc, ih t1 (by simp at hlen; omega) hnot1]
        simp [spaceAfterTightCommas, ht, hloose]

/-- C9 (counterexample): the comma step puts a space between a comma and a
tab, although the comma is followed by white space, and it puts no space
after the second of two commas in `,,a`, although that comma is followed by
a letter. -/
theorem comma_before_tab_counterexample :
    normaliseCommas ",\tx".toList = ", \tx".toList ∧
    claimedCommaSpacing ",\tx".toList = ",\tx".toList ∧
    normaliseCommas ",,a".toList = ", ,a".toList ∧
    claimedCommaSpacing ",,a".toList = ", , a".toList ∧
    normaliseCommas ",\tx".toList ≠ claimedCommaSpacing ",\tx".toList ∧
    normaliseCommas ",,a".toList ≠ claimedCommaSpacing ",,a".toList := by
  decide

/-- C9 (amended): the display lines are the surviving lines with the additive
markers stripped and then the commas spaced; for every line in which no
comma is directly followed by another comma, the comma step returns the line
with exactly one space inserted after each comma that is directly followed
by a character other than the space (a tab counts as such a character), and
leaves every other character unchanged; `a,b` becomes `a, b`. -/
theorem comma_spacing (menueText line : JSString) (hno : ¬ Occurs [',', ','] line) :
    displayLines menueText =
      ((dropLegend (splitLines menueText)).map stripAdditives).map normaliseCommas ∧
    normaliseCommas line = spaceAfterTightCommas line ∧
    normaliseCommas "a,b".toList = "a, b".toList ∧
    normaliseCommas "a,\tb".toList = "a, \tb".toList ∧
    normaliseCommas "a, b,".toList = "a, b,".toList :=
  ⟨rfl, normaliseCommas_eq line.length line (le_refl _) hno, by decide, by decide, by decide⟩

/-- C9 (witness): the line `Reis,Salat, Brot,` has no two commas in a row. -/
theorem comma_spacing_witness :
    ¬ Occurs [',', ','] "Reis,Salat, Brot,".toList ∧
    normaliseCommas "Reis,Salat, Brot,".toList =
      spaceAfterTightCommas "Reis,Salat, Brot,".toList ∧
    spaceAfterTightCommas "Reis,Salat, Brot,".toList = "Reis, Salat, Brot,".toList :=
  ⟨fun h => absurd ((occurs_iff _ _).1 h) (by decide),
    (comma_spacing [] "Reis,Salat, Brot,".toList
      (fun h => absurd ((occurs_iff _ _).1 h) (by decide))).2.1,
    by decide⟩

/-! ## C10: additive groups in the display text -/

theorem stripAdditives_nil : stripAdditives [] = [] := by decide

theorem stripAdditives_group {g : JSString} (rest : JSString) (hg : IsAdditiveGroup g) :
    stripAdditives (g ++ rest) = stripAdditives rest := by
  obtain ⟨caps, hp⟩ := pieces_of_lang additiveRe_determined rest ((lang_additiveRe g).2 hg)
    (by obtain ⟨codes, -, -, rfl⟩ := hg; simp [groupOf])
  unfold stripAdditives
  rw [replaceAll_eq, replaceAll_eq, hp]
  rfl

theorem stripAdditives_cons {c : Char} {t : JSString}
    (h : additiveRe.execAt (c :: t) = none) :
    stripAdditives (c :: t) = c :: stripAdditives t := by
  unfold stripAdditives
  rw [replaceAll_eq, replaceAll_eq, pieces_cons_of_none h]
  rfl

/-- At every place of a text either an additive group starts or the scan
passes over one character. -/
theorem additive_head_cases (s : JSString) :
    (∃ g rest, IsAdditiveGroup g ∧ s = g ++ rest) ∨ additiveRe.execAt s = none := by
  cases he : additiveRe.execAt s with
  | none => exact Or.inr rfl
  | some p =>
    obtain ⟨m, hm, hs⟩ := execAt_sound (t := p.1) (c := p.2) he
    exact Or.inl ⟨m, p.1, (lang_additiveRe m).1 hm, hs⟩

theorem unnested_of_occurs {s t : JSString} (ht : Unnested t) (ho : Occurs s t) :
    Unnested s := by
  obtain ⟨p, q, rfl⟩ := ho
  intro a m b hs
  exact ht (p ++ a) m (b ++ q) (by rw [hs]; simp)

/-- Behind an opening parenthesis of an unnested text, a closing parenthesis
that the stripped text reaches over parenthesis-free text is reached in the
same way in the text itself. -/
theorem strip_reaches : ∀ (t w r : JSString), NoParens w →
    (∀ a b : JSString, t = a ++ '(' :: b → ')' ∈ a) →
    stripAdditives t = w ++ ')' :: r → ∃ r1, t = w ++ ')' :: r1 := by
  intro t
  induction t with
  | nil =>
    intro w r _ _ h
    rw [stripAdditives_nil] at h
    cases w <;> simp at h
  | cons c t ih =>
    intro w r hw hH h
    rcases additive_head_cases (c :: t) with ⟨g, rest, hg, hs⟩ | hnone
    · exfalso
      obtain ⟨body, -, -, rfl⟩ := isAdditiveGroup_isParenGroup hg
      have := hH [] (body ++ [')'] ++ rest) (by rw [hs]; simp)
      simp at this
    · rw [stripAdditives_cons hnone] at h
      cases w with
      | nil =>
        simp only [List.nil_append, List.cons.injEq] at h
        exact ⟨t, by simp [h.1]⟩
      | cons x w =>
        simp only [List.cons_append, List.cons.injEq] at h
        obtain ⟨rfl, h⟩ := h
        have hc1 : c ≠ ')' := fun hc => hw.2 (by simp [hc])
        have hw2 : NoParens w :=
          ⟨fun hm => hw.1 (List.mem_cons_of_mem _ hm), fun hm => hw.2 (List.mem_cons_of_mem _ hm)⟩
        obtain ⟨r1, hr1⟩ := ih w r hw2 (by
          intro a b hab
          have := hH (c :: a) b (by simp [hab])
          rcases List.mem_cons.1 this with hcc | hcc
          · exact absurd hcc.symm hc1
          · exact hcc) h
        exact ⟨r1, by simp [hr1]⟩

/-- The stripped form of an unnested text contains no additive group. -/
theorem strip_no_group : ∀ (n : Nat) (s g : JSString), s.length ≤ n → Unnested s →
    IsAdditiveGroup g → ¬ Occurs g (stripAdditives s) := by
  intro n
  induction n with
  | zero =>
    intro s g hlen _ hg ho
    have : s = [] := List.eq_nil_of_length_eq_zero (by omega)
    subst this
    obtain ⟨a, b, hab⟩ := ho
    obtain ⟨body, -, -, rfl⟩ := isAdditiveGroup_isParenGroup hg
    rw [stripAdditives_nil] at hab
    cases a <;> simp at hab
  | succ n ih =>
    intro s g hlen hs hg ho
    cases s with
    | nil =>
      obtain ⟨a, b, hab⟩ := ho
      obtain ⟨body, -, -, rfl⟩ := isAdditiveGroup_isParenGroup hg
      rw [stripAdditives_nil] at hab
      cases a <;> simp at hab
    | cons c t =>
      rcases additive_head_cases (c :: t) with ⟨g1, rest, hg1, hs1⟩ | hnone
      · rw [hs1, stripAdditives_group rest hg1] at ho
        have hpos : 0 < g1.length := by
          obtain ⟨body, -, -, rfl⟩ := isAdditiveGroup_isParenGroup hg1
          simp
        have hl : (c :: t).length = g1.length + rest.length := by rw [hs1]; simp
        exact ih rest g (by omega) (unnested_of_occurs hs ⟨g1, [], by simp [hs1]⟩) hg ho
      · rw [stripAdditives_cons hnone] at ho
        obtain ⟨a, b, hab⟩ := ho
        cases a with
        | cons x a =>
          simp only [List.cons_append, List.cons.injEq] at hab
          exact ih t g (by simp at hlen; omega)
            (unnested_of_occurs hs ⟨[c], [], by simp⟩) hg ⟨a, b, by simp [hab.2]⟩
        | nil =>
          obtain ⟨body, hbne, hbody, rfl⟩ := isAdditiveGroup_isFlatGroup hg
          simp only [List.nil_append, List.cons_append, List.append_assoc,
            List.singleton_append, List.cons.injEq] at hab
          obtain ⟨rfl, hab⟩ := hab
          obtain ⟨r1, hr1⟩ := strip_reaches t body b hbody (by
            intro a1 b1 hab1
            exact hs [] a1 b1 (by simp [hab1])) hab
          obtain ⟨caps, he⟩ := execAt_of_lang additiveRe_determined r1
            ((lang_additiveRe _).2 hg)
          rw [hr1] at hnone
          simp only [List.cons_append, List.append_assoc, List.singleton_append,
            List.nil_append] at he
          rw [he] at hnone
          exact absurd hnone (by simp)

theorem normaliseCommas_cases (s : JSString) :
    s = [] ∨ (∃ c t, c ≠ ' ' ∧ s = ',' :: c :: t ∧
        normaliseCommas s = ',' :: ' ' :: c :: normaliseCommas t) ∨
      (∃ x t, s = x :: t ∧ normaliseCommas s = x :: normaliseCommas t) := by
  cases s with
  | nil => exact Or.inl rfl
  | cons x t =>
    cases ht : tightAt x t with
    | false => exact Or.inr (Or.inr ⟨x, t, rfl, normaliseCommas_loose ht⟩)
    | true =>
      obtain ⟨c, t1, hc, hs⟩ := (tightAt_iff x t).1 ht
      exact Or.inr (Or.inl ⟨c, t1, hc, hs, by rw [hs]; exact normaliseCommas_tight t1 hc⟩)

/-- A text without space at the start of a spaced line is at the start of the
line itself. -/
theorem normaliseCommas_starts : ∀ (n : Nat) (s g r : JSString), s.length ≤ n → ' ' ∉ g →
    normaliseCommas s = g ++ r → ∃ r1, s = g ++ r1 := by
  intro n
  induction n with
  | zero =>
    intro s g r hlen _ h
    have : s = [] := List.eq_nil_of_length_eq_zero (by omega)
    subst this
    rw [normaliseCommas_nil] at h
    cases g with
    | nil => exact ⟨[], rfl⟩
    | cons y g => simp at h
  | succ n ih =>
    intro s g r hlen hg h
    cases g with
    | nil => exact ⟨s, rfl⟩
    | cons y g =>
      simp only [List.mem_cons, not_or] at hg
      rcases normaliseCommas_cases s with rfl | ⟨c, t, hc, rfl, hn⟩ | ⟨x, t, rfl, hn⟩
      · rw [normaliseCommas_nil] at h
        simp at h
      · rw [hn] at h
        simp only [List.cons_append, List.cons.injEq] at h
        obtain ⟨rfl, h⟩ := h
        cases g with
        | nil => exact ⟨c :: t, rfl⟩
        | cons z g =>
          simp only [List.cons_append, List.cons.injEq] at h
          simp only [List.mem_cons, not_or] at hg
          exact absurd h.1 hg.2.1
      · rw [hn] at h
        simp only [List.cons_append, List.cons.injEq] at h
        obtain ⟨rfl, h⟩ := h
        obtain ⟨r1, hr1⟩ := ih t g r (by simp at hlen; omega) hg.2 h
        exact ⟨r1, by simp [hr1]⟩

/-- A text without space that occurs in a spaced line occurs in the line
itself. -/
theorem normaliseCommas_occurs : ∀ (n : Nat) (s g : JSString), s.length ≤ n → ' ' ∉ g →
    g ≠ [] → Occurs g (normaliseCommas s) → Occurs g s := by
  intro n
  induction n with
  | zero =>
    intro s g hlen _ hne ho
    have : s = [] := List.eq_nil_of_length_eq_zero (by omega)
    subst this
    rw [normaliseCommas_nil] at ho
    exact ho
  | succ n ih =>
    intro s g hlen hg hne ho
    obtain ⟨a, b, hab⟩ := ho
    cases a with
    | nil =>
      obtain ⟨r1, hr1⟩ := normaliseCommas_starts _ s g b (le_refl _) hg (by simpa using hab)
      exact ⟨[], r1, by simpa using hr1⟩
    | cons y a =>
      rcases normaliseCommas_cases s with rfl | ⟨c, t, hc, rfl, hn⟩ | ⟨x, t, rfl, hn⟩
      · rw [normaliseCommas_nil] at hab
        simp at hab
      · rw [hn] at hab
        simp only [List.cons_append, List.cons.injEq] at hab
        obtain ⟨-, hab⟩ := hab
        have hlt : t.length ≤ n := by simp at hlen; omega
        cases a with
        | nil =>
          exfalso
          cases g with
          | nil => exact hne rfl
          | cons z g =>
            simp only [List.nil_append, List.cons_append, List.cons.injEq] at hab
            exact hg (by simp [← hab.1])
        | cons z a =>
          simp only [List.cons_append, List.cons.injEq] at hab
          obtain ⟨-, hab⟩ := hab
          cases a with
          | nil =>
            cases g with
            | nil => exact absurd rfl hne
            | cons u g =>
              simp only [List.nil_append, List.cons_append, List.cons.injEq] at hab
              obtain ⟨rfl, hab⟩ := hab
              simp only [List.mem_cons, not_or] at hg
              obtain ⟨r1, hr1⟩ := normaliseCommas_starts n t g b hlt hg.2 hab
              exact ⟨[','], r1, by simp [hr1]⟩
          | cons u a =>
            simp only [List.cons_append, List.cons.injEq] at hab
            have := ih t g hlt hg hne ⟨a, b, by simp [hab.2]⟩
            exact occurs_cons _ (occurs_cons _ this)
      · rw [hn] at hab
        simp only [List.cons_append, List.cons.injEq] at hab
        have := ih t g (by simp at hlen; omega) hg hne ⟨a, b, by simp [hab.2]⟩
        exact occurs_cons _ this

/-- A text that occurs around a character it does not contain occurs on one
side of the character. -/
theorem occurs_split {g l r : JSString} {x : Char} (hx : x ∉ g) (hne : g ≠ [])
    (ho : Occurs g (l ++ x :: r)) : Occurs g l ∨ Occurs g r := by
  obtain ⟨a, b, hab⟩ := ho
  rw [List.append_assoc] at hab
  rcases List.append_eq_append_iff.1 hab with ⟨a1, rfl, h2⟩ | ⟨c1, rfl, h2⟩
  · cases a1 with
    | nil =>
      cases g with
      | nil => exact absurd rfl hne
      | cons y g =>
        simp only [List.nil_append, List.cons_append, List.cons.injEq] at h2
        exact absurd (by simp [h2.1]) hx
    | cons y a1 =>
      simp only [List.cons_append, List.cons.injEq] at h2
      exact Or.inr ⟨a1, b, by simp [h2.2]⟩
  · rcases List.append_eq_append_iff.1 h2 with ⟨d, rfl, -⟩ | ⟨d, rfl, h3⟩
    · exact Or.inl ⟨a, d, by simp⟩
    · cases d with
      | nil => exact Or.inl ⟨a, [], by simp⟩
      | cons y d =>
        simp only [List.cons_append, List.cons.injEq] at h3
        exact absurd (by simp [h3.1]) hx

/-- A text that shares no character with the text in front of it occurs
behind that text. -/
theorem occurs_skip {g : JSString} (hne : g ≠ []) : ∀ (p r : JSString), (∀ x ∈ p, x ∉ g) →
    Occurs g (p ++ r) → Occurs g r := by
  intro p
  induction p with
  | nil => intro r _ h; exact h
  | cons x p ih =>
    intro r hp h
    have h1 : Occurs g ([] ++ x :: (p ++ r)) := by simpa using h
    rcases occurs_split (hp x (List.mem_cons_self _ _)) hne h1 with ho | ho
    · obtain ⟨a, b, hab⟩ := ho
      cases a with
      | nil =>
        cases g with
        | nil => exact absurd rfl hne
        | cons y g => simp at hab
      | cons y a => simp at hab
    · exact ih r (fun y hy => hp y (List.mem_cons_of_mem _ hy)) ho

/-- A text that occurs in joined lines and shares no character with the
separator occurs in one of the lines. -/
theorem occurs_join {g sep : JSString} (hne : g ≠ []) (hsep : ∀ x ∈ sep, x ∉ g)
    (hsne : sep ≠ []) : ∀ (lines : List JSString), Occurs g (join sep lines) →
      ∃ line ∈ lines, Occurs g line := by
  intro lines
  induction lines with
  | nil =>
    intro h
    obtain ⟨a, b, hab⟩ := h
    exfalso
    cases a with
    | nil =>
      cases g with
      | nil => exact hne rfl
      | cons y g => simp [join, List.intercalate] at hab
    | cons y a => simp [join, List.intercalate] at hab
  | cons l ls ih =>
    intro h
    cases ls with
    | nil =>
      rw [join_single] at h
      exact ⟨l, List.mem_cons_self _ _, h⟩
    | cons l2 ls =>
      have hj : join sep (l :: l2 :: ls) = l ++ sep ++ join sep (l2 :: ls) := by
        simp only [join, intercalate_cons]
        simp
      rw [hj] at h
      cases sep with
      | nil => exact absurd rfl hsne
      | cons x sep =>
        have h1 : Occurs g (l ++ x :: (sep ++ join (x :: sep) (l2 :: ls))) := by
          simpa using h
        rcases occurs_split (hsep x (List.mem_cons_self _ _)) hne h1 with ho | ho
        · exact ⟨l, List.mem_cons_self _ _, ho⟩
        · have := occurs_skip hne sep _ (fun y hy => hsep y (List.mem_cons_of_mem _ hy)) ho
          obtain ⟨line, hl, hline⟩ := ih this
          exact ⟨line, List.mem_cons_of_mem _ hl, hline⟩

theorem unnestedB_sound : ∀ (s : JSString) (inside : Bool), unnestedB s inside = true →
    Unnested s ∧ (inside = true → ∀ a b : JSString, s = a ++ '(' :: b → ')' ∈ a) := by
  intro s
  induction s with
  | nil =>
    intro inside _
    constructor
    · intro a m b h
      cases a <;> simp at h
    · intro _ a b h
      cases a <;> simp at h
  | cons c t ih =>
    intro inside h
    simp only [unnestedB] at h
    by_cases hc : c = '('
    · subst hc
      simp only [if_true, Bool.and_eq_true, Bool.not_eq_true'] at h
      obtain ⟨hin, ht⟩ := h
      obtain ⟨hU, hH⟩ := ih true ht
      constructor
      · intro a m b hs
        cases a with
        | nil =>
          simp only [List.nil_append, List.cons_append, List.cons.injEq, true_and] at hs
          exact hH rfl m b hs
        | cons y a =>
          simp only [List.cons_append, List.cons.injEq] at hs
          exact hU a m b (by simp [hs.2])
      · intro hi
        rw [hin] at hi
        exact absurd hi (by decide)
    · simp only [hc, if_false] at h
      by_cases hc2 : c = ')'
      · subst hc2
        simp only [if_true] at h
        obtain ⟨hU, -⟩ := ih false h
        constructor
        · intro a m b hs
          cases a with
          | nil =>
            simp only [List.nil_append, List.cons_append, List.cons.injEq] at hs
            exact absurd hs.1 (by decide)
          | cons y a =>
            simp only [List.cons_append, List.cons.injEq] at hs
            exact hU a m b (by simp [hs.2])
        · intro _ a b hs
          cases a with
          | nil =>
            simp only [List.nil_append, List.cons.injEq] at hs
            exact absurd hs.1 (by decide)
          | cons y a =>
            simp only [List.cons_append, List.cons.injEq] at hs
            exact List.mem_cons.2 (Or.inl hs.1)
      · simp only [hc2, if_false] at h
        obtain ⟨hU, hH⟩ := ih inside h
        constructor
        · intro a m b hs
          cases a with
          | nil =>
            simp only [List.nil_append, List.cons_append, List.cons.injEq] at hs
            exact absurd hs.1 hc
          | cons y a =>
            simp only [List.cons_append, List.cons.injEq] at hs
            exact hU a m b (by simp [hs.2])
        · intro hi a b hs
          cases a with
          | nil =>
            simp only [List.nil_append, List.cons.injEq] at hs
            exact absurd hs.1 hc
          | cons y a =>
            simp only [List.cons_append, List.cons.injEq] at hs
            exact List.mem_cons_of_mem _ (hH hi a b hs.2)

theorem unnested_of_check {s : JSString} (h : unnestedB s false = true) : Unnested s :=
  (unnestedB_sound s false h).1

/-- The characters of an additive group are parentheses, commas and digits. -/
theorem isAdditiveGroup_chars {g : JSString} (hg : IsAdditiveGroup g) :
    ∀ x ∈ g, x ∈ "(),0123456789".toList := by
  obtain ⟨codes, hne, hcodes, rfl⟩ := hg
  have hcode : ∀ c ∈ codes, ∀ x ∈ c, x ∈ "(),0123456789".toList := by
    intro c hc
    obtain ⟨n, h1, h2, rfl⟩ := hcodes c hc
    interval_cases n <;> decide
  cases codes with
  | nil => exact absurd rfl hne
  | cons c cs =>
    intro x hx
    simp only [groupOf, intercalate_cons, List.cons_append, List.mem_cons, List.mem_append,
      List.mem_flatten, List.mem_map, List.mem_singleton, List.not_mem_nil, or_false] at hx
    rcases hx with rfl | (hx | ⟨l, ⟨d, hd, rfl⟩, hx⟩) | rfl
    · decide
    · exact hcode c (List.mem_cons_self _ _) x hx
    · simp only [List.mem_cons, List.mem_singleton] at hx
      rcases hx with rfl | hx
      · decide
      · exact hcode d (List.mem_cons_of_mem _ hd) x hx
    · decide

theorem dropLegend_subset (l : List JSString) : ∀ x ∈ dropLegend l, x ∈ l := by
  intro x hx
  unfold dropLegend at hx
  split at hx
  · exact List.dropLast_subset l hx
  · exact hx

/-- Every display line is a line of the text, stripped and spaced. -/
theorem displayLines_origin {text line : JSString} (h : line ∈ displayLines text) :
    ∃ l0, Occurs l0 text ∧ line = normaliseCommas (stripAdditives l0) := by
  simp only [displayLines, List.map_map, List.mem_map, Function.comp] at h
  obtain ⟨l0, hl0, rfl⟩ := h
  have hmem := dropLegend_subset _ l0 hl0
  simp only [splitLines, List.mem_map] at hmem
  obtain ⟨seg, hseg, rfl⟩ := hmem
  exact ⟨trim seg, occurs_trans (trim_occurs seg) (split_segment_occurs hseg), rfl⟩

/-- The joined display lines of an unnested text contain no additive group,
whatever separator without parentheses, commas and digits joins them. -/
theorem join_no_group {text sep g : JSString} (hun : Unnested text) (hg : IsAdditiveGroup g)
    (hsne : sep ≠ []) (hsep : ∀ x ∈ sep, x ∉ "(),0123456789".toList) :
    ¬ Occurs g (join sep (displayLines text)) := by
  intro ho
  have hne : g ≠ [] := by
    obtain ⟨codes, -, -, rfl⟩ := hg
    simp [groupOf]
  have hchars := isAdditiveGroup_chars hg
  obtain ⟨line, hline, hocc⟩ := occurs_join hne
    (fun x hx hxg => hsep x hx (hchars x hxg)) hsne _ ho
  obtain ⟨l0, hl0, rfl⟩ := displayLines_origin hline
  have hsp : ' ' ∉ g := fun h => absurd (hchars _ h) (by decide)
  have h1 := normaliseCommas_occurs _ (stripAdditives l0) g (le_refl _) hsp hne hocc
  exact strip_no_group _ l0 g (le_refl _) (unnested_of_occurs hun hl0) hg h1

/-- C10 (counterexample): the display texts of `x((1)1)y[br]z` contain the
additive group `(1)`. -/
theorem nested_group_counterexample :
    ∃ p g, (processMenueItem (entryOf "x((1)1)y[br]z".toList)).processed = some p ∧
      IsAdditiveGroup g ∧ Occurs g p.menueTextWithBr ∧ Occurs g p.menueTextWithSpaces :=
  ⟨_, "(1)".toList, rfl, ⟨["1".toList], by decide,
      fun c hc => ⟨1, by decide, by decide, by simpa using hc⟩, rfl⟩,
    ⟨"x".toList, "y<br/>z".toList, by decide⟩, ⟨"x".toList, "y z".toList, by decide⟩⟩

/-- C10 (amended): for every entry whose `menueText` has no nested
parentheses (no `(` is followed by another `(` before the next `)`), the
additive-code groups are stripped from the display text: neither
`menueTextWithBr` nor `menueTextWithSpaces` contains a substring `(n1,...,nk)`
with `k >= 1` and each `ni` an integer in 1..15 without leading zeros.  The
single pass removes the groups of the original line only: for
`x((1)1)y[br]z` the display texts are `x(1)y<br/>z` and `x(1)y z`. -/
theorem no_additive_group_in_display (e : TagesMenue) (hun : Unnested e.menueText) :
    (∃ p, (processMenueItem e).processed = some p ∧
      ∀ g, IsAdditiveGroup g →
        ¬ Occurs g p.menueTextWithBr ∧ ¬ Occurs g p.menueTextWithSpaces) ∧
    (processText "x((1)1)y[br]z".toList).menueTextWithBr = "x(1)y<br/>z".toList ∧
    (processText "x((1)1)y[br]z".toList).menueTextWithSpaces = "x(1)y z".toList := by
  refine ⟨⟨_, processed_eq e, fun g hg => ⟨?_, ?_⟩⟩, by decide, by decide⟩
  · exact join_no_group hun hg (by decide) (by decide)
  · exact join_no_group hun hg (by decide) (by decide)

/-- C10 (witness): the text `Curry (1,2) mit Reis (3)[br]Salat (A)[br]Brot`
has no nested parentheses. -/
theorem no_additive_group_in_display_witness :
    Unnested (entryOf "Curry (1,2) mit Reis (3)[br]Salat (A)[br]Brot".toList).menueText ∧
    ∃ p, (processMenueItem
        (entryOf "Curry (1,2) mit Reis (3)[br]Salat (A)[br]Brot".toList)).processed = some p ∧
      ∀ g, IsAdditiveGroup g →
        ¬ Occurs g p.menueTextWithBr ∧ ¬ Occurs g p.menueTextWithSpaces :=
  ⟨unnested_of_check (by decide),
    (no_additive_group_in_display
      (entryOf "Curry (1,2) mit Reis (3)[br]Salat (A)[br]Brot".toList)
      (unnested_of_check (by decide))).1⟩

/-! ## C11: groups that are no additive groups -/

/-- Where no additive group occurs, the additive pattern finds nothing. -/
theorem additive_pieces_of_none {s : JSString} (h : ∀ g, IsAdditiveGroup g → ¬ Occurs g s) :
    additiveRe.pieces s = s.map Piece.text := by
  apply pieces_of_no_match
  intro a m b hm hs
  exact h m ((lang_additiveRe m).1 hm) ⟨a, b, hs⟩

theorem stripAdditives_of_none {s : JSString} (h : ∀ g, IsAdditiveGroup g → ¬ Occurs g s) :
    stripAdditives s = s := by
  unfold stripAdditives
  rw [replaceAll_eq, additive_pieces_of_none h, replaced_map_text]

theorem additiveIds_of_none {s : JSString} (h : ∀ g, IsAdditiveGroup g → ¬ Occurs g s) :
    extractIds additiveRe s = [] := by
  rw [extractIds_eq, additive_pieces_of_none h, hitTexts_map_text]
  rfl

/-- The place of a character that occurs once in a text is determined. -/
theorem once_unique {x : Char} : ∀ {t0 rest a r : JSString}, x ∉ t0 → x ∉ rest →
    t0 ++ x :: rest = a ++ x :: r → a = t0 ∧ r = rest := by
  intro t0
  induction t0 with
  | nil =>
    intro rest a r _ hrest h
    cases a with
    | nil => simpa using h.symm
    | cons y a =>
      simp only [List.nil_append, List.cons_append, List.cons.injEq] at h
      exfalso
      apply hrest
      rw [h.2]
      simp
  | cons y t0 ih =>
    intro rest a r ht0 hrest h
    simp only [List.mem_cons, not_or] at ht0
    cases a with
    | nil =>
      simp only [List.nil_append, List.cons_append, List.cons.injEq] at h
      exact absurd h.1.symm ht0.1
    | cons z a =>
      simp only [List.cons_append, List.cons.injEq] at h
      obtain ⟨ha, hr⟩ := ih ht0.2 hrest h.2
      exact ⟨by rw [← h.1, ha], hr⟩

/-- Splitting a comma-separated list of comma-free items gives the items. -/
theorem split_comma_items {items : List JSString} (hne : items ≠ [])
    (hfree : ∀ i ∈ items, ',' ∉ i) :
    split [','] (List.intercalate [','] items) = items := by
  cases items with
  | nil => exact absurd rfl hne
  | cons c cs =>
    rw [intercalate_cons, split]
    have := splitAux_comma_codes cs c [] (hfree c (List.mem_cons_self _ _))
      (fun d hd => hfree d (List.mem_cons_of_mem _ hd))
    simpa using this

/-- A group with an item that is no additive code is no additive group. -/
theorem not_additive_group {items : List JSString} (hfree : ∀ i ∈ items, ',' ∉ i)
    (hbad : ∃ i ∈ items, ¬ IsAdditiveCode i) : ¬ IsAdditiveGroup (groupOf items) := by
  rintro ⟨codes, hne, hcodes, hg⟩
  obtain ⟨i, hi, hnot⟩ := hbad
  have hine : items ≠ [] := List.ne_nil_of_mem hi
  simp only [groupOf, List.cons_append, List.cons.injEq, true_and] at hg
  have heq := List.append_inj_left' hg rfl
  have h1 := split_comma_items hine hfree
  have h2 := split_comma_items hne
    (fun c hc hmem => ((isAdditiveCode_plain (hcodes c hc)).2 _ hmem).2.2 rfl)
  rw [heq, h2] at h1
  rw [← h1] at hi
  exact hnot (hcodes i hi)

/-- In a text whose only parentheses are those of one group that is no
additive group, no additive group occurs. -/
theorem no_additive_group_occurs {t0 c t1 : JSString} (ht0 : NoParens t0) (hc : NoParens c)
    (ht1 : NoParens t1) (hnot : ¬ IsAdditiveGroup ('(' :: c ++ [')'])) :
    ∀ g, IsAdditiveGroup g → ¬ Occurs g (t0 ++ '(' :: c ++ ')' :: t1) := by
  intro g hg ho
  obtain ⟨body, -, hbody, rfl⟩ := isAdditiveGroup_isFlatGroup hg
  obtain ⟨a, b, hab⟩ := ho
  have hrest : '(' ∉ c ++ ')' :: t1 := by
    simp only [List.mem_append, List.mem_cons, not_or]
    exact ⟨hc.1, by decide, ht1.1⟩
  have h1 : t0 ++ '(' :: (c ++ ')' :: t1) = a ++ '(' :: (body ++ ')' :: b) := by
    simpa using hab
  obtain ⟨-, hr⟩ := once_unique ht0.1 hrest h1
  obtain ⟨hb, -⟩ := append_cons_unique hbody.2 hc.2 hr
  rw [← hb] at hnot
  exact hnot hg

/-- The comma step passes a character that is no comma on, whatever follows
it; in front of it, only spaces are added. -/
theorem normaliseCommas_through {x : Char} (hx : x ≠ ',') : ∀ (n : Nat) (a : JSString),
    a.length ≤ n → ∃ A : JSString, (A.filter fun ch => ch != ' ') = (a.filter fun ch => ch != ' ') ∧
      ∀ b, normaliseCommas (a ++ x :: b) = A ++ x :: normaliseCommas b := by
  have hloose : ∀ b, tightAt x b = false := by
    intro b
    simp [tightAt, hx]
  intro n
  induction n with
  | zero =>
    intro a ha
    have : a = [] := List.eq_nil_of_length_eq_zero (by omega)
    subst this
    exact ⟨[], rfl, fun b => by simpa using normaliseCommas_loose (hloose b)⟩
  | succ n ih =>
    intro a ha
    cases a with
    | nil => exact ⟨[], rfl, fun b => by simpa using normaliseCommas_loose (hloose b)⟩
    | cons y a =>
      cases a with
      | nil =>
        by_cases ht : y = ',' ∧ x ≠ ' '
        · obtain ⟨rfl, hxs⟩ := ht
          exact ⟨[',', ' '], by decide, fun b => by simpa using normaliseCommas_tight b hxs⟩
        · refine ⟨[y], rfl, fun b => ?_⟩
          have hl : tightAt y (x :: b) = false := by
            simp only [tightAt, Bool.and_eq_false_iff, beq_eq_false_iff_ne, ne_eq,
              bne_eq_false_iff_eq]
            by_cases hy : y = ','
            · right
              by_contra hxs
              exact ht ⟨hy, hxs⟩
            · left
              exact hy
          simp only [List.singleton_append]
          rw [normaliseCommas_loose hl, normaliseCommas_loose (hloose b)]
      | cons z a =>
        by_cases ht : y = ',' ∧ z ≠ ' '
        · obtain ⟨rfl, hz⟩ := ht
          obtain ⟨A, hA, hAb⟩ := ih a (by simp at ha; omega)
          refine ⟨',' :: ' ' :: z :: A, ?_, fun b => ?_⟩
          · simp [List.filter_cons, hz, hA]
          · simp only [List.cons_append]
            rw [normaliseCommas_tight _ hz, hAb b]
        · obtain ⟨A, hA, hAb⟩ := ih (z :: a) (by simp at ha ⊢; omega)
          refine ⟨y :: A, ?_, fun b => ?_⟩
          · simp only [List.filter_cons, hA]
          · have hl : tightAt y (z :: (a ++ x :: b)) = false := by
              simp only [tightAt, Bool.and_eq_false_iff, beq_eq_false_iff_ne, ne_eq,
                bne_eq_false_iff_eq]
              by_cases hy : y = ','
              · right
                by_contra hzs
                exact ht ⟨hy, hzs⟩
              · left
                exact hy
            simp only [List.cons_append]
            rw [normaliseCommas_loose hl]
            have := hAb b
            simp only [List.cons_append] at this
            rw [this]

/-- A group that occurs in a line occurs in the spaced line, with spaces
added at most. -/
theorem normaliseCommas_keeps_group {line c : JSString}
    (ho : Occurs ('(' :: c ++ [')']) line) :
    ∃ C : JSString, (C.filter fun ch => ch != ' ') = (c.filter fun ch => ch != ' ') ∧
      Occurs ('(' :: C ++ [')']) (normaliseCommas line) := by
  obtain ⟨a, b, rfl⟩ := ho
  obtain ⟨A, -, hA⟩ := normaliseCommas_through (x := '(') (by decide) _ a (le_refl _)
  obtain ⟨C, hC, hCb⟩ := normaliseCommas_through (x := ')') (by decide) _ c (le_refl _)
  refine ⟨C, hC, A, normaliseCommas b, ?_⟩
  have h1 := hA (c ++ ')' :: b)
  rw [hCb b] at h1
  simpa using h1

/-- Every line occurs in the joined lines. -/
theorem occurs_join_of_mem (sep : JSString) : ∀ (lines : List JSString) (line : JSString),
    line ∈ lines → Occurs line (join sep lines) := by
  intro lines
  induction lines with
  | nil => intro line h; simp at h
  | cons l ls ih =>
    intro line h
    cases ls with
    | nil =>
      simp only [List.mem_singleton] at h
      subst h
      rw [join_single]
      exact ⟨[], [], by simp⟩
    | cons l2 ls =>
      have hj : join sep (l :: l2 :: ls) = l ++ sep ++ join sep (l2 :: ls) := by
        simp only [join, intercalate_cons]
        simp
      rw [hj]
      rcases List.mem_cons.1 h with rfl | h
      · exact ⟨[], sep ++ join sep (l2 :: ls), by simp⟩
      · obtain ⟨a, b, hab⟩ := ih line h
        exact ⟨l ++ sep ++ a, b, by rw [hab]; simp⟩

/-- C11: for every text `t0 (c) t1` whose only parentheses are those of the
one group, where `c` is a comma-separated list with at least one item that is
no integer in 1..15 without leading zeros, the group does not match as an
additive group: `additivesIds` (and `additives`) are empty, no line is
changed by the stripping step, and when the last line holds no parenthetical
group (the group is on a line that is not the last) no line is dropped and
the group stays in both display texts, with spaces added at most by the comma
step.  Examples: `(16)`, `(1,16)`, `(0)`, `(01)`, `(1,A)`, `(1, 2)`. -/
theorem non_additive_group_kept (e : TagesMenue) (t0 c t1 : JSString)
    (items : List JSString) (ht0 : NoParens t0) (hc : NoParens c) (ht1 : NoParens t1)
    (hitems : c = List.intercalate [','] items) (hfree : ∀ i ∈ items, ',' ∉ i)
    (hbad : ∃ i ∈ items, ¬ IsAdditiveCode i)
    (htext : e.menueText = t0 ++ '(' :: c ++ ')' :: t1) :
    (∃ p, (processMenueItem e).processed = some p ∧
      p.additivesIds = [] ∧ p.additives = [] ∧
      (∀ line ∈ splitLines e.menueText, stripAdditives line = line) ∧
      (∀ last, (splitLines e.menueText).getLast? = some last → ¬ HasParenGroup last →
        displayLines e.menueText = (splitLines e.menueText).map normaliseCommas ∧
        ∀ line ∈ splitLines e.menueText, Occurs ('(' :: c ++ [')']) line →
          ∃ C : JSString, (C.filter fun ch => ch != ' ') = (c.filter fun ch => ch != ' ') ∧
            Occurs ('(' :: C ++ [')']) p.menueTextWithBr ∧
            Occurs ('(' :: C ++ [')']) p.menueTextWithSpaces)) ∧
    (processText "x (16) y[br]z".toList).additivesIds = [] ∧
    (processText "x (1,16) y[br]z".toList).additivesIds = [] ∧
    (processText "x (0) y[br]z".toList).additivesIds = [] ∧
    (processText "x (01) y[br]z".toList).additivesIds = [] ∧
    (processText "x (1,A) y[br]z".toList).additivesIds = [] ∧
    (processText "x (1, 2) y[br]z".toList).additivesIds = [] ∧
    (processText "x (16) y[br]z".toList).menueTextWithBr = "x (16) y<br/>z".toList ∧
    (processText "x (1,16) y[br]z".toList).menueTextWithBr = "x (1, 16) y<br/>z".toList ∧
    (processText "x (1, 2) y[br]z".toList).menueTextWithBr = "x (1, 2) y<br/>z".toList := by
  have hnot : ¬ IsAdditiveGroup ('(' :: c ++ [')']) := by
    have := not_additive_group hfree hbad
    rw [groupOf, ← hitems] at this
    exact this
  have hnone := no_additive_group_occurs ht0 hc ht1 hnot
  rw [← htext] at hnone
  have hids : extractIds additiveRe e.menueText = [] := additiveIds_of_none hnone
  have hline : ∀ line ∈ splitLines e.menueText, stripAdditives line = line := by
    intro line hl
    simp only [splitLines, List.mem_map] at hl
    obtain ⟨seg, hseg, rfl⟩ := hl
    apply stripAdditives_of_none
    intro g hg ho
    exact hnone g hg (occurs_trans ho (occurs_trans (trim_occurs seg) (split_segment_occurs hseg)))
  refine ⟨⟨_, processed_eq e, hids, ?_, hline, ?_⟩, by decide, by decide, by decide, by decide,
    by decide, by decide, by decide, by decide, by decide⟩
  · show ((extractIds additiveRe e.menueText).map (getProperty zusatzstoffe)).filter
      JSValue.truthy = []
    rw [hids]
    rfl
  · intro last hlast hno
    have hd : displayLines e.menueText = (splitLines e.menueText).map normaliseCommas := by
      unfold displayLines
      rw [(dropLegend_eq _ last hlast).2 hno, List.map_map]
      exact List.map_congr_left fun l hl => by simp [hline l hl]
    refine ⟨hd, ?_⟩
    intro line hl ho
    obtain ⟨C, hC, hocc⟩ := normaliseCommas_keeps_group ho
    have hmem : normaliseCommas line ∈ displayLines e.menueText := by
      rw [hd]
      exact List.mem_map_of_mem _ hl
    exact ⟨C, hC, occurs_trans hocc (occurs_join_of_mem _ _ _ hmem),
      occurs_trans hocc (occurs_join_of_mem _ _ _ hmem)⟩

/-- C11 (witness): the text `x (1,16) y[br]z` has the one group `(1,16)`, in
which 16 is no additive code. -/
theorem non_additive_group_kept_witness :
    NoParens "x ".toList ∧ NoParens "1,16".toList ∧ NoParens " y[br]z".toList ∧
    "1,16".toList = List.intercalate [','] ["1".toList, "16".toList] ∧
    (∀ i ∈ ["1".toList, "16".toList], ',' ∉ i) ∧
    (∃ i ∈ ["1".toList, "16".toList], ¬ IsAdditiveCode i) ∧
    (entryOf "x (1,16) y[br]z".toList).menueText =
      "x ".toList ++ '(' :: "1,16".toList ++ ')' :: " y[br]z".toList ∧
    ∃ p, (processMenueItem (entryOf "x (1,16) y[br]z".toList)).processed = some p ∧
      p.additivesIds = [] ∧ p.additives = [] ∧
      (∀ line ∈ splitLines (entryOf "x (1,16) y[br]z".toList).menueText,
        stripAdditives line = line) ∧
      (∀ last, (splitLines (entryOf "x (1,16) y[br]z".toList).menueText).getLast? = some last →
        ¬ HasParenGroup last →
        displayLines (entryOf "x (1,16) y[br]z".toList).menueText =
          (splitLines (entryOf "x (1,16) y[br]z".toList).menueText).map normaliseCommas ∧
        ∀ line ∈ splitLines (entryOf "x (1,16) y[br]z".toList).menueText,
          Occurs ('(' :: "1,16".toList ++ [')']) line →
          ∃ C : JSString, (C.filter fun ch => ch != ' ') =
              ("1,16".toList.filter fun ch => ch != ' ') ∧
            Occurs ('(' :: C ++ [')']) p.menueTextWithBr ∧
            Occurs ('(' :: C ++ [')']) p.menueTextWithSpaces) := by
  have h0 : NoParens "x ".toList := ⟨by decide, by decide⟩
  have hc : NoParens "1,16".toList := ⟨by decide, by decide⟩
  have h1 : NoParens " y[br]z".toList := ⟨by decide, by decide⟩
  have hfree : ∀ i ∈ ["1".toList, "16".toList], ',' ∉ i := by decide
  have hbad : ∃ i ∈ ["1".toList, "16".toList], ¬ IsAdditiveCode i := by
    refine ⟨"16".toList, by decide, ?_⟩
    rintro ⟨n, hn1, hn2, hn⟩
    interval_cases n <;> exact absurd hn (by decide)
  exact ⟨h0, hc, h1, by decide, hfree, hbad, by decide,
    (non_additive_group_kept (entryOf "x (1,16) y[br]z".toList) "x ".toList "1,16".toList
      " y[br]z".toList ["1".toList, "16".toList] h0 hc h1 (by decide) hfree hbad (by decide)).1⟩

/-! ## C12, C13, C14: the entry and its annex -/

theorem updateAt_append_length {α : Type} (f : α → α) (x : α) : ∀ l : List α,
    updateAt f (l ++ [x]) l.length = l ++ [f x] := by
  intro l
  induction l with
  | nil => rfl
  | cons y l ih => simp [updateAt, ih]

theorem get?_append_length {α : Type} (x : α) (l : List α) :
    (l ++ [x]).get? l.length = some x := by
  simp

theorem get?_append_of_lt {α : Type} (x : α) (l : List α) {i : Nat} (hi : i < l.length) :
    (l ++ [x]).get? i = l.get? i := by
  simp [List.getElem?_append_left hi]

/-- A write through the reference of the new entry changes its annex object
and nothing else. -/
theorem writeAnnex_new (es : List EntryObj) (o : EntryObj) (as : List AnnexObj)
    (a : AnnexObj) (f : AnnexObj → AnnexObj) (ho : o.processed = some as.length) :
    writeAnnex { entries := es ++ [o], annexes := as ++ [a] } es.length f =
      some { entries := es ++ [o], annexes := as ++ [f a] } := by
  simp only [writeAnnex, get?_append_length, Option.some_bind, ho, updateAt_append_length]

theorem readText_old (es : List EntryObj) (o src : EntryObj) (as : List AnnexObj)
    {item : Nat} (hsrc : es.get? item = some src) :
    readText { entries := es ++ [o], annexes := as } item = some src.menueText := by
  have hlt : item < es.length := by
    by_contra hge
    have := List.get?_eq_none.2 (Nat.le_of_not_lt hge)
    rw [this] at hsrc
    exact absurd hsrc (by simp)
  simp only [readText, get?_append_of_lt o es hlt, hsrc, Option.map_some']

/-- The heap after `processMenueItem`: one new entry object, a copy of the
argument with `processed` set, and one new annex object. -/
theorem processMenueItemOnHeap_eq (h : Heap) (item : Nat) (src : EntryObj)
    (hsrc : h.entries.get? item = some src) :
    processMenueItemOnHeap h item =
      some ({ entries := h.entries ++ [{ src with processed := some h.annexes.length }],
              annexes := h.annexes ++ [annexOf (processText src.menueText)] },
            h.entries.length) := by
  have hw : ∀ (a : AnnexObj) (f : AnnexObj → AnnexObj),
      writeAnnex { entries := h.entries ++ [{ src with processed := some h.annexes.length }],
                   annexes := h.annexes ++ [a] } h.entries.length f =
        some { entries := h.entries ++ [{ src with processed := some h.annexes.length }],
               annexes := h.annexes ++ [f a] } :=
    fun a f => writeAnnex_new _ _ _ a f rfl
  have hr : ∀ as : List AnnexObj,
      readText { entries := h.entries ++ [{ src with processed := some h.annexes.length }],
                 annexes := as } item = some src.menueText :=
    fun as => readText_old _ _ _ as hsrc
  simp only [processMenueItemOnHeap, hsrc, Option.bind_eq_bind, Option.some_bind, setProcessed,
    updateAt_append_length, hw, hr, Option.pure_def]
  rfl

/-- The value read through the returned reference is `processMenueItem` of
the value of the argument. -/
theorem read_after (h : Heap) (item : Nat) (src : EntryObj)
    (hsrc : h.entries.get? item = some src) :
    ∃ h1 r1, processMenueItemOnHeap h item = some (h1, r1) ∧
      h1.read r1 = (h.read item).map processMenueItem := by
  refine ⟨_, _, processMenueItemOnHeap_eq h item src hsrc, ?_⟩
  simp only [Heap.read, get?_append_length, hsrc, Option.map_some', Option.some_bind,
    processMenueItem]
  rfl

theorem processMenueItemOnHeap_none (h : Heap) (item : Nat)
    (hsrc : h.entries.get? item = none) : processMenueItemOnHeap h item = none := by
  unfold processMenueItemOnHeap
  rw [hsrc]
  rfl

/-- C12: processing is idempotent on the annex: processing the result again,
with or without its annex, gives the same annex (and the same entry); on the
heap, a second call on the returned object yields an object with the same
value. -/
theorem processMenueItem_idempotent (e : TagesMenue) (h : Heap) (item : Nat) :
    (processMenueItem (processMenueItem e)).processed = (processMenueItem e).processed ∧
    (processMenueItem { processMenueItem e with processed := none }).processed =
      (processMenueItem e).processed ∧
    processMenueItem (processMenueItem e) = processMenueItem e ∧
    (∀ h1 r1, processMenueItemOnHeap h item = some (h1, r1) →
      ∃ h2 r2, processMenueItemOnHeap h1 r1 = some (h2, r2) ∧ h2.read r2 = h1.read r1) := by
  refine ⟨rfl, rfl, rfl, ?_⟩
  intro h1 r1 hrun
  cases hsrc : h.entries.get? item with
  | none =>
    rw [processMenueItemOnHeap_none h item hsrc] at hrun
    exact absurd hrun (by simp)
  | some src =>
    rw [processMenueItemOnHeap_eq h item src hsrc] at hrun
    simp only [Option.some.injEq, Prod.mk.injEq] at hrun
    obtain ⟨rfl, rfl⟩ := hrun
    obtain ⟨h2, r2, hrun2, hread⟩ := read_after
      { entries := h.entries ++ [{ src with processed := some h.annexes.length }],
        annexes := h.annexes ++ [annexOf (processText src.menueText)] } h.entries.length
      { src with processed := some h.annexes.length } (get?_append_length _ _)
    refine ⟨h2, r2, hrun2, ?_⟩
    rw [hread]
    simp only [Heap.read, get?_append_length, Option.map_some', Option.some_bind,
      processMenueItem]
    rfl

/-- C13: the result of `processMenueItem` has the fields of the entry, apart
from `processed`; on the heap the result is a new object, every object that
existed before the call is unchanged (the argument gains no `processed`
property and none of its properties is modified), and the new object has the
properties of the argument and a new annex object. -/
theorem processMenueItem_frame (e : TagesMenue) (h : Heap) (item : Nat) (src : EntryObj)
    (hsrc : h.entries.get? item = some src) :
    ((processMenueItem e).bezeichnung = e.bezeichnung ∧
      (processMenueItem e).gesperrt = e.gesperrt ∧
      (processMenueItem e).menueGruppe = e.menueGruppe ∧
      (processMenueItem e).menueText = e.menueText ∧
      (processMenueItem e).others = e.others) ∧
    ∃ h1 newItem new, processMenueItemOnHeap h item = some (h1, newItem) ∧
      newItem = h.entries.length ∧ newItem ≠ item ∧
      (∀ i, i < h.entries.length → h1.entries.get? i = h.entries.get? i) ∧
      (∀ j, j < h.annexes.length → h1.annexes.get? j = h.annexes.get? j) ∧
      h1.entries.get? item = some src ∧
      h1.entries.get? newItem = some new ∧
      new.bezeichnung = src.bezeichnung ∧ new.gesperrt = src.gesperrt ∧
      new.menueGruppe = src.menueGruppe ∧ new.menueText = src.menueText ∧
      new.others = src.others ∧ new.processed = some h.annexes.length ∧
      h1.annexes.get? h.annexes.length = some (annexOf (processText src.menueText)) ∧
      h1.read newItem = (h.read item).map processMenueItem := by
  have hlt : item < h.entries.length := by
    by_contra hge
    have := List.get?_eq_none.2 (Nat.le_of_not_lt hge)
    rw [this] at hsrc
    exact absurd hsrc (by simp)
  refine ⟨⟨rfl, rfl, rfl, rfl, rfl⟩, _, _, { src with processed := some h.annexes.length },
    processMenueItemOnHeap_eq h item src hsrc, rfl, by omega, ?_, ?_, ?_,
    get?_append_length _ _, rfl, rfl, rfl, rfl, rfl, rfl, get?_append_length _ _, ?_⟩
  · intro i hi
    exact get?_append_of_lt _ _ hi
  · intro j hj
    exact get?_append_of_lt _ _ hj
  · rw [get?_append_of_lt _ _ hlt, hsrc]
  · simp only [Heap.read, get?_append_length, hsrc, Option.map_some', Option.some_bind,
      processMenueItem]
    rfl

/-- C13 (witness): the example heap holds one entry, at reference 0. -/
theorem processMenueItem_frame_witness :
    exampleHeap.entries.get? 0 =
      some { bezeichnung := "Tagessuppe".toList, gesperrt := false, menueGruppe := 2,
             menueText := "Suppe (1)[br]Brot".toList,
             others := [("menueNr".toList, "7".toList)], processed := none } ∧
    ∃ h1 newItem new, processMenueItemOnHeap exampleHeap 0 = some (h1, newItem) ∧
      newItem = 1 ∧ h1.entries.get? 0 = exampleHeap.entries.get? 0 ∧
      h1.entries.get? newItem = some new ∧ new.menueText = "Suppe (1)[br]Brot".toList ∧
      new.processed = some 0 ∧
      h1.read newItem = (exampleHeap.read 0).map processMenueItem := by
  obtain ⟨-, h1, newItem, new, hrun, hnew, -, -, -, hold, hget, -, -, -, ht, -, hp, -, hread⟩ :=
    processMenueItem_frame (entryOf []) exampleHeap 0 _ rfl
  exact ⟨rfl, h1, newItem, new, hrun, hnew, hold, hget, ht, hp, hread⟩

/-- C14: the annex depends on `menueText` only: two entries with the same
`menueText` get the same annex, whatever their other fields are. -/
theorem annex_depends_on_text_only (e1 e2 : TagesMenue)
    (htext : e1.menueText = e2.menueText) :
    (processMenueItem e1).processed = (processMenueItem e2).processed := by
  simp only [processMenueItem, htext]

/-- C14 (witness): the two example entries share the text `Suppe (1)` and
differ in every other field. -/
theorem annex_depends_on_text_only_witness :
    exampleEntryA.menueText = exampleEntryB.menueText ∧
    exampleEntryA.bezeichnung ≠ exampleEntryB.bezeichnung ∧
    exampleEntryA.gesperrt ≠ exampleEntryB.gesperrt ∧
    exampleEntryA.menueGruppe ≠ exampleEntryB.menueGruppe ∧
    exampleEntryA.others ≠ exampleEntryB.others ∧
    exampleEntryA.processed ≠ exampleEntryB.processed ∧
    (processMenueItem exampleEntryA).processed = (processMenueItem exampleEntryB).processed :=
  ⟨rfl, by decide, by decide, by decide, by decide, by decide,
    annex_depends_on_text_only exampleEntryA exampleEntryB rfl⟩

/-! ## C15: totality -/

/-- The bound on the iterations of `*` is enough: any bound from the length
of the text on gives the same matches. -/
theorem starLoop_fuel (step : JSString → List Outcome) : ∀ (n m : Nat) (s : JSString),
    s.length ≤ n → s.length ≤ m → starLoop step n s = starLoop step m s := by
  intro n
  induction n with
  | zero =>
    intro m s hn _
    have hs : s = [] := List.eq_nil_of_length_eq_zero (by omega)
    subst hs
    cases m with
    | zero => rfl
    | succ m => simp [starLoop]
  | succ n ih =>
    intro m s hn hm
    cases m with
    | zero =>
      have hs : s = [] := List.eq_nil_of_length_eq_zero (by omega)
      subst hs
      simp [starLoop]
    | succ m =>
      simp only [starLoop]
      congr 1
      apply List.flatMap_congr
      intro p hp
      have hlt := (List.mem_filter.1 hp).2
      simp only [decide_eq_true_eq] at hlt
      exact ih m p.1 (by omega) (by omega)

/-- The scan reads the whole text: the pieces, put together, are the text. -/
theorem scanAll_cover (re : Regex) : ∀ (fuel : Nat) (s : JSString), s.length < fuel →
    (scanAll re fuel s).flatMap pieceText = s := by
  intro fuel
  induction fuel with
  | zero => intro s h; omega
  | succ fuel ih =>
    intro s hlen
    simp only [scanAll]
    cases he : re.execAt s with
    | none =>
      cases s with
      | nil => rfl
      | cons c t =>
        simp only [List.flatMap_cons, pieceText, List.singleton_append, List.cons.injEq,
          true_and]
        exact ih t (by simp at hlen; omega)
    | some p =>
      obtain ⟨rest, caps⟩ := p
      obtain ⟨m, hm, hs⟩ := execAt_sound he
      simp only
      split
      · rename_i hlt
        simp only [List.flatMap_cons, pieceText]
        rw [ih rest (by omega)]
        subst hs
        simp
      · cases s with
        | nil => rfl
        | cons c t =>
          simp only [List.flatMap_cons, pieceText, List.nil_append, List.singleton_append,
            List.cons.injEq, true_and]
          exact ih t (by simp at hlen; omega)

theorem pieces_cover (re : Regex) (s : JSString) : (re.pieces s).flatMap pieceText = s :=
  scanAll_cover re _ s (by omega)

/-- C15: `processMenueItem` is total on string input: it returns a result
for every `menueText` (the bounded loops of the matcher and of the scan have
steps enough, the scan reads the whole text, and no write on the heap fails);
whenever `menueText` contains no complete parenthetical group, `additivesIds`,
`additives`, `allergeneIds` and `allergene` are all empty; for the empty text
both display texts are empty; texts with unbalanced parentheses are
processed like any other text. -/
theorem processMenueItem_total (e : TagesMenue) (h : Heap) (item : Nat) :
    (∃ p, (processMenueItem e).processed = some p ∧
      (¬ HasParenGroup e.menueText →
        p.additivesIds = [] ∧ p.additives = [] ∧ p.allergeneIds = [] ∧ p.allergene = [])) ∧
    (item < h.entries.length → ∃ h1 r1, processMenueItemOnHeap h item = some (h1, r1)) ∧
    (∀ (re : Regex) (s : JSString) (fuel : Nat), s.length < fuel →
      scanAll re fuel s = re.pieces s) ∧
    (∀ (re : Regex) (s : JSString), (re.pieces s).flatMap pieceText = s) ∧
    (∀ (step : JSString → List Outcome) (s : JSString) (n : Nat), s.length ≤ n →
      starLoop step n s = starLoop step s.length s) ∧
    (processText []).menueTextWithBr = [] ∧ (processText []).menueTextWithSpaces = [] ∧
    (processText []).additivesIds = [] ∧ (processText []).allergeneIds = [] ∧
    processText "((1) a(".toList =
      { menueTextWithBr := [], menueTextWithSpaces := [],
        additives := [.str "mit Konservierungsstoff".toList], additivesIds := ["1".toList],
        allergene := [], allergeneIds := [] } ∧
    processText ")A,B( (".toList =
      { menueTextWithBr := ")A, B( (".toList, menueTextWithSpaces := ")A, B( (".toList,
        additives := [], additivesIds := [], allergene := [], allergeneIds := [] } := by
  refine ⟨⟨_, processed_eq e, ?_⟩, ?_, ?_, pieces_cover, ?_, by decide, by decide, by decide,
    by decide, by decide, by decide⟩
  · intro hno
    have h1 : extractIds additiveRe e.menueText = [] :=
      extractIds_of_no_group additiveRe_paren hno
    have h2 : extractIds allergenRe e.menueText = [] :=
      extractIds_of_no_group allergenRe_paren hno
    refine ⟨h1, ?_, h2, ?_⟩
    · show ((extractIds additiveRe e.menueText).map (getProperty zusatzstoffe)).filter
        JSValue.truthy = []
      rw [h1]
      rfl
    · show ((extractIds allergenRe e.menueText).map (getProperty allergene)).filter
        JSValue.truthy = []
      rw [h2]
      rfl
  · intro hlt
    cases hsrc : h.entries.get? item with
    | none =>
      have := List.get?_eq_none.1 hsrc
      omega
    | some src => exact ⟨_, _, processMenueItemOnHeap_eq h item src hsrc⟩
  · intro re s fuel hlt
    exact scanAll_fuel re fuel (s.length + 1) s hlt (by omega)
  · intro step s n hn
    exact starLoop_fuel step n s.length s hn (le_refl _)

/-! ## C16: the keys of the tables -/

theorem ownProperty_isSome_iff : ∀ (table : List (JSString × JSString)) (k : JSString),
    (∃ v, ownProperty table k = some v) ↔ k ∈ table.map Prod.fst := by
  intro table
  induction table with
  | nil => intro k; simp [ownProperty]
  | cons kv table ih =>
    intro k
    obtain ⟨k1, v1⟩ := kv
    simp only [ownProperty, List.map_cons, List.mem_cons]
    by_cases hk : k1 = k
    · simp [hk]
    · simp only [hk, if_false, ih k]
      constructor
      · exact Or.inr
      · rintro (h | h)
        · exact absurd h.symm hk
        · exact h

/-- A property read yields a description exactly for the own keys. -/
theorem getProperty_str_iff (table : List (JSString × JSString)) (k : JSString) :
    (∃ v, getProperty table k = .str v) ↔ k ∈ table.map Prod.fst := by
  rw [← ownProperty_isSome_iff]
  unfold getProperty
  cases ho : ownProperty table k with
  | none =>
    simp only [reduceCtorEq, exists_false, iff_false, not_exists]
    intro v hv
    by_cases hk : k ∈ objectPrototypeKeys
    · rw [if_pos hk] at hv
      exact absurd hv (by simp)
    · rw [if_neg hk] at hv
      exact absurd hv (by simp)
  | some v => simp

theorem allergene_keys (k : JSString) :
    k ∈ allergene.map Prod.fst ↔
      ∃ x : Char, 'A'.toNat ≤ x.toNat ∧ x.toNat ≤ 'N'.toNat ∧ k = [x] := by
  constructor
  · intro hk
    have hall : ∀ k ∈ allergene.map Prod.fst,
        k.length = 1 ∧ ∀ x ∈ k, 'A'.toNat ≤ x.toNat ∧ x.toNat ≤ 'N'.toNat := by decide
    obtain ⟨hlen, hx⟩ := hall k hk
    cases k with
    | nil => simp at hlen
    | cons x k =>
      cases k with
      | nil => exact ⟨x, (hx x (List.mem_cons_self _ _)).1, (hx x (List.mem_cons_self _ _)).2, rfl⟩
      | cons y k => simp at hlen
  · rintro ⟨x, h1, h2, rfl⟩
    have hc : x = Char.ofNat x.toNat := (Char.ofNat_toNat x).symm
    have h1 : 65 ≤ x.toNat := h1
    have h2 : x.toNat ≤ 78 := h2
    generalize x.toNat = n at *
    interval_cases n <;> subst hc <;> decide

theorem zusatzstoffe_keys (k : JSString) :
    k ∈ zusatzstoffe.map Prod.fst ↔ IsAdditiveCode k := by
  constructor
  · intro hk
    have hall : ∀ k ∈ zusatzstoffe.map Prod.fst,
        k ∈ (List.range 15).map fun n => (Nat.repr (n + 1)).toList := by decide
    obtain ⟨n, hn, rfl⟩ := List.mem_map.1 (hall k hk)
    have := List.mem_range.1 hn
    exact ⟨n + 1, by omega, by omega, rfl⟩
  · rintro ⟨n, h1, h2, rfl⟩
    interval_cases n <;> decide

/-- C16: `allergene` has exactly 14 entries, with the keys `A`, `B`, ..., `N`,
each exactly once; `zusatzstoffe` has exactly 15 entries, with the keys `1`,
`2`, ..., `15`, each exactly once (and in this order); a lookup yields a
description if and only if the code is a letter `A`..`N`, respectively the
decimal numeral of an integer in 1..15. -/
theorem reference_table_keys :
    allergene.length = 14 ∧ (allergene.map Prod.fst).Nodup ∧
    (∀ k, k ∈ allergene.map Prod.fst ↔
      ∃ x : Char, 'A'.toNat ≤ x.toNat ∧ x.toNat ≤ 'N'.toNat ∧ k = [x]) ∧
    zusatzstoffe.length = 15 ∧ (zusatzstoffe.map Prod.fst).Nodup ∧
    (∀ k, k ∈ zusatzstoffe.map Prod.fst ↔ IsAdditiveCode k) ∧
    (zusatzstoffe.map Prod.fst = (List.range 15).map fun n => (Nat.repr (n + 1)).toList) ∧
    (∀ code, (∃ v, getProperty allergene code = .str v) ↔
      ∃ x : Char, 'A'.toNat ≤ x.toNat ∧ x.toNat ≤ 'N'.toNat ∧ code = [x]) ∧
    (∀ code, (∃ v, getProperty zusatzstoffe code = .str v) ↔ IsAdditiveCode code) ∧
    (∀ code, (∃ v, ownProperty allergene code = some v) ↔
      ∃ x : Char, 'A'.toNat ≤ x.toNat ∧ x.toNat ≤ 'N'.toNat ∧ code = [x]) ∧
    (∀ code, (∃ v, ownProperty zusatzstoffe code = some v) ↔ IsAdditiveCode code) :=
  ⟨rfl, by decide, allergene_keys, rfl, by decide, zusatzstoffe_keys, by decide,
    fun code => (getProperty_str_iff allergene code).trans (allergene_keys code),
    fun code => (getProperty_str_iff zusatzstoffe code).trans (zusatzstoffe_keys code),
    fun code => (ownProperty_isSome_iff allergene code).trans (allergene_keys code),
    fun code => (ownProperty_isSome_iff zusatzstoffe code).trans (zusatzstoffe_keys code)⟩

/-! ## C17: the rendered menus -/

theorem includes_iff (s needle : JSString) : includes s needle = true ↔ Occurs needle s :=
  (occurs_iff needle s).symm

/-- An entry is shown exactly when it is not locked and the lower-cased
name contains neither `milch` nor `allergie`. -/
theorem isSkipped_eq_false_iff (lower : JSString → JSString) (m : TagesMenue) :
    isSkipped lower m = false ↔
      (m.gesperrt = false ∧ ¬ Occurs "milch".toList (lower m.bezeichnung) ∧
        ¬ Occurs "allergie".toList (lower m.bezeichnung)) := by
  simp only [isSkipped, Bool.or_eq_false_iff, ← includes_iff, Bool.not_eq_true, and_assoc]

theorem renderLoop_eq (lower : JSString → JSString) : ∀ (ps : List TagesMenue) (html : JSString),
    (∀ m ∈ ps, ∃ p, m.processed = some p) →
    renderLoop lower ps html =
      some (html ++ ((ps.filter fun m => !isSkipped lower m).map blockOf).flatten) := by
  intro ps
  induction ps with
  | nil => intro html _; simp [renderLoop]
  | cons m ps ih =>
    intro html hps
    have ih := fun html => ih html fun x hx => hps x (List.mem_cons_of_mem _ hx)
    obtain ⟨p, hp⟩ := hps m (List.mem_cons_self _ _)
    simp only [renderLoop]
    cases hs : isSkipped lower m with
    | true => simp [ih, hs]
    | false => simp [ih, hs, hp, blockOf]

theorem trim_ne_nil {s : JSString} {x : Char} (hx : isTrimSpace x = false) (hmem : x ∈ s) :
    trim s ≠ [] := by
  obtain ⟨a, b, rfl⟩ := List.append_of_mem hmem
  unfold trim
  rw [dropWhile_append_cons hx]
  have : (List.dropWhile isTrimSpace a ++ x :: b).reverse =
      b.reverse ++ x :: (List.dropWhile isTrimSpace a).reverse := by simp
  rw [this, dropWhile_append_cons hx]
  simp

theorem menueBlock_head (b t : JSString) :
    ∃ r, menueBlock b t = '<' :: 'd' :: 'i' :: 'v' :: ' ' :: r :=
  ⟨_, rfl⟩

/-- The blocks of a non-empty list of entries with annex start with the
opening tag of a block. -/
theorem blocks_ne (m : TagesMenue) (ms : List TagesMenue) (p : Processed)
    (hp : m.processed = some p) :
    ∃ r, ((m :: ms).map blockOf).flatten = '<' :: 'd' :: 'i' :: 'v' :: ' ' :: r := by
  obtain ⟨r, hr⟩ := menueBlock_head m.bezeichnung p.menueTextWithBr
  exact ⟨r ++ (ms.map blockOf).flatten, by simp [blockOf, hp, hr]⟩

/-- C17: for every list of processed entries (in the sorted order) and
whatever `toLowerCase` does: an entry contributes a block to the HTML if and
only if it is not `gesperrt` and its lower-cased `bezeichnung` contains
neither `milch` nor `allergie`; the HTML is the blocks of these entries in
the order of the list; and the HTML is exactly `<div>Keine Menüs
verfügbar.</div>` if and only if no entry passes the filter. -/
theorem rendered_menues (toLowerCase : JSString → JSString) (ps : List TagesMenue)
    (hps : ∀ m ∈ ps, ∃ p, m.processed = some p) :
    (∀ m ∈ ps, m ∈ ps.filter (fun m => !isSkipped toLowerCase m) ↔
      (m.gesperrt = false ∧ ¬ Occurs "milch".toList (toLowerCase m.bezeichnung) ∧
        ¬ Occurs "allergie".toList (toLowerCase m.bezeichnung))) ∧
    (ps.filter (fun m => !isSkipped toLowerCase m) ≠ [] →
      displayHtml toLowerCase ps =
        ((ps.filter fun m => !isSkipped toLowerCase m).map fun m =>
          menueBlock m.bezeichnung
            ((m.processed.map fun p => p.menueTextWithBr).getD [])).flatten) ∧
    (displayHtml toLowerCase ps = noMenuesHtml ↔
      ps.filter (fun m => !isSkipped toLowerCase m) = []) ∧
    noMenuesHtml = "<div>Keine Menüs verfügbar.</div>".toList := by
  have hloop := renderLoop_eq toLowerCase ps [] hps
  simp only [List.nil_append] at hloop
  have hblock : ∀ l : List TagesMenue, (∀ m ∈ l, ∃ p, m.processed = some p) →
      l.map blockOf = l.map fun m =>
        menueBlock m.bezeichnung ((m.processed.map fun p => p.menueTextWithBr).getD []) := by
    intro l hl
    apply List.map_congr_left
    intro m hm
    obtain ⟨p, hp⟩ := hl m hm
    simp [blockOf, hp]
  have hsome : ∀ m ∈ ps.filter (fun m => !isSkipped toLowerCase m), ∃ p, m.processed = some p :=
    fun m hm => hps m (List.mem_filter.1 hm).1
  have hne : ps.filter (fun m => !isSkipped toLowerCase m) ≠ [] →
      displayHtml toLowerCase ps =
        ((ps.filter fun m => !isSkipped toLowerCase m).map blockOf).flatten ∧
      displayHtml toLowerCase ps ≠ noMenuesHtml := by
    intro hne
    cases hf : ps.filter (fun m => !isSkipped toLowerCase m) with
    | nil => exact absurd hf hne
    | cons m ms =>
      obtain ⟨p, hp⟩ := hsome m (by rw [hf]; exact List.mem_cons_self _ _)
      obtain ⟨r, hr⟩ := blocks_ne m ms p hp
      have htrim : trim ('<' :: 'd' :: 'i' :: 'v' :: ' ' :: r) ≠ [] :=
        trim_ne_nil (x := '<') (by decide) (List.mem_cons_self _ _)
      have hd : displayHtml toLowerCase ps = '<' :: 'd' :: 'i' :: 'v' :: ' ' :: r := by
        unfold displayHtml
        rw [hloop, hf, hr]
        cases ht : trim ('<' :: 'd' :: 'i' :: 'v' :: ' ' :: r) with
        | nil => exact absurd ht htrim
        | cons y t => simp [ht]
      refine ⟨by rw [hd, hr], ?_⟩
      rw [hd]
      intro heq
      simp [noMenuesHtml] at heq
  refine ⟨?_, ?_, ?_, rfl⟩
  · intro m hm
    rw [← isSkipped_eq_false_iff]
    simp [List.mem_filter, hm]
  · intro hfilter
    rw [(hne hfilter).1, hblock _ hsome]
  · constructor
    · intro hd
      by_contra hfilter
      exact (hne hfilter).2 hd
    · intro hfilter
      unfold displayHtml
      rw [hloop, hfilter]
      rfl

/-- Every entry of the processed and sorted list has its annex. -/
theorem processAndSort_processed (menues : List TagesMenue) :
    ∀ m ∈ processAndSort menues, ∃ p, m.processed = some p := by
  intro m hm
  have hmem := (sortBy_perm sortMenueItemsByMenueGroupePriority _).subset hm
  obtain ⟨e, -, rfl⟩ := List.mem_map.1 hmem
  exact ⟨_, processed_eq e⟩

/-- C17 (witness): of the five example entries, processed and sorted, two
pass the filter; their blocks appear in the order of the groups 2, 1. -/
theorem rendered_menues_witness :
    (∀ m ∈ processAndSort exampleMenues, ∃ p, m.processed = some p) ∧
    (displayHtml asciiLower (processAndSort exampleMenues) = noMenuesHtml ↔
      (processAndSort exampleMenues).filter (fun m => !isSkipped asciiLower m) = []) ∧
    (processAndSort exampleMenues).map (fun m => m.bezeichnung) =
      ["Menü 3".toList, "MILCHfrei".toList, "Menü 2".toList, "Für ALLERGIE und Co".toList,
        "Menü 1".toList] ∧
    displayHtml asciiLower (processAndSort exampleMenues) =
      menueBlock "Menü 2".toList "Reis, Salat".toList ++
        menueBlock "Menü 1".toList "Suppe <br/>Brot".toList ∧
    displayHtml asciiLower (processAndSort (exampleMenues.take 2 ++ exampleMenues.drop 3)) =
      menueBlock "Menü 1".toList "Suppe <br/>Brot".toList ∧
    displayHtml asciiLower (processAndSort (exampleMenues.drop 3)) = noMenuesHtml :=
  ⟨processAndSort_processed exampleMenues,
    (rendered_menues asciiLower (processAndSort exampleMenues)
      (processAndSort_processed exampleMenues)).2.2.1,
    by decide, by rfl, by rfl, by decide⟩

/-! ## C18: the extracted codes -/

theorem additiveCode_shape {id : JSString} (h : IsAdditiveCode id) :
    id ∈ zusatzstoffe.map Prod.fst ∧ id ≠ [] ∧ id.head? ≠ some '0' := by
  obtain ⟨n, h1, h2, rfl⟩ := h
  interval_cases n <;> exact ⟨by decide, by decide, by decide⟩

theorem zusatzstoffe_values : ∀ kv ∈ zusatzstoffe, kv.2 ≠ [] := by decide

/-- Every additive code is resolved: the property read yields its
description. -/
theorem additiveCode_resolved {id : JSString} (h : IsAdditiveCode id) :
    ∃ v, ownProperty zusatzstoffe id = some v ∧ getProperty zusatzstoffe id = .str v ∧
      (getProperty zusatzstoffe id).truthy = true := by
  obtain ⟨v, hv⟩ := (ownProperty_isSome_iff zusatzstoffe id).2 ((zusatzstoffe_keys id).2 h)
  have hne : v ≠ [] := zusatzstoffe_values _ (ownProperty_mem _ _ _ hv)
  refine ⟨v, hv, by simp [getProperty, hv], ?_⟩
  simp only [getProperty, hv, JSValue.truthy]
  cases v with
  | nil => exact absurd rfl hne
  | cons x v => rfl

/-- The allergen codes `O`..`Z` are no keys of `allergene`. -/
theorem allergen_late_letter (x : Char) (h1 : 'O'.toNat ≤ x.toNat) (h2 : x.toNat ≤ 'Z'.toNat) :
    getProperty allergene [x] = .undefined := by
  have hc : x = Char.ofNat x.toNat := (Char.ofNat_toNat x).symm
  have h1 : 79 ≤ x.toNat := h1
  have h2 : x.toNat ≤ 90 := h2
  generalize x.toNat = n at *
  interval_cases n <;> subst hc <;> decide

/-- C18: for every entry, every element of `additivesIds` is one of the
strings `1`, ..., `15` (not empty, no leading zero) and every element of
`allergeneIds` is a single capital letter `A`-`Z`; so no additive code is
dropped by the resolution: `additives` has the length of `additivesIds` and
its i-th element is the description `zusatzstoffe[additivesIds[i]]`.  The
allergen codes `O`..`Z` are dropped: `x (A,Z,O)` has the codes A, Z, O and
the one description of A. -/
theorem extracted_codes_valid (e : TagesMenue) :
    (∃ p, (processMenueItem e).processed = some p ∧
      (∀ id ∈ p.additivesIds, IsAdditiveCode id ∧ id ∈ zusatzstoffe.map Prod.fst ∧
        id ≠ [] ∧ id.head? ≠ some '0') ∧
      (∀ id ∈ p.allergeneIds, ∃ x : Char, 'A'.toNat ≤ x.toNat ∧ x.toNat ≤ 'Z'.toNat ∧ id = [x]) ∧
      p.additives.length = p.additivesIds.length ∧
      p.additives = p.additivesIds.map (getProperty zusatzstoffe) ∧
      (∀ i id, p.additivesIds.get? i = some id →
        ∃ v, ownProperty zusatzstoffe id = some v ∧ p.additives.get? i = some (.str v))) ∧
    (∀ x : Char, 'O'.toNat ≤ x.toNat → x.toNat ≤ 'Z'.toNat →
      getProperty allergene [x] = .undefined) ∧
    (processText "x (A,Z,O)".toList).allergeneIds = ["A".toList, "Z".toList, "O".toList] ∧
    (processText "x (A,Z,O)".toList).allergene = [.str "Glutenhaltige Getreide".toList] := by
  have hids : ∀ id ∈ extractIds additiveRe e.menueText, IsAdditiveCode id :=
    fun id hid => additivesIds_codes _ id hid
  have hmap : ((extractIds additiveRe e.menueText).map (getProperty zusatzstoffe)).filter
      JSValue.truthy = (extractIds additiveRe e.menueText).map (getProperty zusatzstoffe) := by
    rw [List.filter_eq_self]
    intro v hv
    obtain ⟨id, hid, rfl⟩ := List.mem_map.1 hv
    obtain ⟨w, -, -, ht⟩ := additiveCode_resolved (hids id hid)
    exact ht
  refine ⟨⟨_, processed_eq e, ?_, ?_, ?_, hmap, ?_⟩, allergen_late_letter, by decide, by decide⟩
  · intro id hid
    exact ⟨hids id hid, additiveCode_shape (hids id hid)⟩
  · intro id hid
    exact allergeneIds_codes _ id hid
  · show (((extractIds additiveRe e.menueText).map (getProperty zusatzstoffe)).filter
      JSValue.truthy).length = _
    rw [hmap, List.length_map]
    rfl
  · intro i id hi
    have hmem : id ∈ extractIds additiveRe e.menueText := List.get?_mem hi
    obtain ⟨v, hv, hg, -⟩ := additiveCode_resolved (hids id hmem)
    refine ⟨v, hv, ?_⟩
    show (((extractIds additiveRe e.menueText).map (getProperty zusatzstoffe)).filter
      JSValue.truthy).get? i = _
    rw [hmap]
    have hi2 : (extractIds additiveRe e.menueText).get? i = some id := hi
    simp only [List.get?_eq_getElem?, List.getElem?_map] at hi2 ⊢
    rw [hi2]
    simp [hg]

/-! ## C19: allergen groups in the display text -/

theorem additive_execAt_none_of_head {c : Char} (t : JSString) (hc : c ≠ '(') :
    additiveRe.execAt (c :: t) = none := by
  apply execAt_eq_none
  intro m r hm hs
  obtain ⟨body, -, -, rfl⟩ := additiveRe_paren m hm
  simp only [List.cons_append, List.cons.injEq] at hs
  exact hc hs.1

/-- The stripping step passes text without opening parenthesis on. -/
theorem stripAdditives_plain : ∀ (w r : JSString), '(' ∉ w →
    stripAdditives (w ++ r) = w ++ stripAdditives r := by
  intro w
  induction w with
  | nil => intro r _; rfl
  | cons x w ih =>
    intro r hw
    simp only [List.mem_cons, not_or] at hw
    rw [List.cons_append, stripAdditives_cons (additive_execAt_none_of_head _ (Ne.symm hw.1)),
      ih r hw.2]
    rfl

/-- The stripping step passes a group that is no additive group on. -/
theorem stripAdditives_keeps {g : JSString} (hflat : IsFlatGroup g)
    (hnot : ¬ IsAdditiveGroup g) (b : JSString) :
    stripAdditives (g ++ b) = g ++ stripAdditives b := by
  have hnone : additiveRe.execAt (g ++ b) = none := by
    rcases additive_head_cases (g ++ b) with ⟨g1, rest, hg1, hs⟩ | hnone
    · have := isParenGroup_unique (isFlatGroup_isParenGroup hflat)
        (isAdditiveGroup_isParenGroup hg1) hs
      rw [this] at hnot
      exact absurd hg1 hnot
    · exact hnone
  obtain ⟨body, -, hbody, rfl⟩ := hflat
  simp only [List.cons_append] at hnone ⊢
  rw [stripAdditives_cons hnone]
  have hw : '(' ∉ body ++ [')'] := by
    simp only [List.mem_append, List.mem_singleton, not_or]
    exact ⟨hbody.1, by decide⟩
  have := stripAdditives_plain (body ++ [')']) b hw
  simp only [List.append_assoc] at this ⊢
  rw [this]

/-- A group that is no additive group and occurs in a text occurs in the
stripped text. -/
theorem stripAdditives_occurs {g : JSString} (hflat : IsFlatGroup g)
    (hnot : ¬ IsAdditiveGroup g) : ∀ (n : Nat) (s : JSString), s.length ≤ n →
      Occurs g s → Occurs g (stripAdditives s) := by
  intro n
  induction n with
  | zero =>
    intro s hlen ho
    have : s = [] := List.eq_nil_of_length_eq_zero (by omega)
    subst this
    rw [stripAdditives_nil]
    exact ho
  | succ n ih =>
    intro s hlen ho
    obtain ⟨a, b, rfl⟩ := ho
    cases a with
    | nil =>
      simp only [List.nil_append]
      rw [stripAdditives_keeps hflat hnot b]
      exact ⟨[], stripAdditives b, by simp⟩
    | cons x a =>
      rcases additive_head_cases (x :: a ++ g ++ b) with ⟨g1, rest, hg1, hs⟩ | hnone
      · have hocc : Occurs g rest :=
          flat_match_before (a := x :: a) (b := b) (isAdditiveGroup_isFlatGroup hg1) hflat
            (by simp) (by rw [← hs]; simp)
        have hpos : 0 < g1.length := by
          obtain ⟨body, -, -, rfl⟩ := isAdditiveGroup_isParenGroup hg1
          simp
        have hl : (x :: a ++ g ++ b).length = g1.length + rest.length := by rw [hs]; simp
        rw [hs, stripAdditives_group rest hg1]
        exact ih rest (by omega) hocc
      · have hn2 : additiveRe.execAt (x :: (a ++ g ++ b)) = none := by simpa using hnone
        have hc : x :: a ++ g ++ b = x :: (a ++ g ++ b) := by simp
        rw [hc, stripAdditives_cons hn2]
        exact occurs_cons x (ih (a ++ g ++ b) (by simp at hlen ⊢; omega) ⟨a, b, rfl⟩)

theorem allergenCode_not_additive {c : JSString} (h : IsAllergenCode c) :
    ¬ IsAdditiveCode c := by
  obtain ⟨x, h1, h2, rfl⟩ := h
  rintro ⟨n, hn1, hn2, hn⟩
  have h1 : 65 ≤ x.toNat := h1
  have hdigit : ∀ y ∈ (Nat.repr n).toList, y.toNat ≤ 57 := by
    interval_cases n <;> decide
  have := hdigit x (by rw [← hn]; exact List.mem_cons_self _ _)
  omega

theorem allergenGroup_not_additive {codes : List JSString} (hne : codes ≠ [])
    (hcodes : ∀ c ∈ codes, IsAllergenCode c) : ¬ IsAdditiveGroup (groupOf codes) := by
  apply not_additive_group
  · intro i hi hmem
    exact ((isAllergenCode_plain (hcodes i hi)).2 _ hmem).2.2 rfl
  · cases codes with
    | nil => exact absurd rfl hne
    | cons c cs =>
      exact ⟨c, List.mem_cons_self _ _, allergenCode_not_additive (hcodes c (List.mem_cons_self _ _))⟩

/-- The comma step on the tail of an allergen group: each comma gets its
space. -/
theorem normaliseCommas_tail : ∀ (cs : List JSString) (b : JSString),
    (∀ c ∈ cs, IsAllergenCode c) →
    normaliseCommas ((cs.map fun d => [','] ++ d).flatten ++ ')' :: b) =
      (cs.map fun d => [',', ' '] ++ d).flatten ++ ')' :: normaliseCommas b := by
  intro cs
  induction cs with
  | nil =>
    intro b _
    have : tightAt ')' b = false := by simp [tightAt]
    simpa using normaliseCommas_loose this
  | cons d cs ih =>
    intro b hcs
    obtain ⟨x, h1, h2, rfl⟩ := hcs d (List.mem_cons_self _ _)
    have hx : x ≠ ' ' := by
      rintro rfl
      revert h1
      decide
    have := ih b fun c hc => hcs c (List.mem_cons_of_mem _ hc)
    simp only [List.map_cons, List.flatten_cons, List.singleton_append, List.cons_append,
      List.nil_append] at this ⊢
    rw [normaliseCommas_tight _ hx, this]

/-- The comma step on an allergen group: the group with a space after each
comma. -/
theorem normaliseCommas_group {codes : List JSString} (hne : codes ≠ [])
    (hcodes : ∀ c ∈ codes, IsAllergenCode c) (a b : JSString) :
    ∃ A, normaliseCommas (a ++ groupOf codes ++ b) =
      A ++ spacedGroupOf codes ++ normaliseCommas b := by
  obtain ⟨A, -, hA⟩ := normaliseCommas_through (x := '(') (by decide) _ a (le_refl _)
  refine ⟨A, ?_⟩
  cases codes with
  | nil => exact absurd rfl hne
  | cons c cs =>
    obtain ⟨x, h1, h2, rfl⟩ := hcodes c (List.mem_cons_self _ _)
    have hx : tightAt x ((cs.map fun d => [','] ++ d).flatten ++ ')' :: b) = false := by
      have : x ≠ ',' := by
        rintro rfl
        revert h1
        decide
      simp [tightAt, this]
    have h := hA (List.intercalate [','] ([x] :: cs) ++ ')' :: b)
    have hshape : a ++ groupOf ([x] :: cs) ++ b =
        a ++ '(' :: (List.intercalate [','] ([x] :: cs) ++ ')' :: b) := by
      simp [groupOf]
    have ht := normaliseCommas_tail cs b fun c hc => hcodes c (List.mem_cons_of_mem _ hc)
    rw [hshape, h, intercalate_cons, spacedGroupOf, intercalate_cons]
    simp only [List.singleton_append, List.cons_append, List.append_assoc,
      List.nil_append] at ht hx ⊢
    rw [normaliseCommas_loose hx, ht]

theorem splitAux_skip (sep : JSString) : ∀ (u r acc : JSString),
    splitAux sep (u ++ r) u.length acc = splitAux sep r 0 acc := by
  intro u
  induction u with
  | nil => intro r acc; rfl
  | cons x u ih =>
    intro r acc
    simp only [List.cons_append, List.length_cons, splitAux]
    exact ih r acc

theorem intercalate_cons_cons (sep a l : JSString) (ls : List JSString) :
    List.intercalate sep (a :: l :: ls) = a ++ sep ++ List.intercalate sep (l :: ls) := by
  simp only [intercalate_cons]
  simp

/-- Joining the segments of a split text with the separator gives the text
back. -/
theorem splitAux_join (sep : JSString) (hsep : sep ≠ []) : ∀ (n : Nat) (s acc : JSString),
    s.length ≤ n → List.intercalate sep (splitAux sep s 0 acc) = acc ++ s := by
  intro n
  induction n with
  | zero =>
    intro s acc hlen
    have : s = [] := List.eq_nil_of_length_eq_zero (by omega)
    subst this
    simp [splitAux, List.intercalate]
  | succ n ih =>
    intro s acc hlen
    cases s with
    | nil => simp [splitAux, List.intercalate]
    | cons c t =>
      simp only [splitAux]
      split
      · rename_i hsw
        obtain ⟨r, hr⟩ := (startsWith_iff _ _).1 hsw
        cases sep with
        | nil => exact absurd rfl hsep
        | cons x sep1 =>
          simp only [List.cons_append, List.cons.injEq] at hr
          obtain ⟨rfl, rfl⟩ := hr
          have hskip := splitAux_skip (c :: sep1) sep1 r []
          simp only [List.length_cons, Nat.add_sub_cancel]
          rw [hskip]
          have hrec := ih r [] (by simp at hlen; omega)
          cases hl : splitAux (c :: sep1) r 0 [] with
          | nil => exact absurd hl (splitAux_ne_nil _ _ _ _)
          | cons l ls =>
            rw [intercalate_cons_cons, ← hl, hrec]
            simp
      · rw [ih t (acc ++ [c]) (by simp at hlen; omega)]
        simp

theorem join_split {sep : JSString} (hsep : sep ≠ []) (s : JSString) :
    join sep (split sep s) = s := by
  have := splitAux_join sep hsep s.length s [] (le_refl _)
  simpa [join, split] using this

/-- The characters of an allergen group are parentheses, commas and capital
letters; none of them is a character of the line break marker. -/
theorem allergenGroup_chars {codes : List JSString} (hcodes : ∀ c ∈ codes, IsAllergenCode c) :
    ∀ x ∈ "[br]".toList, x ∉ groupOf codes := by
  have hcode : ∀ c ∈ codes, ∀ y ∈ c, y.toNat ≤ 90 ∧ y ≠ 'b' ∧ y ≠ 'r' := by
    intro c hc y hy
    obtain ⟨x, h1, h2, rfl⟩ := hcodes c hc
    simp only [List.mem_singleton] at hy
    subst hy
    have h2 : y.toNat ≤ 90 := h2
    refine ⟨h2, ?_, ?_⟩ <;> rintro rfl <;> revert h2 <;> decide
  have hall : ∀ y ∈ groupOf codes, y.toNat ≤ 90 ∧ y ≠ 'b' ∧ y ≠ 'r' := by
    intro y hy
    cases codes with
    | nil =>
      have hnil : groupOf ([] : List JSString) = ['(', ')'] := rfl
      rw [hnil] at hy
      simp only [List.mem_cons, List.mem_singleton, List.not_mem_nil, or_false] at hy
      rcases hy with rfl | rfl <;> decide
    | cons c cs =>
      simp only [groupOf, intercalate_cons, List.cons_append, List.mem_cons, List.mem_append,
        List.mem_flatten, List.mem_map, List.mem_singleton, List.not_mem_nil, or_false] at hy
      rcases hy with rfl | (hy | ⟨l, ⟨d, hd, rfl⟩, hy⟩) | rfl
      · decide
      · exact hcode c (List.mem_cons_self _ _) y hy
      · simp only [List.mem_cons, List.mem_singleton] at hy
        rcases hy with rfl | hy
        · decide
        · exact hcode d (List.mem_cons_of_mem _ hd) y hy
      · decide
  intro x hx hmem
  obtain ⟨h90, hb, hr⟩ := hall x hmem
  have hx4 : x = '[' ∨ x = 'b' ∨ x = 'r' ∨ x = ']' := by simpa using hx
  rcases hx4 with rfl | rfl | rfl | rfl
  · revert h90; decide
  · exact hb rfl
  · exact hr rfl
  · revert h90; decide

/-- An allergen group of the text stands on one of its lines. -/
theorem allergenGroup_line {codes : List JSString}
    (hcodes : ∀ c ∈ codes, IsAllergenCode c) {text : JSString}
    (ho : Occurs (groupOf codes) text) :
    ∃ line ∈ splitLines text, Occurs (groupOf codes) line := by
  have hsep : "[br]".toList ≠ [] := by decide
  have hg : groupOf codes ≠ [] := by simp [groupOf]
  rw [← join_split hsep text] at ho
  obtain ⟨seg, hseg, hocc⟩ := occurs_join hg (allergenGroup_chars hcodes) hsep _ ho
  obtain ⟨a, b, hab⟩ := hocc
  obtain ⟨a1, b1, ht⟩ := trim_keeps (x := '(') (y := ')') (by decide) (by decide) a
    (List.intercalate [','] codes) b seg (by rw [hab]; simp [groupOf])
  exact ⟨trim seg, List.mem_map_of_mem _ hseg, a1, b1, by rw [ht]; simp [groupOf]⟩

/-- C19: allergen groups are extracted and not stripped from the display
text: for every entry whose last line contains no parentheses, every group
`(L1,...,Lk)` of capital letters that occurs on a line (or anywhere in
`menueText`) occurs in `menueTextWithBr` and in `menueTextWithSpaces` as
`(L1, ..., Lk)`, with a space after each comma, and its letters are in
`allergeneIds`; `Salat (A,G)[br]Brot` yields `Salat (A, G)<br/>Brot` and the
codes `A`, `G`. -/
theorem allergen_groups_kept (e : TagesMenue) (last : JSString)
    (hlast : (splitLines e.menueText).getLast? = some last) (hno : NoParens last) :
    (∃ p, (processMenueItem e).processed = some p ∧
      ∀ codes : List JSString, codes ≠ [] → (∀ c ∈ codes, IsAllergenCode c) →
        (∀ line ∈ splitLines e.menueText, Occurs (groupOf codes) line →
          Occurs (spacedGroupOf codes) p.menueTextWithBr ∧
          Occurs (spacedGroupOf codes) p.menueTextWithSpaces) ∧
        (Occurs (groupOf codes) e.menueText →
          Occurs (spacedGroupOf codes) p.menueTextWithBr ∧
          Occurs (spacedGroupOf codes) p.menueTextWithSpaces ∧
          ∀ c ∈ codes, c ∈ p.allergeneIds)) ∧
    (processText "Salat (A,G)[br]Brot".toList).menueTextWithBr =
      "Salat (A, G)<br/>Brot".toList ∧
    (processText "Salat (A,G)[br]Brot".toList).menueTextWithSpaces =
      "Salat (A, G) Brot".toList ∧
    (processText "Salat (A,G)[br]Brot".toList).allergeneIds = ["A".toList, "G".toList] := by
  have hnog : ¬ HasParenGroup last := by
    rintro ⟨m, ⟨body, -, -, rfl⟩, a, b, hab⟩
    exact hno.1 (by rw [hab]; simp)
  have hd : displayLines e.menueText =
      ((splitLines e.menueText).map stripAdditives).map normaliseCommas := by
    unfold displayLines
    rw [(dropLegend_eq _ last hlast).2 hnog]
  have hline : ∀ codes : List JSString, codes ≠ [] → (∀ c ∈ codes, IsAllergenCode c) →
      ∀ line ∈ splitLines e.menueText, Occurs (groupOf codes) line →
        ∀ sep, Occurs (spacedGroupOf codes) (join sep (displayLines e.menueText)) := by
    intro codes hne hcodes line hl ho sep
    have hflat := groupOf_isFlatGroup hne fun c hc => isAllergenCode_plain (hcodes c hc)
    have hnot := allergenGroup_not_additive hne hcodes
    obtain ⟨a, b, hab⟩ := stripAdditives_occurs hflat hnot _ line (le_refl _) ho
    obtain ⟨A, hA⟩ := normaliseCommas_group hne hcodes a b
    have hmem : normaliseCommas (stripAdditives line) ∈ displayLines e.menueText := by
      rw [hd]
      exact List.mem_map_of_mem _ (List.mem_map_of_mem _ hl)
    have hocc : Occurs (spacedGroupOf codes) (normaliseCommas (stripAdditives line)) :=
      ⟨A, normaliseCommas b, by rw [hab, hA]⟩
    exact occurs_trans hocc (occurs_join_of_mem sep _ _ hmem)
  refine ⟨⟨_, processed_eq e, ?_⟩, by decide, by decide, by decide⟩
  intro codes hne hcodes
  refine ⟨fun line hl ho => ⟨hline codes hne hcodes line hl ho _,
    hline codes hne hcodes line hl ho _⟩, ?_⟩
  intro ho
  obtain ⟨line, hl, hol⟩ := allergenGroup_line hcodes ho
  exact ⟨hline codes hne hcodes line hl hol _, hline codes hne hcodes line hl hol _,
    extractIds_complete IsAllergenCode (fun _ hc => isAllergenCode_plain hc) lang_allergenRe
      e.menueText codes hne hcodes ho⟩

/-- C19 (witness): the last line of `Salat (A,G)[br]Brot` is `Brot`. -/
theorem allergen_groups_kept_witness :
    (splitLines (entryOf "Salat (A,G)[br]Brot".toList).menueText).getLast? =
      some "Brot".toList ∧
    NoParens "Brot".toList ∧
    ∃ p, (processMenueItem (entryOf "Salat (A,G)[br]Brot".toList)).processed = some p ∧
      ∀ codes : List JSString, codes ≠ [] → (∀ c ∈ codes, IsAllergenCode c) →
        (∀ line ∈ splitLines (entryOf "Salat (A,G)[br]Brot".toList).menueText,
          Occurs (groupOf codes) line →
          Occurs (spacedGroupOf codes) p.menueTextWithBr ∧
          Occurs (spacedGroupOf codes) p.menueTextWithSpaces) ∧
        (Occurs (groupOf codes) (entryOf "Salat (A,G)[br]Brot".toList).menueText →
          Occurs (spacedGroupOf codes) p.menueTextWithBr ∧
          Occurs (spacedGroupOf codes) p.menueTextWithSpaces ∧
          ∀ c ∈ codes, c ∈ p.allergeneIds) :=
  ⟨by decide, ⟨by decide, by decide⟩,
    (allergen_groups_kept (entryOf "Salat (A,G)[br]Brot".toList) "Brot".toList (by decide)
      ⟨by decide, by decide⟩).1⟩

end Essensplan
